import Mathlib

/-!
Verification development for a two-stage language front end (lexer and
recursive-descent parser) written in Rust.  The Rust code is embedded
shallowly: each Rust function becomes a Lean function over an explicit
state record; Rust while-loops become fuel-indexed structural recursions
whose fuel argument is instantiated with the exact loop measure
(input length minus cursor), so that fuel exhaustion coincides with the
loop guard being false.  Machine integers (usize) are modelled as Nat;
Rust Result becomes Except.

Deviations, each noted at its definition site:
* NumberLiteral carries the consumed source text instead of an f64
  (64-bit floats are not modelled; the value is a function of the text,
  and parsing a nonempty ASCII digit-and-dot span as f64 cannot fail, so
  the InvalidNumber arm of the Rust code is dead there).
* ParseError.UnexpectedToken stores the found token type itself rather
  than its Debug-format string; the string is a function of the type.
-/

/-- The null character returned by peek at end of input (Rust `\0`). -/
def nullChar : Char := Char.ofNat 0

/-- Token categories, from src/lexer/token.rs (enum TokenType).
NumberLiteral carries the consumed source text rather than an f64. -/
inductive TokenType where
  | Module
  | Type
  | Const
  | Let
  | Number
  | String
  | Boolean
  | LeftBrace
  | RightBrace
  | LeftParen
  | RightParen
  | Colon
  | Arrow
  | Equals
  | Dot
  | Comma
  | Identifier (s : String)
  | NumberLiteral (s : String)
  | StringLiteral (s : String)
  | BooleanLiteral (b : Bool)
  | EOF
deriving DecidableEq, BEq

/-- A token with position information, from src/lexer/token.rs (struct Token). -/
structure Token where
  token_type : TokenType
  line : Nat
  column : Nat
deriving DecidableEq, BEq

/-- Lexical errors, from src/lexer/error.rs (enum LexerError). -/
inductive LexerError where
  | UnterminatedString (line column : Nat)
  | InvalidNumber (line column : Nat)
  | UnexpectedCharacter (c : Char) (line column : Nat)
  | UnexpectedEOF (line column : Nat)
deriving DecidableEq, BEq

/-- Lexer state, from src/lexer/mod.rs (struct Lexer). -/
structure Lexer where
  input : List Char
  start : Nat
  current : Nat
  line : Nat
  column : Nat
deriving DecidableEq, BEq

/-- Lexer::new -/
def Lexer.new (s : List Char) : Lexer := ⟨s, 0, 0, 1, 1⟩

namespace Lexer

/-- Lexer::is_at_end -/
def isAtEnd (l : Lexer) : Bool := l.input.length ≤ l.current

/-- Lexer::peek -/
def peek (l : Lexer) : Char :=
  if l.isAtEnd then nullChar else l.input.getD l.current nullChar

/-- Lexer::peek_next -/
def peekNext (l : Lexer) : Char :=
  if l.input.length ≤ l.current + 1 then nullChar else l.input.getD (l.current + 1) nullChar

/-- The state change of a successful Lexer::advance (current += 1, column += 1). -/
def bump (l : Lexer) : Lexer :=
  { l with current := l.current + 1, column := l.column + 1 }

/-- Lexer::advance -/
def advance (l : Lexer) : Except LexerError (Char × Lexer) :=
  if l.isAtEnd then .error (.UnexpectedEOF l.line l.column)
  else .ok (l.input.getD l.current nullChar, l.bump)

/-- Lexer::match_char -/
def matchChar (l : Lexer) (expected : Char) : Bool × Lexer :=
  if l.isAtEnd || l.input.getD l.current nullChar != expected then (false, l)
  else (true, l.bump)

/-- The remaining unconsumed input of a lexer state. -/
def dropCur (l : Lexer) : List Char := l.input.drop l.current

/-- Fuel-indexed form of the comment-skipping inner loop of
Lexer::skip_whitespace (while not at end and peek is not a newline,
advance).  The advance is the Rust advance().unwrap(): it is guarded by
the loop condition, so the success-path state change bump applies. -/
def skipCommentLoopF : Nat → Lexer → Lexer
  | 0, l => l
  | fuel + 1, l =>
    if !l.isAtEnd && l.peek != '\n' then skipCommentLoopF fuel l.bump else l

/-- The comment-skipping inner loop; fuel is the exact loop measure. -/
def skipCommentLoop (l : Lexer) : Lexer :=
  skipCommentLoopF (l.input.length - l.current) l

/-- Fuel-indexed form of the outer loop of Lexer::skip_whitespace. -/
def skipWsLoopF : Nat → Lexer → Lexer
  | 0, l => l
  | fuel + 1, l =>
    if l.isAtEnd then l
    else if l.peek = ' ' ∨ l.peek = '\r' ∨ l.peek = '\t' then
      skipWsLoopF fuel l.bump
    else if l.peek = '\n' then
      skipWsLoopF fuel (bump { l with line := l.line + 1, column := 1 })
    else if l.peek = '/' ∧ l.peekNext = '/' then
      skipWsLoopF fuel (skipCommentLoop l)
    else l

/-- Lexer::skip_whitespace: the loop, then start is set to current. -/
def skipWhitespace (l : Lexer) : Lexer :=
  let l1 := skipWsLoopF (l.input.length - l.current) l
  { l1 with start := l1.current }

/-- Lexer::make_token -/
def makeToken (l : Lexer) (token_type : TokenType) : Token :=
  ⟨token_type, l.line, l.column - (l.current - l.start)⟩

/-- Fuel-indexed form of the scanning loop of Lexer::string
(while not at end and peek is not a quote: bump line on newline, advance). -/
def stringLoopF : Nat → Lexer → Except LexerError Lexer
  | 0, l => .ok l
  | fuel + 1, l =>
    if !l.isAtEnd && l.peek != '"' then
      let l1 := if l.peek = '\n' then { l with line := l.line + 1, column := 1 } else l
      match advance l1 with
      | .error e => .error e
      | .ok (_, l2) => stringLoopF fuel l2
    else .ok l

/-- Lexer::string: scan to the closing quote, then build the token with
the surrounding quotes stripped (Rust slice input of start+1 up to current-1). -/
def string (l : Lexer) : Except LexerError (Token × Lexer) :=
  match stringLoopF (l.input.length - l.current) l with
  | .error e => .error e
  | .ok l1 =>
    if l1.isAtEnd then .error (.UnterminatedString l1.line l1.column)
    else
      match advance l1 with
      | .error e => .error e
      | .ok (_, l2) =>
        let content := (l2.input.drop (l2.start + 1)).take (l2.current - 1 - (l2.start + 1))
        .ok (l2.makeToken (.StringLiteral (String.mk content)), l2)

/-- Fuel-indexed form of the digit-consuming loops of Lexer::number. -/
def digitsLoopF : Nat → Lexer → Except LexerError Lexer
  | 0, l => .ok l
  | fuel + 1, l =>
    if !l.isAtEnd && (l.peek).isDigit then
      match advance l with
      | .error e => .error e
      | .ok (_, l') => digitsLoopF fuel l'
    else .ok l

/-- The token built at the end of Lexer::number.  Rust parses the span
input of start up to current as f64; on a nonempty span drawn from ASCII
digits and at most one interior dot that parse always succeeds, so the
InvalidNumber arm is dead and the token carries the span text. -/
def numberToken (l : Lexer) : Token :=
  l.makeToken (.NumberLiteral (String.mk ((l.input.drop l.start).take (l.current - l.start))))

/-- Lexer::number: integer digits, then an optional fraction introduced by
a dot that is immediately followed by a digit. -/
def number (l : Lexer) : Except LexerError (Token × Lexer) :=
  match digitsLoopF (l.input.length - l.current) l with
  | .error e => .error e
  | .ok l1 =>
    if !l1.isAtEnd && l1.peek = '.' && (l1.peekNext).isDigit then
      match advance l1 with
      | .error e => .error e
      | .ok (_, l2) =>
        match digitsLoopF (l2.input.length - l2.current) l2 with
        | .error e => .error e
        | .ok l3 => .ok (numberToken l3, l3)
    else .ok (numberToken l1, l1)

/-- Whether a character continues an identifier (ASCII alphanumeric or
underscore), matching the loop condition of Lexer::identifier. -/
def isIdentChar (c : Char) : Bool := c.isAlphanum || c = '_'

/-- Fuel-indexed form of the consuming loop of Lexer::identifier. -/
def identLoopF : Nat → Lexer → Except LexerError Lexer
  | 0, l => .ok l
  | fuel + 1, l =>
    if !l.isAtEnd && isIdentChar l.peek then
      match advance l with
      | .error e => .error e
      | .ok (_, l') => identLoopF fuel l'
    else .ok l

/-- The keyword table of Lexer::identifier. -/
def keywordOrIdent (text : String) : TokenType :=
  if text = "module" then .Module
  else if text = "type" then .Type
  else if text = "const" then .Const
  else if text = "let" then .Let
  else if text = "Number" then .Number
  else if text = "String" then .String
  else if text = "Boolean" then .Boolean
  else if text = "true" then .BooleanLiteral true
  else if text = "false" then .BooleanLiteral false
  else .Identifier text

/-- Lexer::identifier -/
def identifier (l : Lexer) : Except LexerError (Token × Lexer) :=
  match identLoopF (l.input.length - l.current) l with
  | .error e => .error e
  | .ok l1 =>
    let text := String.mk ((l1.input.drop l1.start).take (l1.current - l1.start))
    .ok (l1.makeToken (keywordOrIdent text), l1)

/-- Lexer::next_token -/
def nextToken (l : Lexer) : Except LexerError (Token × Lexer) :=
  let l0 := skipWhitespace l
  if l0.isAtEnd then .ok (l0.makeToken .EOF, l0)
  else
    let l1 := { l0 with start := l0.current }
    match advance l1 with
    | .error e => .error e
    | .ok (c, l2) =>
      if c = '{' then .ok (l2.makeToken .LeftBrace, l2)
      else if c = '}' then .ok (l2.makeToken .RightBrace, l2)
      else if c = '(' then .ok (l2.makeToken .LeftParen, l2)
      else if c = ')' then .ok (l2.makeToken .RightParen, l2)
      else if c = ':' then .ok (l2.makeToken .Colon, l2)
      else if c = '=' then
        match matchChar l2 '>' with
        | (true, l3) => .ok (l3.makeToken .Arrow, l3)
        | (false, l3) => .ok (l3.makeToken .Equals, l3)
      else if c = '.' then .ok (l2.makeToken .Dot, l2)
      else if c = ',' then .ok (l2.makeToken .Comma, l2)
      else if c = '"' then string l2
      else if c.isDigit then number l2
      else if c.isAlpha || c = '_' then identifier l2
      else .error (.UnexpectedCharacter c l2.line (l2.column - 1))

/-- Fuel-indexed form of the loop of Lexer::tokenize.  The out-of-fuel
value is never reached from the wrapper below, because every token other
than EOF consumes at least one input character (tokenizeF_irrel). -/
def tokenizeF : Nat → Lexer → Except LexerError (List Token)
  | 0, _ => .error (.UnexpectedCharacter nullChar 0 0)
  | fuel + 1, l =>
    match nextToken l with
    | .error e => .error e
    | .ok (t, l') =>
      if t.token_type = .EOF then .ok [t]
      else
        match tokenizeF fuel l' with
        | .error e => .error e
        | .ok ts => .ok (t :: ts)

/-- Lexer::tokenize: repeated next_token until EOF, inclusive. -/
def tokenize (l : Lexer) : Except LexerError (List Token) :=
  tokenizeF (l.input.length - l.current + 1) l

end Lexer

deriving instance DecidableEq for Except

namespace Ast

/-- AST type names, from src/ast/mod.rs (enum Type; renamed, Type is a
Lean keyword, and the types live in the Ast namespace because Module
would otherwise collide with a Mathlib name). -/
inductive Ty where
  | Number
  | String
  | Boolean
  | Custom (name : String)
deriving DecidableEq, BEq

/-- Expressions, from src/ast/mod.rs (enum Expression).  NumberLiteral
carries the source text, matching TokenType.NumberLiteral. -/
inductive Expression where
  | NumberLiteral (s : String)
  | StringLiteral (s : String)
  | BooleanLiteral (b : Bool)
  | Identifier (name : String)
  | Object (fields : List (String × Expression))

/-- A (name, type) pair, from src/ast/mod.rs (struct TypeField). -/
structure TypeField where
  name : String
  field_type : Ty
deriving DecidableEq, BEq

/-- From src/ast/mod.rs (struct TypeDefinition). -/
structure TypeDefinition where
  name : String
  fields : List TypeField
deriving DecidableEq, BEq

/-- Statements, from src/ast/mod.rs (enum Statement). -/
inductive Statement where
  | Let (name : String) (value : Expression)
  | Const (name : String) (value : Expression)
  | TypeDef (td : TypeDefinition)

/-- From src/ast/mod.rs (struct Module). -/
structure Module where
  name : String
  statements : List Statement

/-- The AST root, from src/ast/mod.rs (struct Program). -/
structure Program where
  modules : List Module

end Ast

/-- Syntactic errors, from src/parser/error.rs (enum ParseError).
The Rust UnexpectedToken stores format-Debug strings for expected and
found; here found is stored as the token type itself, from which the
Rust string is derived, and expected keeps the string the Rust code
passes (a literal, or the Debug name of the expected type in consume). -/
inductive ParseError where
  | UnexpectedToken (expected : String) (found : TokenType) (line column : Nat)
  | InvalidExpression (message : String) (line column : Nat)
  | UnexpectedEOF (line column : Nat)
deriving DecidableEq, BEq

/-- The Debug-format name of a token type, as produced by the Rust
derive(Debug) and used by Parser::consume for the expected field.  For
the payload-carrying variants the Rust string also renders the payload;
consume is only ever called with payload-free variants, so those
renderings (which for NumberLiteral would involve f64 formatting) are
abbreviated to the variant name here.  (Defined outside the TokenType
namespace so that String in the signature denotes the string type.) -/
def ttDebugStr : TokenType → String
  | .Module => "Module"
  | .Type => "Type"
  | .Const => "Const"
  | .Let => "Let"
  | .Number => "Number"
  | .String => "String"
  | .Boolean => "Boolean"
  | .LeftBrace => "LeftBrace"
  | .RightBrace => "RightBrace"
  | .LeftParen => "LeftParen"
  | .RightParen => "RightParen"
  | .Colon => "Colon"
  | .Arrow => "Arrow"
  | .Equals => "Equals"
  | .Dot => "Dot"
  | .Comma => "Comma"
  | .Identifier _ => "Identifier"
  | .NumberLiteral _ => "NumberLiteral"
  | .StringLiteral _ => "StringLiteral"
  | .BooleanLiteral _ => "BooleanLiteral"
  | .EOF => "EOF"

/-- Parser state, from src/parser/mod.rs (struct Parser). -/
structure Parser where
  tokens : List Token
  current : Nat
deriving DecidableEq, BEq

/-- Parser::new -/
def Parser.new (tokens : List Token) : Parser := ⟨tokens, 0⟩

namespace Parser

/-- The default used to totalise list indexing.  Rust panics on an
out-of-range index; the bounds invariants proved below show the default
is never consulted on EOF-terminated inputs. -/
def defaultToken : Token := ⟨.EOF, 0, 0⟩

/-- Parser::peek (Rust indexes tokens at current, panicking out of range). -/
def peek (p : Parser) : Token := p.tokens.getD p.current defaultToken

/-- Parser::previous (Rust indexes tokens at current - 1; for Nat the
subtraction truncates at zero where Rust would panic). -/
def previous (p : Parser) : Token := p.tokens.getD (p.current - 1) defaultToken

/-- Parser::is_at_end -/
def isAtEnd (p : Parser) : Bool := (peek p).token_type == .EOF

/-- Parser::advance: step the cursor unless at end, then return previous. -/
def advance (p : Parser) : Token × Parser :=
  let p' := if p.isAtEnd then p else { p with current := p.current + 1 }
  (previous p', p')

/-- Parser::check -/
def check (p : Parser) (token_type : TokenType) : Bool :=
  if p.isAtEnd then false else (peek p).token_type == token_type

/-- Parser::match_token -/
def matchToken (p : Parser) (token_type : TokenType) : Bool × Parser :=
  if p.check token_type then (true, (advance p).2) else (false, p)

/-- Parser::consume.  The message argument is accepted for fidelity but,
as in the Rust code, never appears in the produced error. -/
def consume (p : Parser) (token_type : TokenType) (_message : String) : Except ParseError (Token × Parser) :=
  if p.check token_type then .ok (advance p)
  else .error (.UnexpectedToken (ttDebugStr token_type) (peek p).token_type (peek p).line (peek p).column)

/-- Parser::parse_type -/
def parseType (p : Parser) : Except ParseError (Ast.Ty × Parser) :=
  match advance p with
  | (t, p') =>
    match t.token_type with
    | .Number => .ok (.Number, p')
    | .String => .ok (.String, p')
    | .Boolean => .ok (.Boolean, p')
    | .Identifier name => .ok (.Custom name, p')
    | _ =>
      .error (.UnexpectedToken "type" (previous p').token_type (previous p').line (previous p').column)

/-- Parser::parse_type_field -/
def parseTypeField (p : Parser) : Except ParseError (Ast.TypeField × Parser) :=
  match advance p with
  | (t, p1) =>
    match t.token_type with
    | .Identifier name =>
      match consume p1 .Colon "Expected colon after field name" with
      | .error e => .error e
      | .ok (_, p2) =>
        match parseType p2 with
        | .error e => .error e
        | .ok (field_type, p3) => .ok (⟨name, field_type⟩, p3)
    | _ =>
      .error (.UnexpectedToken "identifier" (previous p1).token_type (previous p1).line (previous p1).column)

/-- Parser::parse_primary -/
def parsePrimary (p : Parser) : Except ParseError (Ast.Expression × Parser) :=
  match advance p with
  | (t, p') =>
    match t.token_type with
    | .NumberLiteral n => .ok (.NumberLiteral n, p')
    | .StringLiteral s => .ok (.StringLiteral s, p')
    | .BooleanLiteral b => .ok (.BooleanLiteral b, p')
    | .Identifier name => .ok (.Identifier name, p')
    | _ => .error (.UnexpectedToken "literal or identifier" t.token_type t.line t.column)

mutual

/-- Parser::parse_expression, fuel-indexed.  Fuel exhaustion yields none,
a case shown unreachable for the fuel the wrappers pass (exprGroup_some). -/
def parseExpressionF : Nat → Parser → Option (Except ParseError (Ast.Expression × Parser))
  | 0, _ => none
  | fuel + 1, p =>
    match (peek p).token_type with
    | .NumberLiteral _ => some (parsePrimary p)
    | .StringLiteral _ => some (parsePrimary p)
    | .BooleanLiteral _ => some (parsePrimary p)
    | .Identifier _ => some (parsePrimary p)
    | .LeftBrace => parseObjectExpressionF fuel p
    | _ =>
      some (.error (.UnexpectedToken "expression" (peek p).token_type (peek p).line (peek p).column))

/-- The field loop of Parser::parse_object_expression, fuel-indexed. -/
def objectFieldsLoopF : Nat → Parser → List (String × Ast.Expression) →
    Option (Except ParseError (List (String × Ast.Expression) × Parser))
  | 0, _, _ => none
  | fuel + 1, p, fields =>
    if !(p.check .RightBrace) && !p.isAtEnd then
      match advance p with
      | (t, p1) =>
        match t.token_type with
        | .Identifier name =>
          match consume p1 .Colon "Expected colon after field name" with
          | .error e => some (.error e)
          | .ok (_, p2) =>
            match parseExpressionF fuel p2 with
            | none => none
            | some (.error e) => some (.error e)
            | some (.ok (value, p3)) =>
              let p4 := if p3.check .Comma then (advance p3).2 else p3
              objectFieldsLoopF fuel p4 (fields ++ [(name, value)])
        | _ =>
          some (.error (.UnexpectedToken "identifier" (previous p1).token_type
            (previous p1).line (previous p1).column))
    else some (.ok (fields, p))

/-- Parser::parse_object_expression, fuel-indexed. -/
def parseObjectExpressionF : Nat → Parser → Option (Except ParseError (Ast.Expression × Parser))
  | 0, _ => none
  | fuel + 1, p =>
    match consume p .LeftBrace "Expected left brace for object literal" with
    | .error e => some (.error e)
    | .ok (_, p1) =>
      match objectFieldsLoopF fuel p1 [] with
      | none => none
      | some (.error e) => some (.error e)
      | some (.ok (fields, p2)) =>
        match consume p2 .RightBrace "Expected right brace after object fields" with
        | .error e => some (.error e)
        | .ok (_, p3) => some (.ok (.Object fields, p3))

end

/-- The fuel every wrapper passes: ample for the token count
(exprGroup_some shows any fuel exceeding 2 * remaining suffices). -/
def fuelFor (p : Parser) : Nat := 2 * (p.tokens.length - p.current) + 2

/-- Parser::parse_expression. -/
def parseExpression (p : Parser) : Option (Except ParseError (Ast.Expression × Parser)) :=
  parseExpressionF (fuelFor p) p

/-- Parser::parse_let_statement (called after the let keyword is consumed). -/
def parseLetStatement (p : Parser) : Option (Except ParseError (Ast.Statement × Parser)) :=
  match advance p with
  | (t, p1) =>
    match t.token_type with
    | .Identifier name =>
      match consume p1 .Equals "Expected equals after variable name" with
      | .error e => some (.error e)
      | .ok (_, p2) =>
        match parseExpression p2 with
        | none => none
        | some (.error e) => some (.error e)
        | some (.ok (value, p3)) => some (.ok (.Let name value, p3))
    | _ =>
      some (.error (.UnexpectedToken "identifier" (previous p1).token_type
        (previous p1).line (previous p1).column))

/-- Parser::parse_const_statement (called after the const keyword is consumed). -/
def parseConstStatement (p : Parser) : Option (Except ParseError (Ast.Statement × Parser)) :=
  match advance p with
  | (t, p1) =>
    match t.token_type with
    | .Identifier name =>
      match consume p1 .Equals "Expected equals after constant name" with
      | .error e => some (.error e)
      | .ok (_, p2) =>
        match parseExpression p2 with
        | none => none
        | some (.error e) => some (.error e)
        | some (.ok (value, p3)) => some (.ok (.Const name value, p3))
    | _ =>
      some (.error (.UnexpectedToken "identifier" (previous p1).token_type
        (previous p1).line (previous p1).column))

/-- The field loop of Parser::parse_type_definition, fuel-indexed. -/
def typeFieldsLoopF : Nat → Parser → List Ast.TypeField → Option (Except ParseError (List Ast.TypeField × Parser))
  | 0, _, _ => none
  | fuel + 1, p, fields =>
    if !(p.check .RightBrace) && !p.isAtEnd then
      match parseTypeField p with
      | .error e => some (.error e)
      | .ok (f, p1) =>
        let p2 := if p1.check .Comma then (advance p1).2 else p1
        typeFieldsLoopF fuel p2 (fields ++ [f])
    else some (.ok (fields, p))

/-- Parser::parse_type_definition (called after the type keyword is consumed). -/
def parseTypeDefinition (p : Parser) : Option (Except ParseError (Ast.Statement × Parser)) :=
  match advance p with
  | (t, p1) =>
    match t.token_type with
    | .Identifier name =>
      match consume p1 .Arrow "Expected arrow after type name" with
      | .error e => some (.error e)
      | .ok (_, p2) =>
        match consume p2 .LeftBrace "Expected left brace after arrow" with
        | .error e => some (.error e)
        | .ok (_, p3) =>
          match typeFieldsLoopF (p3.tokens.length - p3.current + 1) p3 [] with
          | none => none
          | some (.error e) => some (.error e)
          | some (.ok (fields, p4)) =>
            match consume p4 .RightBrace "Expected right brace after type fields" with
            | .error e => some (.error e)
            | .ok (_, p5) => some (.ok (.TypeDef ⟨name, fields⟩, p5))
    | _ =>
      some (.error (.UnexpectedToken "identifier" (previous p1).token_type
        (previous p1).line (previous p1).column))

/-- Parser::parse_statement -/
def parseStatement (p : Parser) : Option (Except ParseError (Ast.Statement × Parser)) :=
  match matchToken p .Let with
  | (true, p1) => parseLetStatement p1
  | (false, _) =>
    match matchToken p .Const with
    | (true, p1) => parseConstStatement p1
    | (false, _) =>
      match matchToken p .Type with
      | (true, p1) => parseTypeDefinition p1
      | (false, _) =>
        some (.error (.UnexpectedToken "let, const, or type" (peek p).token_type
          (peek p).line (peek p).column))

/-- The statement loop of Parser::parse_module, fuel-indexed. -/
def statementsLoopF : Nat → Parser → List Ast.Statement → Option (Except ParseError (List Ast.Statement × Parser))
  | 0, _, _ => none
  | fuel + 1, p, stmts =>
    if !(p.check .RightBrace) && !p.isAtEnd then
      match parseStatement p with
      | none => none
      | some (.error e) => some (.error e)
      | some (.ok (s, p1)) => statementsLoopF fuel p1 (stmts ++ [s])
    else some (.ok (stmts, p))

/-- Parser::parse_module (called after the module keyword is consumed). -/
def parseModule (p : Parser) : Option (Except ParseError (Ast.Module × Parser)) :=
  match advance p with
  | (t, p1) =>
    match t.token_type with
    | .Identifier name =>
      match consume p1 .LeftBrace "Expected left brace after module name" with
      | .error e => some (.error e)
      | .ok (_, p2) =>
        match statementsLoopF (p2.tokens.length - p2.current + 1) p2 [] with
        | none => none
        | some (.error e) => some (.error e)
        | some (.ok (stmts, p3)) =>
          match consume p3 .RightBrace "Expected right brace after module body" with
          | .error e => some (.error e)
          | .ok (_, p4) => some (.ok (⟨name, stmts⟩, p4))
    | _ =>
      some (.error (.UnexpectedToken "identifier" (previous p1).token_type
        (previous p1).line (previous p1).column))

/-- The top-level loop of Parser::parse, fuel-indexed. -/
def programLoopF : Nat → Parser → List Ast.Module → Option (Except ParseError (List Ast.Module × Parser))
  | 0, _, _ => none
  | fuel + 1, p, mods =>
    if !p.isAtEnd then
      match matchToken p .Module with
      | (true, p1) =>
        match parseModule p1 with
        | none => none
        | some (.error e) => some (.error e)
        | some (.ok (m, p2)) => programLoopF fuel p2 (mods ++ [m])
      | (false, _) =>
        some (.error (.UnexpectedToken "module" (peek p).token_type (peek p).line (peek p).column))
    else some (.ok (mods, p))

/-- Parser::parse, with the state threaded explicitly.  The none case of
the loop is shown unreachable for this fuel (parseSt_no_fallback); the
stand-in error keeps the function total and is itself of the
UnexpectedToken variant. -/
def parseSt (p : Parser) : Except ParseError (Ast.Program × Parser) :=
  match programLoopF (p.tokens.length - p.current + 1) p [] with
  | none => .error (.UnexpectedToken "module" .EOF 0 0)
  | some (.error e) => .error e
  | some (.ok (mods, p')) => .ok (⟨mods⟩, p')

end Parser

/-- The public contract: Parser::new followed by Parser::parse. -/
def parse (tokens : List Token) : Except ParseError Ast.Program :=
  match Parser.parseSt (Parser.new tokens) with
  | .error e => .error e
  | .ok (prog, _) => .ok prog

/-! ### Helper lemmas about takeWhile and dropWhile -/

theorem takeWhile_len_le (p : Char → Bool) : ∀ xs : List Char, (xs.takeWhile p).length ≤ xs.length := by
  intro xs
  induction xs with
  | nil => simp
  | cons x t ih =>
    by_cases h : p x <;> simp [List.takeWhile_cons, h] <;> omega

theorem dropWhile_len_le (p : Char → Bool) : ∀ xs : List Char, (xs.dropWhile p).length ≤ xs.length := by
  intro xs
  induction xs with
  | nil => simp
  | cons x t ih =>
    by_cases h : p x <;> simp [List.dropWhile_cons, h] <;> omega

theorem dropWhile_eq_drop_len (p : Char → Bool) : ∀ xs : List Char,
    xs.dropWhile p = xs.drop (xs.takeWhile p).length := by
  intro xs
  induction xs with
  | nil => simp
  | cons x t ih =>
    by_cases h : p x <;> simp [List.dropWhile_cons, List.takeWhile_cons, h, ih]

/-! ### Pure character-level companion of the whitespace skipper

skipWsL mirrors, on a bare character list, the effect of the
skip_whitespace loop on the unconsumed input: whitespace characters are
dropped one at a time, a double slash drops everything up to the next
newline, and anything else stops the loop. -/

/-- Character-list form of the skip_whitespace loop. -/
def skipWsL : List Char → List Char
  | [] => []
  | c :: rest =>
    if c = ' ' ∨ c = '\r' ∨ c = '\t' ∨ c = '\n' then skipWsL rest
    else if c = '/' ∧ rest.head? = some '/' then
      skipWsL ((c :: rest).dropWhile (fun x => x != '\n'))
    else c :: rest
termination_by s => s.length
decreasing_by
  all_goals simp_all
  have := dropWhile_len_le (fun x => x != '\n') rest
  omega

namespace Lexer

/-! ### Basic state lemmas -/

theorem isAtEnd_false_iff (l : Lexer) : l.isAtEnd = false ↔ l.current < l.input.length := by
  simp [isAtEnd]

theorem isAtEnd_true_iff (l : Lexer) : l.isAtEnd = true ↔ l.input.length ≤ l.current := by
  simp [isAtEnd]

theorem dropCur_nil (l : Lexer) (h : l.isAtEnd = true) : dropCur l = [] := by
  rw [isAtEnd_true_iff] at h
  simp [dropCur, List.drop_eq_nil_of_le h]

theorem dropCur_cons (l : Lexer) (h : l.isAtEnd = false) :
    dropCur l = l.peek :: dropCur l.bump := by
  rw [isAtEnd_false_iff] at h
  have hp : l.peek = l.input.getD l.current nullChar := by
    simp [peek, isAtEnd, Nat.not_le.mpr h]
  rw [hp, List.getD_eq_getElem _ _ h]
  simpa [dropCur, bump] using List.drop_eq_getElem_cons h

theorem dropCur_len (l : Lexer) : (dropCur l).length = l.input.length - l.current := by
  simp [dropCur]

theorem advance_not_atEnd (l : Lexer) (h : l.isAtEnd = false) :
    advance l = .ok (l.peek, l.bump) := by
  rw [isAtEnd_false_iff] at h
  simp [advance, isAtEnd, Nat.not_le.mpr h, peek]

theorem advance_atEnd (l : Lexer) (h : l.isAtEnd = true) :
    advance l = .error (.UnexpectedEOF l.line l.column) := by
  simp [advance, h]

/-! ### Closed forms for the scanning loops -/

/-- The set of fields a loop never touches, plus the exact cursor and
column motion, for the identifier loop. -/
theorem identLoopF_spec : ∀ (fuel : Nat) (l : Lexer),
    l.input.length - l.current ≤ fuel →
    identLoopF fuel l = .ok ⟨l.input, l.start,
      l.current + ((dropCur l).takeWhile isIdentChar).length, l.line,
      l.column + ((dropCur l).takeWhile isIdentChar).length⟩ := by
  intro fuel
  induction fuel with
  | zero =>
    intro l h
    have hend : l.isAtEnd = true := by rw [isAtEnd_true_iff]; omega
    rw [dropCur_nil l hend]
    simp [identLoopF]
  | succ fuel ih =>
    intro l h
    by_cases hae : l.isAtEnd
    · rw [dropCur_nil l hae]
      simp [identLoopF, hae]
    · rw [Bool.not_eq_true] at hae
      by_cases hid : isIdentChar l.peek
      · have hlt := (isAtEnd_false_iff l).mp hae
        have hrec := ih l.bump (by simp [bump]; omega)
        rw [dropCur_cons l hae]
        simp only [identLoopF, hae, hid, Bool.not_false, Bool.and_self,
          advance_not_atEnd l hae, List.takeWhile_cons, if_pos rfl]
        rw [hrec]
        simp [bump, List.takeWhile_cons, hid, Lexer.mk.injEq]
        omega
      · rw [Bool.not_eq_true] at hid
        rw [dropCur_cons l hae]
        simp [identLoopF, hae, hid, List.takeWhile_cons]

theorem digitsLoopF_spec : ∀ (fuel : Nat) (l : Lexer),
    l.input.length - l.current ≤ fuel →
    digitsLoopF fuel l = .ok ⟨l.input, l.start,
      l.current + ((dropCur l).takeWhile Char.isDigit).length, l.line,
      l.column + ((dropCur l).takeWhile Char.isDigit).length⟩ := by
  intro fuel
  induction fuel with
  | zero =>
    intro l h
    have hend : l.isAtEnd = true := by rw [isAtEnd_true_iff]; omega
    rw [dropCur_nil l hend]
    simp [digitsLoopF]
  | succ fuel ih =>
    intro l h
    by_cases hae : l.isAtEnd
    · rw [dropCur_nil l hae]
      simp [digitsLoopF, hae]
    · rw [Bool.not_eq_true] at hae
      by_cases hid : (l.peek).isDigit
      · have hlt := (isAtEnd_false_iff l).mp hae
        have hrec := ih l.bump (by simp [bump]; omega)
        rw [dropCur_cons l hae]
        simp only [digitsLoopF, hae, hid, Bool.not_false, Bool.and_self,
          advance_not_atEnd l hae, List.takeWhile_cons, if_pos rfl]
        rw [hrec]
        simp [bump, List.takeWhile_cons, hid, Lexer.mk.injEq]
        omega
      · rw [Bool.not_eq_true] at hid
        rw [dropCur_cons l hae]
        simp [digitsLoopF, hae, hid, List.takeWhile_cons]

theorem skipCommentLoopF_spec : ∀ (fuel : Nat) (l : Lexer),
    l.input.length - l.current ≤ fuel →
    skipCommentLoopF fuel l = ⟨l.input, l.start,
      l.current + ((dropCur l).takeWhile (fun c => c != '\n')).length, l.line,
      l.column + ((dropCur l).takeWhile (fun c => c != '\n')).length⟩ := by
  intro fuel
  induction fuel with
  | zero =>
    intro l h
    have hend : l.isAtEnd = true := by rw [isAtEnd_true_iff]; omega
    rw [dropCur_nil l hend]
    simp [skipCommentLoopF]
  | succ fuel ih =>
    intro l h
    by_cases hae : l.isAtEnd
    · rw [dropCur_nil l hae]
      simp [skipCommentLoopF, hae]
    · rw [Bool.not_eq_true] at hae
      by_cases hnl : l.peek = '\n'
      · rw [dropCur_cons l hae]
        simp [skipCommentLoopF, hae, hnl, List.takeWhile_cons]
      · have hlt := (isAtEnd_false_iff l).mp hae
        have hrec := ih l.bump (by simp [bump]; omega)
        rw [dropCur_cons l hae]
        have hb : (l.peek != '\n') = true := by simp [hnl]
        simp only [skipCommentLoopF, hae, hb, Bool.not_false, Bool.and_self,
          List.takeWhile_cons, if_pos rfl]
        rw [hrec]
        simp [bump, Lexer.mk.injEq, hb]
        omega

end Lexer

theorem skipWsL_suffix : ∀ s : List Char, (skipWsL s).IsSuffix s := by
  intro s
  induction s using skipWsL.induct with
  | case1 => simp [skipWsL]
  | case2 c rest h ih => rw [skipWsL, if_pos h]; exact ih.trans (List.suffix_cons c rest)
  | case3 c rest h1 h2 ih =>
    rw [skipWsL, if_neg h1, if_pos h2]
    exact ih.trans (List.dropWhile_suffix _)
  | case4 c rest h1 h2 => rw [skipWsL, if_neg h1, if_neg h2]

theorem suffix_drop_eq {t xs : List Char} (h : t.IsSuffix xs) :
    xs.drop (xs.length - t.length) = t := by
  obtain ⟨u, rfl⟩ := h
  simp

theorem skipWsL_len_le (s : List Char) : (skipWsL s).length ≤ s.length :=
  (skipWsL_suffix s).length_le

/-- The line and column motion of the string-literal scanning loop: a
newline moves to the next line and leaves the column at 2 (the reset to 1
is followed by the unconditional advance increment); any other character
advances the column. -/
def strAdvLine : Nat → Nat → List Char → Nat × Nat
  | li, co, [] => (li, co)
  | li, co, c :: t => if c = '\n' then strAdvLine (li + 1) 2 t else strAdvLine li (co + 1) t

namespace Lexer

theorem stringLoopF_spec : ∀ (fuel : Nat) (l : Lexer),
    l.input.length - l.current ≤ fuel →
    stringLoopF fuel l = .ok ⟨l.input, l.start,
      l.current + ((dropCur l).takeWhile (fun c => c != '"')).length,
      (strAdvLine l.line l.column ((dropCur l).takeWhile (fun c => c != '"'))).1,
      (strAdvLine l.line l.column ((dropCur l).takeWhile (fun c => c != '"'))).2⟩ := by
  intro fuel
  induction fuel with
  | zero =>
    intro l h
    have hend : l.isAtEnd = true := by rw [isAtEnd_true_iff]; omega
    rw [dropCur_nil l hend]
    simp [stringLoopF, strAdvLine]
  | succ fuel ih =>
    intro l h
    by_cases hae : l.isAtEnd
    · rw [dropCur_nil l hae]
      simp [stringLoopF, hae, strAdvLine]
    · rw [Bool.not_eq_true] at hae
      have hlt := (isAtEnd_false_iff l).mp hae
      by_cases hq : l.peek = '"'
      · rw [dropCur_cons l hae]
        simp [stringLoopF, hae, hq, List.takeWhile_cons, strAdvLine]
      · have hb : (l.peek != '"') = true := by simp [hq]
        rw [dropCur_cons l hae]
        by_cases hnl : l.peek = '\n'
        · have hadv : advance { l with line := l.line + 1, column := 1 } =
              .ok (l.peek, bump { l with line := l.line + 1, column := 1 }) := by
            apply advance_not_atEnd
            simpa [isAtEnd] using hae
          have hrec := ih (bump { l with line := l.line + 1, column := 1 })
            (by simp [bump]; omega)
          simp only [stringLoopF, hae, hb, Bool.not_false, Bool.and_self, if_pos rfl,
            if_pos hnl, hadv]
          rw [hrec]
          have hdc : dropCur (bump { l with line := l.line + 1, column := 1 }) = dropCur l.bump := by
            simp [dropCur, bump]
          rw [hdc]
          simp [bump, List.takeWhile_cons, hb, strAdvLine, hnl, Lexer.mk.injEq]
          omega
        · have hadv := advance_not_atEnd l hae
          have hrec := ih l.bump (by simp [bump]; omega)
          simp only [stringLoopF, hae, hb, Bool.not_false, Bool.and_self, if_pos rfl,
            if_neg hnl, hadv]
          rw [hrec]
          simp [bump, List.takeWhile_cons, hb, strAdvLine, hnl, Lexer.mk.injEq]
          omega

theorem peekNext_eq_headD (l : Lexer) : l.peekNext = (dropCur l.bump).headD nullChar := by
  by_cases h : l.input.length ≤ l.current + 1
  · have : dropCur l.bump = [] := by simp [dropCur, bump, List.drop_eq_nil_of_le h]
    simp [peekNext, h, this]
  · push_neg at h
    have hb : (l.bump).isAtEnd = false := by simp [isAtEnd, bump]; omega
    rw [dropCur_cons l.bump hb]
    simp [peekNext, Nat.not_le.mpr h, peek, isAtEnd, bump]

theorem peekNext_slash_iff (l : Lexer) : l.peekNext = '/' ↔ (dropCur l.bump).head? = some '/' := by
  rw [peekNext_eq_headD]
  cases hdb : dropCur l.bump with
  | nil => decide
  | cons x t => simp [List.headD]

theorem skipWsLoopF_spec : ∀ (fuel : Nat) (l : Lexer),
    l.input.length - l.current ≤ fuel →
    ∃ li co, skipWsLoopF fuel l = ⟨l.input, l.start,
      l.current + ((dropCur l).length - (skipWsL (dropCur l)).length), li, co⟩ := by
  intro fuel
  induction fuel with
  | zero =>
    intro l h
    have hend : l.isAtEnd = true := by rw [isAtEnd_true_iff]; omega
    rw [dropCur_nil l hend]
    exact ⟨l.line, l.column, by simp [skipWsLoopF, skipWsL]⟩
  | succ fuel ih =>
    intro l h
    by_cases hae : l.isAtEnd
    · rw [dropCur_nil l hae]
      exact ⟨l.line, l.column, by simp [skipWsLoopF, hae, skipWsL]⟩
    · rw [Bool.not_eq_true] at hae
      have hlt := (isAtEnd_false_iff l).mp hae
      have hcons := dropCur_cons l hae
      by_cases hws : l.peek = ' ' ∨ l.peek = '\r' ∨ l.peek = '\t'
      · obtain ⟨li, co, hrec⟩ := ih l.bump (by simp [bump]; omega)
        refine ⟨li, co, ?_⟩
        rw [skipWsLoopF, if_neg (by simp [hae]), if_pos hws, hrec]
        have hsk : skipWsL (dropCur l) = skipWsL (dropCur l.bump) := by
          rw [hcons, skipWsL, if_pos (by rcases hws with h | h | h <;> simp [h])]
        have hlen := skipWsL_len_le (dropCur l.bump)
        rw [hsk, hcons]
        simp [bump, Lexer.mk.injEq, List.length_cons] at hlen ⊢
        omega
      · by_cases hnl : l.peek = '\n'
        · obtain ⟨li, co, hrec⟩ := ih (bump { l with line := l.line + 1, column := 1 })
            (by simp [bump]; omega)
          refine ⟨li, co, ?_⟩
          rw [skipWsLoopF, if_neg (by simp [hae]), if_neg hws, if_pos hnl, hrec]
          have hdc : dropCur (bump { l with line := l.line + 1, column := 1 }) = dropCur l.bump := by
            simp [dropCur, bump]
          have hsk : skipWsL (dropCur l) = skipWsL (dropCur l.bump) := by
            rw [hcons, skipWsL, if_pos (by simp [hnl])]
          have hlen := skipWsL_len_le (dropCur l.bump)
          rw [hdc, hsk, hcons]
          simp [bump, Lexer.mk.injEq, List.length_cons] at hlen ⊢
          omega
        · by_cases hcm : l.peek = '/' ∧ l.peekNext = '/'
          · have hspec := skipCommentLoopF_spec (l.input.length - l.current) l le_rfl
            set n1 := ((dropCur l).takeWhile (fun c => c != '\n')).length with hn1
            have hn1pos : 1 ≤ n1 := by
              rw [hn1, hcons, List.takeWhile_cons, if_pos (by simp [hcm.1, hnl])]
              simp
            have hn1le : n1 ≤ (dropCur l).length := by
              rw [hn1]; exact takeWhile_len_le _ _
            have hcl : skipCommentLoop l = ⟨l.input, l.start, l.current + n1, l.line, l.column + n1⟩ := by
              rw [skipCommentLoop, hspec, hn1]
            obtain ⟨li, co, hrec⟩ := ih ⟨l.input, l.start, l.current + n1, l.line, l.column + n1⟩
              (by simp; rw [dropCur_len] at hn1le; omega)
            refine ⟨li, co, ?_⟩
            rw [skipWsLoopF, if_neg (by simp [hae]), if_neg hws, if_neg hnl, if_pos hcm, hcl, hrec]
            have hdrop : dropCur (⟨l.input, l.start, l.current + n1, l.line, l.column + n1⟩ : Lexer) =
                (dropCur l).dropWhile (fun c => c != '\n') := by
              show l.input.drop (l.current + n1) = _
              rw [dropWhile_eq_drop_len, ← hn1]
              simp [dropCur, List.drop_drop]
            have hhead : (dropCur l.bump).head? = some '/' := (peekNext_slash_iff l).mp hcm.2
            have hsk : skipWsL (dropCur l) = skipWsL ((dropCur l).dropWhile (fun c => c != '\n')) := by
              conv_lhs => rw [hcons]
              rw [skipWsL, if_neg (by simp [hcm.1]), if_pos ⟨hcm.1, hhead⟩, ← hcons]
            have hlen2 := skipWsL_len_le ((dropCur l).dropWhile (fun c => c != '\n'))
            have hdl : ((dropCur l).dropWhile (fun c => c != '\n')).length = (dropCur l).length - n1 := by
              rw [dropWhile_eq_drop_len, ← hn1]
              simp
            rw [hdrop, hsk]
            simp [Lexer.mk.injEq]
            omega
          · refine ⟨l.line, l.column, ?_⟩
            rw [skipWsLoopF, if_neg (by simp [hae]), if_neg hws, if_neg hnl, if_neg hcm]
            have hnotws : ¬ (l.peek = ' ' ∨ l.peek = '\r' ∨ l.peek = '\t' ∨ l.peek = '\n') := by
              rintro (h | h | h | h)
              · exact hws (Or.inl h)
              · exact hws (Or.inr (Or.inl h))
              · exact hws (Or.inr (Or.inr h))
              · exact hnl h
            have hnotcm : ¬ (l.peek = '/' ∧ (dropCur l.bump).head? = some '/') := by
              rintro ⟨h1, h2⟩
              exact hcm ⟨h1, (peekNext_slash_iff l).mpr h2⟩
            have hsk : skipWsL (dropCur l) = dropCur l := by
              conv_lhs => rw [hcons]
              rw [skipWsL, if_neg hnotws, if_neg hnotcm, ← hcons]
            rw [hsk]
            simp [Lexer.mk.injEq]

end Lexer

theorem takeWhile_eq_take_len (p : Char → Bool) : ∀ xs : List Char,
    xs.take (xs.takeWhile p).length = xs.takeWhile p := by
  intro xs
  induction xs with
  | nil => simp
  | cons x t ih =>
    by_cases h : p x <;> simp [List.takeWhile_cons, h, ih]

/-- Position-erased lexical error kinds, used to compare runs of the
lexer from states at different positions. -/
inductive LexErrKind where
  | KUnterminatedString
  | KInvalidNumber
  | KUnexpectedCharacter (c : Char)
  | KUnexpectedEOF
deriving DecidableEq, BEq

/-- Forget the position of a lexical error. -/
def kindOf : LexerError → LexErrKind
  | .UnterminatedString _ _ => .KUnterminatedString
  | .InvalidNumber _ _ => .KInvalidNumber
  | .UnexpectedCharacter c _ _ => .KUnexpectedCharacter c
  | .UnexpectedEOF _ _ => .KUnexpectedEOF

/-- Pure form of Lexer::number after the first digit was consumed:
token type produced and remaining input. -/
def numTokT (c : Char) (rest : List Char) : TokenType × List Char :=
  let d1 := rest.takeWhile Char.isDigit
  let r1 := rest.dropWhile Char.isDigit
  match r1 with
  | '.' :: r2 =>
    if (r2.headD nullChar).isDigit then
      (.NumberLiteral (String.mk (c :: d1 ++ '.' :: r2.takeWhile Char.isDigit)),
        r2.dropWhile Char.isDigit)
    else (.NumberLiteral (String.mk (c :: d1)), r1)
  | _ => (.NumberLiteral (String.mk (c :: d1)), r1)

/-- Pure, position-free form of the dispatch of Lexer::next_token on the
first unconsumed character c, with rest the input after it. -/
def scanT (c : Char) (rest : List Char) : Except LexErrKind (TokenType × List Char) :=
  if c = '{' then .ok (.LeftBrace, rest)
  else if c = '}' then .ok (.RightBrace, rest)
  else if c = '(' then .ok (.LeftParen, rest)
  else if c = ')' then .ok (.RightParen, rest)
  else if c = ':' then .ok (.Colon, rest)
  else if c = '=' then
    match rest with
    | '>' :: r' => .ok (.Arrow, r')
    | _ => .ok (.Equals, rest)
  else if c = '.' then .ok (.Dot, rest)
  else if c = ',' then .ok (.Comma, rest)
  else if c = '"' then
    match rest.dropWhile (fun x => x != '"') with
    | [] => .error .KUnterminatedString
    | _ :: r' => .ok (.StringLiteral (String.mk (rest.takeWhile (fun x => x != '"'))), r')
  else if c.isDigit then .ok (numTokT c rest)
  else if c.isAlpha || c = '_' then
    .ok (Lexer.keywordOrIdent (String.mk (c :: rest.takeWhile Lexer.isIdentChar)),
      rest.dropWhile Lexer.isIdentChar)
  else .error (.KUnexpectedCharacter c)

/-- Pure, position-free form of Lexer::next_token over the unconsumed
input: the produced token type and the remaining input, or the error
kind.  nextToken_toT shows every run of next_token agrees with it. -/
def nextTokT (s : List Char) : Except LexErrKind (TokenType × List Char) :=
  match skipWsL s with
  | [] => .ok (.EOF, [])
  | c :: rest => scanT c rest

/-- Agreement between a stateful next_token result and a pure one: same
token type and same remaining input on success, same error kind on
failure. -/
def SimNT : Except LexerError (Token × Lexer) → Except LexErrKind (TokenType × List Char) → Prop
  | .ok (t, l'), .ok (τ, r) => t.token_type = τ ∧ Lexer.dropCur l' = r
  | .error e, .error k => kindOf e = k
  | _, _ => False

namespace Lexer

theorem skipWhitespace_spec (l : Lexer) :
    ∃ li co, skipWhitespace l =
      ⟨l.input, l.current + ((dropCur l).length - (skipWsL (dropCur l)).length),
        l.current + ((dropCur l).length - (skipWsL (dropCur l)).length), li, co⟩ := by
  obtain ⟨li, co, hloop⟩ := skipWsLoopF_spec (l.input.length - l.current) l le_rfl
  exact ⟨li, co, by rw [skipWhitespace, hloop]⟩

theorem skipWhitespace_atEnd (l : Lexer) (h : l.isAtEnd = true) :
    skipWhitespace l = { l with start := l.current } := by
  rw [isAtEnd_true_iff] at h
  have h0 : l.input.length - l.current = 0 := by omega
  rw [skipWhitespace, h0, skipWsLoopF]

theorem dropCur_skipWhitespace (l : Lexer) :
    dropCur (skipWhitespace l) = skipWsL (dropCur l) := by
  obtain ⟨li, co, hsp⟩ := skipWhitespace_spec l
  rw [hsp]
  show l.input.drop _ = _
  have hsuf := skipWsL_suffix (dropCur l)
  have hlen := skipWsL_len_le (dropCur l)
  have : l.input.drop (l.current + ((dropCur l).length - (skipWsL (dropCur l)).length)) =
      (dropCur l).drop ((dropCur l).length - (skipWsL (dropCur l)).length) := by
    simp [dropCur, List.drop_drop]
  rw [this, suffix_drop_eq hsuf]

end Lexer

theorem drop_cons_succ {input : List Char} {m : Nat} {c : Char} {rest : List Char}
    (hd : input.drop m = c :: rest) : input.drop (m + 1) = rest := by
  rw [← List.drop_drop 1 m, hd]
  simp

theorem drop_cons_lt {input : List Char} {m : Nat} {c : Char} {rest : List Char}
    (hd : input.drop m = c :: rest) : m < input.length := by
  by_contra h
  push_neg at h
  rw [List.drop_eq_nil_of_le h] at hd
  exact List.noConfusion hd

namespace Lexer

/-- Run of Lexer::identifier from the state just after the first
identifier character was consumed: the produced token type, and the
exact final state. -/
theorem identifier_run (input : List Char) (m li co : Nat) (c : Char) (rest : List Char)
    (hd : input.drop m = c :: rest) :
    ∃ tl tc, identifier ⟨input, m, m + 1, li, co⟩ =
      .ok (⟨keywordOrIdent (String.mk (c :: rest.takeWhile isIdentChar)), tl, tc⟩,
           ⟨input, m, m + 1 + (rest.takeWhile isIdentChar).length, li,
            co + (rest.takeWhile isIdentChar).length⟩) := by
  have hm := drop_cons_lt hd
  have hrest := drop_cons_succ hd
  have hdc : dropCur (⟨input, m, m + 1, li, co⟩ : Lexer) = rest := hrest
  have hspec := identLoopF_spec (input.length - (m + 1)) ⟨input, m, m + 1, li, co⟩ le_rfl
  rw [hdc] at hspec
  refine ⟨li, co + (rest.takeWhile isIdentChar).length -
    (m + 1 + (rest.takeWhile isIdentChar).length - m), ?_⟩
  rw [identifier, hspec]
  have htext : ((input.drop m).take (m + 1 + (rest.takeWhile isIdentChar).length - m)) =
      c :: rest.takeWhile isIdentChar := by
    rw [hd]
    have : m + 1 + (rest.takeWhile isIdentChar).length - m =
        (rest.takeWhile isIdentChar).length + 1 := by omega
    rw [this, List.take_succ_cons, takeWhile_eq_take_len]
  simp only [makeToken]
  rw [htext]

/-- Run of Lexer::string from the state just after the opening quote was
consumed.  If no closing quote remains the result is UnterminatedString
at the position reached at end of input; otherwise the token carries the
content with the quotes stripped and the exact final state is given. -/
theorem string_run (input : List Char) (m li co : Nat) (rest : List Char)
    (hrest : input.drop (m + 1) = rest) (hm : m < input.length) :
    (rest.dropWhile (fun x => x != '"') = [] →
      string ⟨input, m, m + 1, li, co⟩ =
        .error (.UnterminatedString
          (strAdvLine li co (rest.takeWhile (fun x => x != '"'))).1
          (strAdvLine li co (rest.takeWhile (fun x => x != '"'))).2)) ∧
    (∀ q r', rest.dropWhile (fun x => x != '"') = q :: r' →
      ∃ tl tc, string ⟨input, m, m + 1, li, co⟩ =
        .ok (⟨.StringLiteral (String.mk (rest.takeWhile (fun x => x != '"'))), tl, tc⟩,
             ⟨input, m, m + 1 + (rest.takeWhile (fun x => x != '"')).length + 1,
              (strAdvLine li co (rest.takeWhile (fun x => x != '"'))).1,
              (strAdvLine li co (rest.takeWhile (fun x => x != '"'))).2 + 1⟩)) := by
  have hdc : dropCur (⟨input, m, m + 1, li, co⟩ : Lexer) = rest := hrest
  have hspec := stringLoopF_spec (input.length - (m + 1)) ⟨input, m, m + 1, li, co⟩ le_rfl
  rw [hdc] at hspec
  set w := rest.takeWhile (fun x => x != '"') with hw
  set l3 : Lexer := ⟨input, m, m + 1 + w.length, (strAdvLine li co w).1, (strAdvLine li co w).2⟩
    with hl3
  have hdc3 : dropCur l3 = rest.dropWhile (fun x => x != '"') := by
    show input.drop (m + 1 + w.length) = _
    rw [← List.drop_drop w.length (m+1), hrest, hw, ← dropWhile_eq_drop_len]
  constructor
  · intro hnil
    have hend : l3.isAtEnd = true := by
      rw [isAtEnd_true_iff]
      have : (dropCur l3).length = 0 := by rw [hdc3, hnil]; rfl
      rw [dropCur_len] at this
      simp at this ⊢
      omega
    rw [string, hspec]
    dsimp only
    rw [hend]
    simp
  · intro q r' hcons
    have hnotend : l3.isAtEnd = false := by
      rw [isAtEnd_false_iff]
      have : (dropCur l3).length = r'.length + 1 := by rw [hdc3, hcons]; rfl
      rw [dropCur_len] at this
      simp at this ⊢
      omega
    refine ⟨(strAdvLine li co w).1, (strAdvLine li co w).2 + 1 -
      (m + 1 + w.length + 1 - m), ?_⟩
    rw [string, hspec]
    dsimp only
    rw [hnotend]
    simp only [Bool.false_eq_true, if_false, advance_not_atEnd l3 hnotend]
    have hcontent : ((bump l3).input.drop ((bump l3).start + 1)).take
        ((bump l3).current - 1 - ((bump l3).start + 1)) = w := by
      show (input.drop (m + 1)).take (m + 1 + w.length + 1 - 1 - (m + 1)) = w
      rw [hrest]
      have : m + 1 + w.length + 1 - 1 - (m + 1) = w.length := by omega
      rw [this, hw, takeWhile_eq_take_len]
    rw [show ((bump l3).makeToken (.StringLiteral (String.mk (((bump l3).input.drop
      ((bump l3).start + 1)).take ((bump l3).current - 1 - ((bump l3).start + 1))))), bump l3) =
      ((bump l3).makeToken (.StringLiteral (String.mk w)), bump l3) by rw [hcontent]]
    rfl

end Lexer

namespace Lexer

/-- Run of Lexer::number from the state just after the first digit was
consumed: token type and remaining input agree with the pure numTokT. -/
theorem number_run (input : List Char) (m li co : Nat) (c : Char) (rest : List Char)
    (hd : input.drop m = c :: rest) :
    ∃ tl tc l', number ⟨input, m, m + 1, li, co⟩ = .ok (⟨(numTokT c rest).1, tl, tc⟩, l') ∧
      dropCur l' = (numTokT c rest).2 ∧ l'.input = input ∧ m + 1 ≤ l'.current := by
  have hrest := drop_cons_succ hd
  have hdc : dropCur (⟨input, m, m + 1, li, co⟩ : Lexer) = rest := hrest
  have hspec := digitsLoopF_spec (input.length - (m + 1)) ⟨input, m, m + 1, li, co⟩ le_rfl
  rw [hdc] at hspec
  set d1 := rest.takeWhile Char.isDigit with hd1
  set n1 := d1.length with hn1
  set l4 : Lexer := ⟨input, m, m + 1 + n1, li, co + n1⟩ with hl4
  have hdc4 : dropCur l4 = rest.dropWhile Char.isDigit := by
    show input.drop (m + 1 + n1) = _
    rw [← List.drop_drop n1 (m + 1), hrest, hn1, hd1, ← dropWhile_eq_drop_len]
  have htake1 : (input.drop m).take (m + 1 + n1 - m) = c :: d1 := by
    rw [hd, show m + 1 + n1 - m = n1 + 1 by omega, List.take_succ_cons, hn1, hd1,
      takeWhile_eq_take_len]
  have hnum1 : numberToken l4 = ⟨.NumberLiteral (String.mk (c :: d1)), li,
      co + n1 - (m + 1 + n1 - m)⟩ := by
    show (⟨.NumberLiteral (String.mk ((input.drop m).take (m + 1 + n1 - m))), li,
      co + n1 - (m + 1 + n1 - m)⟩ : Token) = _
    rw [htake1]
  cases hr1 : rest.dropWhile Char.isDigit with
  | nil =>
    have hend : l4.isAtEnd = true := by
      rw [isAtEnd_true_iff]
      have : (dropCur l4).length = 0 := by rw [hdc4, hr1]; rfl
      rw [dropCur_len] at this
      simp at this ⊢
      omega
    have hmm : numTokT c rest = (.NumberLiteral (String.mk (c :: d1)), rest.dropWhile Char.isDigit) := by
      rw [numTokT]
      try dsimp only
      rw [hr1]
    refine ⟨li, co + n1 - (m + 1 + n1 - m), l4, ?_, ?_, rfl, by simp [hl4]⟩
    · rw [number, hspec]
      try dsimp only
      rw [hend]
      simp only [Bool.not_true, Bool.false_and, Bool.false_eq_true, if_false, hnum1, hmm]
    · rw [hdc4, hmm]
  | cons x r2 =>
    have hnotend : l4.isAtEnd = false := by
      rw [isAtEnd_false_iff]
      have : (dropCur l4).length = r2.length + 1 := by rw [hdc4, hr1]; rfl
      rw [dropCur_len] at this
      simp at this ⊢
      omega
    have hpeek : l4.peek = x := by
      have := dropCur_cons l4 hnotend
      rw [hdc4, hr1] at this
      exact (List.cons.injEq _ _ _ _ ▸ this).1.symm
    have hdc5 : dropCur l4.bump = r2 := by
      have h1 : input.drop (m + 1 + n1) = x :: r2 := by
        have h := hdc4
        rw [hr1] at h
        exact h
      exact drop_cons_succ h1
    have hpn : l4.peekNext = r2.headD nullChar := by
      rw [peekNext_eq_headD, hdc5]
    by_cases hdot : x = '.'
    · by_cases hdig : (r2.headD nullChar).isDigit
      · have hadv : advance l4 = .ok (l4.peek, l4.bump) := advance_not_atEnd l4 hnotend
        have hspec2 := digitsLoopF_spec (l4.bump.input.length - l4.bump.current) l4.bump le_rfl
        rw [hdc5] at hspec2
        set d2 := r2.takeWhile Char.isDigit with hd2
        set n2 := d2.length with hn2
        set l6 : Lexer := ⟨input, m, m + 1 + n1 + 1 + n2, li, co + n1 + 1 + n2⟩ with hl6
        have hl6eq : (⟨l4.bump.input, l4.bump.start, l4.bump.current + n2, l4.bump.line,
            l4.bump.column + n2⟩ : Lexer) = l6 := by
          simp [hl4, hl6, bump, Lexer.mk.injEq]
        have hdc5x : input.drop (m + 1 + n1 + 1) = r2 := hdc5
        have hdc6 : dropCur l6 = r2.dropWhile Char.isDigit := by
          show input.drop (m + 1 + n1 + 1 + n2) = _
          rw [← List.drop_drop n2 (m + 1 + n1 + 1), hdc5x, hn2, hd2, ← dropWhile_eq_drop_len]
        have hrestdec : rest = d1 ++ '.' :: r2 := by
          conv_lhs => rw [← List.takeWhile_append_dropWhile (p := Char.isDigit) (l := rest)]
          rw [hr1, hdot]
        have htake2 : (input.drop m).take (m + 1 + n1 + 1 + n2 - m) = c :: d1 ++ '.' :: d2 := by
          rw [hd, show m + 1 + n1 + 1 + n2 - m = (n1 + 1 + n2) + 1 by omega, List.take_succ_cons]
          rw [hrestdec, hn1, show d1.length + 1 + n2 = d1.length + (1 + n2) by omega,
            List.take_append]
          rw [show (1 : Nat) + n2 = n2 + 1 by omega]
          simp only [List.take_succ_cons]
          rw [hn2, hd2, takeWhile_eq_take_len]
          rfl
        have hnum2 : numberToken l6 = ⟨.NumberLiteral (String.mk (c :: d1 ++ '.' :: d2)), li,
            co + n1 + 1 + n2 - (m + 1 + n1 + 1 + n2 - m)⟩ := by
          show (⟨.NumberLiteral (String.mk ((input.drop m).take (m + 1 + n1 + 1 + n2 - m))), li,
            co + n1 + 1 + n2 - (m + 1 + n1 + 1 + n2 - m)⟩ : Token) = _
          rw [htake2]
        have hmm : numTokT c rest = (.NumberLiteral (String.mk (c :: d1 ++ '.' :: d2)),
            r2.dropWhile Char.isDigit) := by
          rw [numTokT]
          try dsimp only
          rw [hr1, hdot]
          split
          · rename_i r2x heq
            rw [List.cons.injEq] at heq
            obtain ⟨-, h2⟩ := heq
            subst h2
            rw [if_pos hdig]
            try rfl
          · rename_i hne
            exact absurd rfl (hne r2)
        refine ⟨li, co + n1 + 1 + n2 - (m + 1 + n1 + 1 + n2 - m), l6, ?_, ?_, rfl, ?_⟩
        · rw [number, hspec]
          try dsimp only
          split
          · rw [hadv]
            try dsimp only
            rw [hspec2, hl6eq]
            try dsimp only
            rw [hnum2, hmm]
          · rename_i hc
            exfalso
            apply hc
            rw [hnotend, hpeek, hpn, hdot]
            simpa using hdig
        · rw [hdc6, hmm]
        · simp only [hl6]
          omega
      · have hmm : numTokT c rest = (.NumberLiteral (String.mk (c :: d1)), x :: r2) := by
          rw [numTokT]
          try dsimp only
          rw [hr1, hdot]
          split
          · rename_i r2x heq
            rw [List.cons.injEq] at heq
            obtain ⟨-, h2⟩ := heq
            subst h2
            rw [if_neg hdig, ← hdot]
            try rfl
          · rename_i hne
            exact absurd rfl (hne r2)
        refine ⟨li, co + n1 - (m + 1 + n1 - m), l4, ?_, ?_, rfl, by simp [hl4]⟩
        · rw [number, hspec]
          try dsimp only
          split
          · rename_i hc
            exfalso
            rw [hnotend, hpeek, hpn] at hc
            simp at hc
            exact hdig (by simpa using hc.2)
          · rw [hnum1, hmm]
        · rw [hdc4, hr1, hmm]
    · have hmm : numTokT c rest = (.NumberLiteral (String.mk (c :: d1)), x :: r2) := by
        rw [numTokT]
        try dsimp only
        rw [hr1]
        split
        · rename_i r2x heq
          rw [List.cons.injEq] at heq
          exact absurd heq.1 hdot
        · rfl
      refine ⟨li, co + n1 - (m + 1 + n1 - m), l4, ?_, ?_, rfl, by simp [hl4]⟩
      · rw [number, hspec]
        try dsimp only
        split
        · rename_i hc
          exfalso
          rw [hnotend, hpeek] at hc
          simp [hdot] at hc
        · rw [hnum1, hmm]
      · rw [hdc4, hr1, hmm]

/-- Evaluation of scanT at an equals sign followed by anything that is
not a greater-than sign. -/
theorem scanT_eq_not_gt (y : Char) (r' : List Char) (hy : y ≠ '>') :
    scanT '=' (y :: r') = .ok (.Equals, y :: r') := by
  show (match y :: r' with
    | '>' :: r' => (.ok (.Arrow, r') : Except LexErrKind (TokenType × List Char))
    | _ => .ok (.Equals, y :: r')) = .ok (.Equals, y :: r')
  split
  · rename_i r2 heq
    injection heq with hh _
    exact absurd hh hy
  · rfl

/-- Evaluation of scanT at an opening quote. -/
theorem scanT_quote (rest : List Char) : scanT '"' rest =
    match rest.dropWhile (fun x => x != '"') with
    | [] => .error .KUnterminatedString
    | _ :: r' => .ok (.StringLiteral (String.mk (rest.takeWhile (fun x => x != '"'))), r') := rfl

/-- Evaluation of scanT at a digit. -/
theorem scanT_digit (c : Char) (rest : List Char)
    (h1 : ¬c = '{') (h2 : ¬c = '}') (h3 : ¬c = '(') (h4 : ¬c = ')') (h5 : ¬c = ':')
    (h6 : ¬c = '=') (h7 : ¬c = '.') (h8 : ¬c = ',') (h9 : ¬c = '"')
    (h10 : c.isDigit = true) : scanT c rest = .ok (numTokT c rest) := by
  delta scanT
  rw [if_neg h1, if_neg h2, if_neg h3, if_neg h4, if_neg h5, if_neg h6, if_neg h7,
    if_neg h8, if_neg h9, if_pos h10]

/-- Evaluation of scanT at an identifier start. -/
theorem scanT_ident (c : Char) (rest : List Char)
    (h1 : ¬c = '{') (h2 : ¬c = '}') (h3 : ¬c = '(') (h4 : ¬c = ')') (h5 : ¬c = ':')
    (h6 : ¬c = '=') (h7 : ¬c = '.') (h8 : ¬c = ',') (h9 : ¬c = '"')
    (h10 : ¬c.isDigit = true) (h11 : (c.isAlpha || c = '_') = true) :
    scanT c rest = .ok (Lexer.keywordOrIdent (String.mk (c :: rest.takeWhile Lexer.isIdentChar)),
      rest.dropWhile Lexer.isIdentChar) := by
  delta scanT
  rw [if_neg h1, if_neg h2, if_neg h3, if_neg h4, if_neg h5, if_neg h6, if_neg h7,
    if_neg h8, if_neg h9, if_neg h10, if_pos h11]

/-- Evaluation of scanT at a character no rule accepts. -/
theorem scanT_other (c : Char) (rest : List Char)
    (h1 : ¬c = '{') (h2 : ¬c = '}') (h3 : ¬c = '(') (h4 : ¬c = ')') (h5 : ¬c = ':')
    (h6 : ¬c = '=') (h7 : ¬c = '.') (h8 : ¬c = ',') (h9 : ¬c = '"')
    (h10 : ¬c.isDigit = true) (h11 : ¬(c.isAlpha || c = '_') = true) :
    scanT c rest = .error (.KUnexpectedCharacter c) := by
  delta scanT
  rw [if_neg h1, if_neg h2, if_neg h3, if_neg h4, if_neg h5, if_neg h6, if_neg h7,
    if_neg h8, if_neg h9, if_neg h10, if_neg h11]

/-- Every run of next_token agrees with the pure nextTokT on the
unconsumed input: same token type and same remaining input on success,
same error kind on failure.  In particular the token types produced by
the lexer depend only on the unconsumed input, not on the position
fields. -/
theorem nextToken_toT (l : Lexer) : SimNT (nextToken l) (nextTokT (dropCur l)) := by
  obtain ⟨li, co, hsp⟩ := skipWhitespace_spec l
  have hdcs := dropCur_skipWhitespace l
  set M := l.current + ((dropCur l).length - (skipWsL (dropCur l)).length) with hM
  rw [nextToken, hsp, nextTokT]
  cases ht : skipWsL (dropCur l) with
  | nil =>
    rw [ht] at hdcs
    rw [hsp] at hdcs
    have hend : (⟨l.input, M, M, li, co⟩ : Lexer).isAtEnd = true := by
      rw [isAtEnd_true_iff]
      have : (dropCur (⟨l.input, M, M, li, co⟩ : Lexer)).length = 0 := by rw [hdcs]; rfl
      rw [dropCur_len] at this
      simp at this ⊢
      omega
    simp only [hend, if_true]
    exact ⟨rfl, hdcs⟩
  | cons c rest =>
    rw [ht] at hdcs
    rw [hsp] at hdcs
    have hnotend : (⟨l.input, M, M, li, co⟩ : Lexer).isAtEnd = false := by
      rw [isAtEnd_false_iff]
      have : (dropCur (⟨l.input, M, M, li, co⟩ : Lexer)).length = rest.length + 1 := by
        rw [hdcs]; rfl
      rw [dropCur_len] at this
      simp at this ⊢
      omega
    have hMlt : M < l.input.length := by
      have := (isAtEnd_false_iff _).mp hnotend
      simpa using this
    have hdM : l.input.drop M = c :: rest := hdcs
    have hdM1 : l.input.drop (M + 1) = rest := drop_cons_succ hdM
    have hpk : (⟨l.input, M, M, li, co⟩ : Lexer).peek = c := by
      have h := dropCur_cons (⟨l.input, M, M, li, co⟩ : Lexer) hnotend
      rw [hdcs] at h
      exact (List.cons.injEq _ _ _ _ ▸ h).1.symm
    have hadv : advance (⟨l.input, M, M, li, co⟩ : Lexer) =
        .ok (c, ⟨l.input, M, M + 1, li, co + 1⟩) := by
      rw [advance_not_atEnd _ hnotend, hpk]
      rfl
    simp only [hnotend, Bool.false_eq_true, if_false]
    have hupd : ({ (⟨l.input, M, M, li, co⟩ : Lexer) with
        start := (⟨l.input, M, M, li, co⟩ : Lexer).current } : Lexer) =
        ⟨l.input, M, M, li, co⟩ := rfl
    rw [hupd, hadv]
    dsimp only
    by_cases h1 : c = '{'
    · subst h1
      exact ⟨rfl, hdM1⟩
    · rw [if_neg h1]
      by_cases h2 : c = '}'
      · subst h2
        exact ⟨rfl, hdM1⟩
      · rw [if_neg h2]
        by_cases h3 : c = '('
        · subst h3
          exact ⟨rfl, hdM1⟩
        · rw [if_neg h3]
          by_cases h4 : c = ')'
          · subst h4
            exact ⟨rfl, hdM1⟩
          · rw [if_neg h4]
            by_cases h5 : c = ':'
            · subst h5
              exact ⟨rfl, hdM1⟩
            · rw [if_neg h5]
              by_cases h6 : c = '='
              · subst h6
                cases hr : rest with
                | nil =>
                  have hend2 : (⟨l.input, M, M + 1, li, co + 1⟩ : Lexer).isAtEnd = true := by
                    rw [isAtEnd_true_iff]
                    show l.input.length ≤ M + 1
                    have h0 : l.input.drop (M + 1) = [] := by rw [hdM1, hr]
                    have := congrArg List.length h0
                    simp at this
                    omega
                  have hmc : matchChar (⟨l.input, M, M + 1, li, co + 1⟩ : Lexer) '>' =
                      (false, ⟨l.input, M, M + 1, li, co + 1⟩) := by
                    rw [matchChar, if_pos (by rw [hend2]; simp)]
                  rw [hmc]
                  exact ⟨rfl, by show l.input.drop (M + 1) = ([] : List Char); rw [hdM1, hr]⟩
                | cons y r' =>
                  have hdM1y : l.input.drop (M + 1) = y :: r' := by rw [hdM1, hr]
                  have hne2 : (⟨l.input, M, M + 1, li, co + 1⟩ : Lexer).isAtEnd = false := by
                    rw [isAtEnd_false_iff]
                    exact drop_cons_lt hdM1y
                  have hgety : l.input.getD (M + 1) nullChar = y := by
                    have h := dropCur_cons (⟨l.input, M, M + 1, li, co + 1⟩ : Lexer) hne2
                    have h2 : dropCur (⟨l.input, M, M + 1, li, co + 1⟩ : Lexer) = y :: r' := hdM1y
                    rw [h2] at h
                    have hpy := (List.cons.injEq _ _ _ _ ▸ h).1.symm
                    rw [peek, hne2] at hpy
                    simpa using hpy
                  by_cases hy : y = '>'
                  · subst hy
                    have hmc : matchChar (⟨l.input, M, M + 1, li, co + 1⟩ : Lexer) '>' =
                        (true, bump ⟨l.input, M, M + 1, li, co + 1⟩) := by
                      rw [matchChar, if_neg (by rw [hne2, hgety]; simp)]
                    rw [hmc]
                    exact ⟨rfl, by
                      show l.input.drop (M + 1 + 1) = r'
                      exact drop_cons_succ hdM1y⟩
                  · have hmc : matchChar (⟨l.input, M, M + 1, li, co + 1⟩ : Lexer) '>' =
                        (false, ⟨l.input, M, M + 1, li, co + 1⟩) := by
                      rw [matchChar, if_pos (by rw [hne2, hgety]; simp [hy])]
                    rw [hmc, scanT_eq_not_gt y r' hy]
                    exact ⟨rfl, hdM1y⟩
              · rw [if_neg h6]
                by_cases h7 : c = '.'
                · subst h7
                  exact ⟨rfl, hdM1⟩
                · rw [if_neg h7]
                  by_cases h8 : c = ','
                  · subst h8
                    exact ⟨rfl, hdM1⟩
                  · rw [if_neg h8]
                    by_cases h9 : c = '"'
                    · subst h9
                      obtain ⟨hunterm, hterm⟩ := string_run l.input M li (co + 1) rest hdM1 hMlt
                      rw [scanT_quote]
                      cases hdw : rest.dropWhile (fun x => x != '"') with
                      | nil =>
                        rw [hunterm hdw]
                        rfl
                      | cons q r' =>
                        obtain ⟨tl, tc, hstr⟩ := hterm q r' hdw
                        rw [hstr]
                        refine ⟨rfl, ?_⟩
                        show l.input.drop (M + 1 +
                          (rest.takeWhile (fun x => x != '"')).length + 1) = r'
                        have hq : l.input.drop
                            (M + 1 + (rest.takeWhile (fun x => x != '"')).length) = q :: r' := by
                          rw [← List.drop_drop, hdM1, ← dropWhile_eq_drop_len, hdw]
                        exact drop_cons_succ hq
                    · rw [if_neg h9]
                      by_cases h10 : c.isDigit
                      · rw [if_pos h10, scanT_digit c rest h1 h2 h3 h4 h5 h6 h7 h8 h9 h10]
                        obtain ⟨tl, tc, l', hnum, hdrop, hinp, hcur⟩ :=
                          number_run l.input M li (co + 1) c rest hdM
                        rw [hnum]
                        exact ⟨rfl, hdrop⟩
                      · rw [if_neg h10]
                        by_cases h11 : (c.isAlpha || c = '_') = true
                        · rw [if_pos h11, scanT_ident c rest h1 h2 h3 h4 h5 h6 h7 h8 h9 h10 h11]
                          obtain ⟨tl, tc, hid⟩ := identifier_run l.input M li (co + 1) c rest hdM
                          rw [hid]
                          refine ⟨rfl, ?_⟩
                          show l.input.drop (M + 1 + (rest.takeWhile isIdentChar).length) = _
                          rw [← List.drop_drop _ (M + 1), hdM1, ← dropWhile_eq_drop_len]
                        · rw [if_neg h11, scanT_other c rest h1 h2 h3 h4 h5 h6 h7 h8 h9 h10 h11]
                          rfl

/-- The token type produced by numTokT is a number literal, and the
remaining input never grows. -/
theorem numTokT_facts (c : Char) (rest : List Char) :
    (∃ t, (numTokT c rest).1 = .NumberLiteral t) ∧
      (numTokT c rest).2.length ≤ rest.length := by
  have hd2 := dropWhile_len_le Char.isDigit rest
  rw [numTokT]
  cases hr1 : rest.dropWhile Char.isDigit with
  | nil => exact ⟨⟨_, rfl⟩, by simp⟩
  | cons x r2 =>
    have hlr : (rest.dropWhile Char.isDigit).length = r2.length + 1 := by rw [hr1]; rfl
    have hd5 := dropWhile_len_le Char.isDigit r2
    split
    · rename_i r2b heq
      injection heq with hx hr2
      subst hr2
      split_ifs
      · exact ⟨⟨_, rfl⟩, by dsimp only; omega⟩
      · exact ⟨⟨_, rfl⟩, by dsimp only; simp only [List.length_cons]; omega⟩
    · exact ⟨⟨_, rfl⟩, by dsimp only; simp only [List.length_cons]; omega⟩

/-- The keyword table never yields the EOF token type. -/
theorem keywordOrIdent_ne_EOF (t : String) : Lexer.keywordOrIdent t ≠ .EOF := by
  rw [Lexer.keywordOrIdent]
  split_ifs <;> exact fun hx => TokenType.noConfusion hx

/-- The scanner dispatch never produces an EOF token and never grows the
remaining input. -/
theorem scanT_ok_facts (c : Char) (rest : List Char) (τ : TokenType) (r : List Char)
    (h : scanT c rest = .ok (τ, r)) : τ ≠ .EOF ∧ r.length ≤ rest.length := by
  by_cases h1 : c = '{'
  · subst h1
    rw [show scanT '{' rest = .ok (.LeftBrace, rest) from rfl] at h
    injection h with h'
    injection h' with ha hb
    subst ha; subst hb
    exact ⟨by simp, le_rfl⟩
  by_cases h2 : c = '}'
  · subst h2
    rw [show scanT '}' rest = .ok (.RightBrace, rest) from rfl] at h
    injection h with h'
    injection h' with ha hb
    subst ha; subst hb
    exact ⟨by simp, le_rfl⟩
  by_cases h3 : c = '('
  · subst h3
    rw [show scanT '(' rest = .ok (.LeftParen, rest) from rfl] at h
    injection h with h'
    injection h' with ha hb
    subst ha; subst hb
    exact ⟨by simp, le_rfl⟩
  by_cases h4 : c = ')'
  · subst h4
    rw [show scanT ')' rest = .ok (.RightParen, rest) from rfl] at h
    injection h with h'
    injection h' with ha hb
    subst ha; subst hb
    exact ⟨by simp, le_rfl⟩
  by_cases h5 : c = ':'
  · subst h5
    rw [show scanT ':' rest = .ok (.Colon, rest) from rfl] at h
    injection h with h'
    injection h' with ha hb
    subst ha; subst hb
    exact ⟨by simp, le_rfl⟩
  by_cases h6 : c = '='
  · subst h6
    cases hr : rest with
    | nil =>
      rw [hr, show scanT '=' [] = .ok (.Equals, []) from rfl] at h
      injection h with h'
      injection h' with ha hb
      subst ha; subst hb
      exact ⟨by simp, by simp⟩
    | cons y r' =>
      by_cases hy : y = '>'
      · subst hy
        rw [hr, show scanT '=' ('>' :: r') = .ok (.Arrow, r') from rfl] at h
        injection h with h'
        injection h' with ha hb
        subst ha; subst hb
        exact ⟨by simp, by simp⟩
      · rw [hr, scanT_eq_not_gt y r' hy] at h
        injection h with h'
        injection h' with ha hb
        subst ha; subst hb
        exact ⟨by simp, le_rfl⟩
  by_cases h7 : c = '.'
  · subst h7
    rw [show scanT '.' rest = .ok (.Dot, rest) from rfl] at h
    injection h with h'
    injection h' with ha hb
    subst ha; subst hb
    exact ⟨by simp, le_rfl⟩
  by_cases h8 : c = ','
  · subst h8
    rw [show scanT ',' rest = .ok (.Comma, rest) from rfl] at h
    injection h with h'
    injection h' with ha hb
    subst ha; subst hb
    exact ⟨by simp, le_rfl⟩
  by_cases h9 : c = '"'
  · subst h9
    rw [scanT_quote] at h
    revert h
    cases hdw : rest.dropWhile (fun x => x != '"') with
    | nil =>
      intro h
      exact absurd h (by simp)
    | cons q r' =>
      intro h
      injection h with h'
      injection h' with ha hb
      subst ha; subst hb
      have : (rest.dropWhile (fun x => x != '"')).length = r'.length + 1 := by rw [hdw]; rfl
      have hd1 := dropWhile_len_le (fun x => x != '"') rest
      exact ⟨by simp, by omega⟩
  by_cases h10 : c.isDigit
  · rw [scanT_digit c rest h1 h2 h3 h4 h5 h6 h7 h8 h9 h10] at h
    injection h with h'
    obtain ⟨⟨t, hnt⟩, hlen⟩ := numTokT_facts c rest
    rw [h'] at hnt hlen
    dsimp only at hnt hlen
    rw [hnt]
    exact ⟨fun hx => TokenType.noConfusion hx, hlen⟩
  by_cases h11 : (c.isAlpha || c = '_') = true
  · rw [scanT_ident c rest h1 h2 h3 h4 h5 h6 h7 h8 h9 h10 h11] at h
    injection h with h'
    injection h' with ha hb
    subst ha; subst hb
    have hd3 := dropWhile_len_le Lexer.isIdentChar rest
    exact ⟨keywordOrIdent_ne_EOF _, by omega⟩
  · rw [scanT_other c rest h1 h2 h3 h4 h5 h6 h7 h8 h9 h10 h11] at h
    exact absurd h (by simp)

/-- The scanner dispatch only fails with an unterminated string or an
unexpected character. -/
theorem scanT_error_kinds (c : Char) (rest : List Char) (k : LexErrKind)
    (h : scanT c rest = .error k) :
    k = .KUnterminatedString ∨ ∃ c0, k = .KUnexpectedCharacter c0 := by
  by_cases h1 : c = '{'
  · subst h1
    rw [show scanT '{' rest = .ok (.LeftBrace, rest) from rfl] at h
    exact absurd h (by simp)
  by_cases h2 : c = '}'
  · subst h2
    rw [show scanT '}' rest = .ok (.RightBrace, rest) from rfl] at h
    exact absurd h (by simp)
  by_cases h3 : c = '('
  · subst h3
    rw [show scanT '(' rest = .ok (.LeftParen, rest) from rfl] at h
    exact absurd h (by simp)
  by_cases h4 : c = ')'
  · subst h4
    rw [show scanT ')' rest = .ok (.RightParen, rest) from rfl] at h
    exact absurd h (by simp)
  by_cases h5 : c = ':'
  · subst h5
    rw [show scanT ':' rest = .ok (.Colon, rest) from rfl] at h
    exact absurd h (by simp)
  by_cases h6 : c = '='
  · subst h6
    cases hr : rest with
    | nil =>
      rw [hr, show scanT '=' [] = .ok (.Equals, []) from rfl] at h
      exact absurd h (by simp)
    | cons y r' =>
      by_cases hy : y = '>'
      · subst hy
        rw [hr, show scanT '=' ('>' :: r') = .ok (.Arrow, r') from rfl] at h
        exact absurd h (by simp)
      · rw [hr, scanT_eq_not_gt y r' hy] at h
        exact absurd h (by simp)
  by_cases h7 : c = '.'
  · subst h7
    rw [show scanT '.' rest = .ok (.Dot, rest) from rfl] at h
    exact absurd h (by simp)
  by_cases h8 : c = ','
  · subst h8
    rw [show scanT ',' rest = .ok (.Comma, rest) from rfl] at h
    exact absurd h (by simp)
  by_cases h9 : c = '"'
  · subst h9
    rw [scanT_quote] at h
    revert h
    cases hdw : rest.dropWhile (fun x => x != '"') with
    | nil =>
      intro h
      injection h with h'
      exact Or.inl h'.symm
    | cons q r' =>
      intro h
      exact absurd h (by simp)
  by_cases h10 : c.isDigit
  · rw [scanT_digit c rest h1 h2 h3 h4 h5 h6 h7 h8 h9 h10] at h
    exact absurd h (by simp)
  by_cases h11 : (c.isAlpha || c = '_') = true
  · rw [scanT_ident c rest h1 h2 h3 h4 h5 h6 h7 h8 h9 h10 h11] at h
    exact absurd h (by simp)
  · rw [scanT_other c rest h1 h2 h3 h4 h5 h6 h7 h8 h9 h10 h11] at h
    injection h with h'
    exact Or.inr ⟨c, h'.symm⟩

/-- A successful pure token that is not EOF consumes at least one
character. -/
theorem nextTokT_progress (s : List Char) (τ : TokenType) (r : List Char)
    (h : nextTokT s = .ok (τ, r)) (hne : τ ≠ .EOF) : r.length < s.length := by
  rw [nextTokT] at h
  revert h
  cases hsk : skipWsL s with
  | nil =>
    intro h
    simp at h
    exact absurd h.1.symm hne
  | cons c rest =>
    intro h
    have hlen : rest.length + 1 ≤ s.length := by
      have := skipWsL_len_le s
      rw [hsk] at this
      simpa using this
    have := (scanT_ok_facts c rest τ r h).2
    omega

/-- The pure tokenizer only fails with an unterminated string or an
unexpected character; in particular never with the end-of-file kind. -/
theorem nextTokT_error_kinds (s : List Char) (k : LexErrKind)
    (h : nextTokT s = .error k) :
    k = .KUnterminatedString ∨ ∃ c0, k = .KUnexpectedCharacter c0 := by
  rw [nextTokT] at h
  revert h
  cases hsk : skipWsL s with
  | nil =>
    intro h
    exact absurd h (by simp)
  | cons c rest =>
    intro h
    exact scanT_error_kinds c rest k h

/-- Bridge corollary: a successful next_token step whose token is not EOF
strictly shrinks the unconsumed input. -/
theorem nextToken_progress (l : Lexer) (t : Token) (l' : Lexer)
    (h : Lexer.nextToken l = .ok (t, l')) (hne : t.token_type ≠ .EOF) :
    (Lexer.dropCur l').length < (Lexer.dropCur l).length := by
  have hs := nextToken_toT l
  rw [h] at hs
  revert hs
  cases hT : nextTokT (Lexer.dropCur l) with
  | error k => intro hs; exact absurd hs (by simp [SimNT])
  | ok p =>
    obtain ⟨τ, r⟩ := p
    intro hs
    obtain ⟨h1, h2⟩ := hs
    rw [h2]
    exact nextTokT_progress _ τ r hT (fun hx => hne (h1.trans hx))

/-- Bridge corollary: a failing next_token step never carries the
end-of-file error kind. -/
theorem nextToken_error_kinds (l : Lexer) (e : LexerError)
    (h : Lexer.nextToken l = .error e) :
    kindOf e = .KUnterminatedString ∨ ∃ c0, kindOf e = .KUnexpectedCharacter c0 := by
  have hs := nextToken_toT l
  rw [h] at hs
  revert hs
  cases hT : nextTokT (Lexer.dropCur l) with
  | ok p => intro hs; exact absurd hs (by simp [SimNT])
  | error k =>
    intro hs
    have hk : kindOf e = k := hs
    rw [hk]
    exact nextTokT_error_kinds _ k hT

/-- Fuel irrelevance for the tokenize loop: any two fuels exceeding the
number of unconsumed characters compute the same result. -/
theorem tokenizeF_irrel : ∀ f1 f2 : Nat, ∀ l : Lexer,
    (Lexer.dropCur l).length < f1 → (Lexer.dropCur l).length < f2 →
    Lexer.tokenizeF f1 l = Lexer.tokenizeF f2 l := by
  intro f1
  induction f1 using Nat.strong_induction_on with
  | _ f1 ih =>
    intro f2 l h1 h2
    match f1, f2 with
    | a + 1, b + 1 =>
      rw [Lexer.tokenizeF, Lexer.tokenizeF]
      cases hnt : Lexer.nextToken l with
      | error e => rfl
      | ok p =>
        obtain ⟨t, l'⟩ := p
        dsimp only
        by_cases heof : t.token_type = .EOF
        · rw [if_pos heof, if_pos heof]
        · rw [if_neg heof, if_neg heof]
          have hlt := nextToken_progress l t l' hnt heof
          rw [ih a (Nat.lt_succ_self a) b l' (by omega) (by omega)]

/-- Structure of a successful tokenize loop run: the token list is
nonempty and its one and only EOF-typed token is the last element. -/
theorem tokenizeF_ok_structure : ∀ (fuel : Nat) (l : Lexer) (ts : List Token),
    Lexer.tokenizeF fuel l = .ok ts →
    ∃ ts0 t, ts = ts0 ++ [t] ∧ t.token_type = .EOF ∧
      ∀ u ∈ ts0, u.token_type ≠ .EOF := by
  intro fuel
  induction fuel with
  | zero => intro l ts h; exact absurd h (by simp [Lexer.tokenizeF])
  | succ a ih =>
    intro l ts h
    rw [Lexer.tokenizeF] at h
    revert h
    cases hnt : Lexer.nextToken l with
    | error e => intro h; exact absurd h (by simp)
    | ok p =>
      obtain ⟨t, l'⟩ := p
      dsimp only
      by_cases heof : t.token_type = .EOF
      · rw [if_pos heof]
        intro h
        injection h with h
        exact ⟨[], t, by rw [← h]; simp, heof, by simp⟩
      · rw [if_neg heof]
        cases hrec : Lexer.tokenizeF a l' with
        | error e => intro h; exact absurd h (by simp)
        | ok ts2 =>
          intro h
          injection h with h
          obtain ⟨ts0, tE, hts, hE, hall⟩ := ih l' ts2 hrec
          refine ⟨t :: ts0, tE, by rw [← h, hts]; simp, hE, ?_⟩
          intro u hu
          rcases List.mem_cons.mp hu with hu | hu
          · rw [hu]; exact heof
          · exact hall u hu

/-- The tokenize loop never fails with the end-of-file error kind. -/
theorem tokenizeF_error_kinds : ∀ (fuel : Nat) (l : Lexer) (e : LexerError),
    Lexer.tokenizeF fuel l = .error e → kindOf e ≠ .KUnexpectedEOF := by
  intro fuel
  induction fuel with
  | zero =>
    intro l e h
    rw [Lexer.tokenizeF] at h
    injection h with h
    rw [← h]
    simp [kindOf]
  | succ a ih =>
    intro l e h
    rw [Lexer.tokenizeF] at h
    revert h
    cases hnt : Lexer.nextToken l with
    | error e0 =>
      intro h
      injection h with h
      rw [← h]
      rcases nextToken_error_kinds l e0 hnt with hk | ⟨c0, hk⟩ <;>
        rw [hk] <;> simp
    | ok p =>
      obtain ⟨t, l'⟩ := p
      dsimp only
      by_cases heof : t.token_type = .EOF
      · rw [if_pos heof]
        intro h
        exact absurd h (by simp)
      · rw [if_neg heof]
        cases hrec : Lexer.tokenizeF a l' with
        | error e0 =>
          intro h
          injection h with h
          rw [← h]
          exact ih l' e0 hrec
        | ok ts2 => intro h; exact absurd h (by simp)

/-- tokenize satisfies the loop recurrence of Lexer::tokenize: one
next_token step, stopping inclusively at an EOF token, otherwise
prepending the token and recursing. -/
theorem tokenize_unfold (l : Lexer) :
    Lexer.tokenize l =
      (match Lexer.nextToken l with
       | .error e => .error e
       | .ok (t, l') =>
         if t.token_type = .EOF then .ok [t]
         else match Lexer.tokenize l' with
              | .error e => .error e
              | .ok ts => .ok (t :: ts)) := by
  simp only [Lexer.tokenize]
  rw [Lexer.tokenizeF]
  cases hnt : Lexer.nextToken l with
  | error e => rfl
  | ok p =>
    obtain ⟨t, l'⟩ := p
    dsimp only
    by_cases heof : t.token_type = .EOF
    · rw [if_pos heof, if_pos heof]
    · rw [if_neg heof, if_neg heof]
      have hlt := nextToken_progress l t l' hnt heof
      rw [Lexer.dropCur_len, Lexer.dropCur_len] at hlt
      rw [tokenizeF_irrel (l.input.length - l.current)
        (l'.input.length - l'.current + 1) l'
        (by rw [Lexer.dropCur_len]; omega) (by rw [Lexer.dropCur_len]; omega)]

/-- At end of input next_token yields an EOF token carrying the current
position, and the state change is only start := current. -/
theorem nextToken_atEnd (l : Lexer) (h : l.isAtEnd = true) :
    Lexer.nextToken l = .ok (⟨.EOF, l.line, l.column⟩, { l with start := l.current }) := by
  have hend : ({ l with start := l.current } : Lexer).isAtEnd = true := h
  rw [Lexer.nextToken, Lexer.skipWhitespace_atEnd l h]
  simp only [hend, if_true, Lexer.makeToken]
  simp [Nat.sub_self]

/-- C1: the source consisting of a, a newline and b tokenizes with the
token for b at position (2, 2), not at the position (2, 1) the claim
requires: on a newline the code resets column to 1 and then still
increments it when the newline itself is consumed, so the first
character after any newline is recorded at column 2. -/
theorem claim_C1_newline_column :
    Lexer.tokenize (Lexer.new ['a', '\n', 'b']) =
      .ok [⟨.Identifier "a", 1, 1⟩, ⟨.Identifier "b", 2, 2⟩, ⟨.EOF, 2, 3⟩] ∧
    (⟨.Identifier "b", 2, 2⟩ : Token).column ≠ 1 :=
  ⟨rfl, by decide⟩

/-- C4: tokenize of the empty source succeeds with exactly one token, of
type EOF; and parse of a token sequence holding only an EOF token
succeeds with a Program of zero modules, whatever position that EOF
carries. -/
theorem claim_C4_empty_source :
    Lexer.tokenize (Lexer.new []) = .ok [⟨.EOF, 1, 1⟩] ∧
    ∀ li co : Nat, parse [⟨.EOF, li, co⟩] = .ok ⟨[]⟩ :=
  ⟨rfl, fun _ _ => rfl⟩

/-- C6: tokenize terminates on every finite input (the fuel-indexed loop
is independent of the fuel once it exceeds the unconsumed length, and
the wrapper passes such a fuel); tokenize equals one next_token step
followed by the same loop, stopping inclusively at the EOF token; and on
success the token list is nonempty and its one and only EOF-typed token
is the last element. -/
theorem claim_C6_tokenize_loop (l : Lexer) :
    (∀ fuel, (Lexer.dropCur l).length < fuel →
      Lexer.tokenizeF fuel l = Lexer.tokenize l) ∧
    (Lexer.tokenize l =
      match Lexer.nextToken l with
      | .error e => .error e
      | .ok (t, l') =>
        if t.token_type = .EOF then .ok [t]
        else match Lexer.tokenize l' with
             | .error e => .error e
             | .ok ts => .ok (t :: ts)) ∧
    (∀ ts, Lexer.tokenize l = .ok ts →
      ∃ ts0 t, ts = ts0 ++ [t] ∧ t.token_type = .EOF ∧
        ∀ u ∈ ts0, u.token_type ≠ .EOF) :=
  ⟨fun fuel h => tokenizeF_irrel fuel (l.input.length - l.current + 1) l h
      (by rw [Lexer.dropCur_len]; omega),
   tokenize_unfold l,
   fun ts h => tokenizeF_ok_structure _ l ts h⟩

/-- The C6 loop facts evaluated on the one-character source a. -/
theorem claim_C6_witness :
    Lexer.tokenizeF 5 (Lexer.new ['a']) = Lexer.tokenize (Lexer.new ['a']) ∧
    ∃ ts0 t, [(⟨.Identifier "a", 1, 1⟩ : Token), ⟨.EOF, 1, 2⟩] = ts0 ++ [t] ∧
      t.token_type = .EOF ∧ ∀ u ∈ ts0, u.token_type ≠ .EOF :=
  ⟨(claim_C6_tokenize_loop (Lexer.new ['a'])).1 5 (by decide),
   (claim_C6_tokenize_loop (Lexer.new ['a'])).2.2 _ rfl⟩

/-- C7: when no closing quote remains, Lexer::string fails with
UnterminatedString at the position reached at end of input (tracked by
strAdvLine over the remaining characters) and hence no token list is
produced; when a closing quote exists the token value is the content
with the surrounding quotes stripped; and the concrete source of scenario
E fails from tokenize with UnterminatedString at (1, 14). -/
theorem claim_C7_unterminated_string (input : List Char) (m li co : Nat) (rest : List Char)
    (hrest : input.drop (m + 1) = rest) (hm : m < input.length) :
    (rest.dropWhile (fun x => x != '"') = [] →
      Lexer.string ⟨input, m, m + 1, li, co⟩ =
        .error (.UnterminatedString
          (strAdvLine li co (rest.takeWhile (fun x => x != '"'))).1
          (strAdvLine li co (rest.takeWhile (fun x => x != '"'))).2)) ∧
    (∀ q r', rest.dropWhile (fun x => x != '"') = q :: r' →
      ∃ tl tc l', Lexer.string ⟨input, m, m + 1, li, co⟩ =
        .ok (⟨.StringLiteral (String.mk (rest.takeWhile (fun x => x != '"'))), tl, tc⟩, l')) ∧
    Lexer.tokenize (Lexer.new
        ['"', 'u', 'n', 't', 'e', 'r', 'm', 'i', 'n', 'a', 't', 'e', 'd']) =
      .error (.UnterminatedString 1 14) := by
  obtain ⟨h1, h2⟩ := Lexer.string_run input m li co rest hrest hm
  refine ⟨h1, fun q r' hqr => ?_, rfl⟩
  obtain ⟨tl, tc, hs⟩ := h2 q r' hqr
  exact ⟨tl, tc, _, hs⟩

/-- The C7 facts evaluated on a two-character unterminated string body. -/
theorem claim_C7_witness :
    Lexer.string ⟨['"', 'h', 'i'], 0, 1, 1, 2⟩ = .error (.UnterminatedString 1 4) :=
  (claim_C7_unterminated_string ['"', 'h', 'i'] 0 1 2 ['h', 'i'] rfl (by decide)).1 rfl

/-- C10: once the cursor is at end of input, next_token returns an EOF
token with the current position and moves nothing but start, so the call
after it returns the same token again; and neither next_token nor
tokenize can ever fail with the UnexpectedEOF error, every advance being
guarded by an is_at_end check. -/
theorem claim_C10_eof_safety (l : Lexer) :
    (l.isAtEnd = true →
      Lexer.nextToken l = .ok (⟨.EOF, l.line, l.column⟩, { l with start := l.current }) ∧
      Lexer.nextToken { l with start := l.current } =
        .ok (⟨.EOF, l.line, l.column⟩, { l with start := l.current })) ∧
    (∀ e, Lexer.nextToken l = .error e → kindOf e ≠ .KUnexpectedEOF) ∧
    (∀ e, Lexer.tokenize l = .error e → kindOf e ≠ .KUnexpectedEOF) := by
  refine ⟨fun h => ⟨nextToken_atEnd l h, nextToken_atEnd _ h⟩,
    fun e he hk => ?_, fun e he => tokenizeF_error_kinds _ l e he⟩
  rcases nextToken_error_kinds l e he with h | ⟨c0, h⟩ <;>
    rw [h] at hk <;> exact LexErrKind.noConfusion hk

/-- The C10 facts evaluated at the end of a one-character input. -/
theorem claim_C10_witness :
    Lexer.nextToken ⟨['x'], 0, 1, 1, 2⟩ = .ok (⟨.EOF, 1, 2⟩, ⟨['x'], 1, 1, 1, 2⟩) :=
  ((claim_C10_eof_safety ⟨['x'], 0, 1, 1, 2⟩).1 (by decide)).1

/-- C2 (amended): a failed consume reports UnexpectedToken with the
position and type of the offending token itself, via peek; but the
identifier checks written with advance() report previous(), and at EOF
advance does not move the cursor, so previous() is the token before EOF:
for the token sequence of the source module, parse fails with found
Module at (1, 1), not found EOF at the EOF position. -/
theorem claim_C2_consume_error (p : Parser) (tt : TokenType) (msg : String)
    (h : Parser.check p tt = false) :
    Parser.consume p tt msg =
      .error (.UnexpectedToken (ttDebugStr tt) (Parser.peek p).token_type
        (Parser.peek p).line (Parser.peek p).column) ∧
    (∀ q : Parser, q.isAtEnd = true → Parser.advance q = (Parser.previous q, q)) ∧
    parse [⟨.Module, 1, 1⟩, ⟨.EOF, 1, 7⟩] =
      .error (.UnexpectedToken "identifier" .Module 1 1) := by
  refine ⟨by simp [Parser.consume, h], fun q hq => ?_, rfl⟩
  simp [Parser.advance, hq]

/-- The C2 facts evaluated at a one-token parser state. -/
theorem claim_C2_witness :
    Parser.consume (Parser.new [⟨.EOF, 5, 7⟩]) .LeftBrace "m" =
      .error (.UnexpectedToken "LeftBrace" .EOF 5 7) :=
  (claim_C2_consume_error (Parser.new [⟨.EOF, 5, 7⟩]) .LeftBrace "m" (by decide)).1

/-- C2 counterexample to the spec sentence: on the token sequence of the
source module, the parse error carries found Module at position (1, 1),
which differs from found EOF at the EOF position (1, 7). -/
theorem claim_C2_counterexample :
    Lexer.tokenize (Lexer.new "module".toList) = .ok [⟨.Module, 1, 1⟩, ⟨.EOF, 1, 7⟩] ∧
    parse [⟨.Module, 1, 1⟩, ⟨.EOF, 1, 7⟩] =
      .error (.UnexpectedToken "identifier" .Module 1 1) ∧
    (ParseError.UnexpectedToken "identifier" .Module 1 1 ≠
      .UnexpectedToken "identifier" .EOF 1 7) :=
  ⟨rfl, rfl, by decide⟩

/-- C3 (amended): the comma between consecutive type fields is optional,
not required: after one field is parsed the loop consumes a comma if and
only if one is present and continues either way, and the two-field
sources with and without the separating comma parse to the same
Program. -/
theorem claim_C3_comma_optional (fuel : Nat) (q : Parser)
    (fields : List Ast.TypeField) (f : Ast.TypeField) (q1 : Parser)
    (h1 : q.check .RightBrace = false) (h2 : q.isAtEnd = false)
    (h3 : Parser.parseTypeField q = .ok (f, q1)) :
    Parser.typeFieldsLoopF (fuel + 1) q fields =
      Parser.typeFieldsLoopF fuel
        (if q1.check .Comma then (Parser.advance q1).2 else q1) (fields ++ [f]) ∧
    parse [⟨.Module, 1, 1⟩, ⟨.Identifier "m", 1, 8⟩, ⟨.LeftBrace, 1, 10⟩,
        ⟨.Type, 1, 12⟩, ⟨.Identifier "P", 1, 17⟩, ⟨.Arrow, 1, 19⟩,
        ⟨.LeftBrace, 1, 22⟩, ⟨.Identifier "x", 1, 24⟩, ⟨.Colon, 1, 25⟩,
        ⟨.Number, 1, 27⟩, ⟨.Identifier "y", 1, 34⟩, ⟨.Colon, 1, 35⟩,
        ⟨.Number, 1, 37⟩, ⟨.RightBrace, 1, 44⟩, ⟨.RightBrace, 1, 46⟩,
        ⟨.EOF, 1, 47⟩] =
      .ok ⟨[⟨"m", [.TypeDef ⟨"P", [⟨"x", .Number⟩, ⟨"y", .Number⟩]⟩]⟩]⟩ ∧
    parse [⟨.Module, 1, 1⟩, ⟨.Identifier "m", 1, 8⟩, ⟨.LeftBrace, 1, 10⟩,
        ⟨.Type, 1, 12⟩, ⟨.Identifier "P", 1, 17⟩, ⟨.Arrow, 1, 19⟩,
        ⟨.LeftBrace, 1, 22⟩, ⟨.Identifier "x", 1, 24⟩, ⟨.Colon, 1, 25⟩,
        ⟨.Number, 1, 27⟩, ⟨.Comma, 1, 33⟩, ⟨.Identifier "y", 1, 35⟩,
        ⟨.Colon, 1, 36⟩, ⟨.Number, 1, 38⟩, ⟨.RightBrace, 1, 45⟩,
        ⟨.RightBrace, 1, 47⟩, ⟨.EOF, 1, 48⟩] =
      .ok ⟨[⟨"m", [.TypeDef ⟨"P", [⟨"x", .Number⟩, ⟨"y", .Number⟩]⟩]⟩]⟩ := by
  refine ⟨?_, rfl, rfl⟩
  rw [Parser.typeFieldsLoopF]
  simp only [h1, h2, Bool.not_false, Bool.and_self, if_true, h3]

/-- The C3 loop step evaluated at a one-field parser state with no comma
after the field. -/
theorem claim_C3_witness :
    Parser.typeFieldsLoopF 2 (Parser.new [⟨.Identifier "x", 1, 1⟩, ⟨.Colon, 1, 2⟩,
        ⟨.Number, 1, 4⟩, ⟨.RightBrace, 1, 5⟩, ⟨.EOF, 1, 6⟩]) [] =
      Parser.typeFieldsLoopF 1 ⟨[⟨.Identifier "x", 1, 1⟩, ⟨.Colon, 1, 2⟩,
        ⟨.Number, 1, 4⟩, ⟨.RightBrace, 1, 5⟩, ⟨.EOF, 1, 6⟩], 3⟩ [⟨"x", .Number⟩] :=
  (claim_C3_comma_optional 1 (Parser.new [⟨.Identifier "x", 1, 1⟩, ⟨.Colon, 1, 2⟩,
      ⟨.Number, 1, 4⟩, ⟨.RightBrace, 1, 5⟩, ⟨.EOF, 1, 6⟩]) [] ⟨"x", .Number⟩
    ⟨[⟨.Identifier "x", 1, 1⟩, ⟨.Colon, 1, 2⟩, ⟨.Number, 1, 4⟩,
      ⟨.RightBrace, 1, 5⟩, ⟨.EOF, 1, 6⟩], 3⟩ rfl rfl rfl).1

/-- C3 counterexample to the spec sentence: the two-field source with no
comma between the fields tokenizes and then parses successfully to the
two-field TypeDefinition, rather than failing with a syntax error. -/
theorem claim_C3_counterexample :
    Lexer.tokenize (Lexer.new
        "module m \x7b type P => \x7b x: Number y: Number \x7d \x7d".toList) =
      .ok [⟨.Module, 1, 1⟩, ⟨.Identifier "m", 1, 8⟩, ⟨.LeftBrace, 1, 10⟩,
        ⟨.Type, 1, 12⟩, ⟨.Identifier "P", 1, 17⟩, ⟨.Arrow, 1, 19⟩,
        ⟨.LeftBrace, 1, 22⟩, ⟨.Identifier "x", 1, 24⟩, ⟨.Colon, 1, 25⟩,
        ⟨.Number, 1, 27⟩, ⟨.Identifier "y", 1, 34⟩, ⟨.Colon, 1, 35⟩,
        ⟨.Number, 1, 37⟩, ⟨.RightBrace, 1, 44⟩, ⟨.RightBrace, 1, 46⟩,
        ⟨.EOF, 1, 47⟩] ∧
    parse [⟨.Module, 1, 1⟩, ⟨.Identifier "m", 1, 8⟩, ⟨.LeftBrace, 1, 10⟩,
        ⟨.Type, 1, 12⟩, ⟨.Identifier "P", 1, 17⟩, ⟨.Arrow, 1, 19⟩,
        ⟨.LeftBrace, 1, 22⟩, ⟨.Identifier "x", 1, 24⟩, ⟨.Colon, 1, 25⟩,
        ⟨.Number, 1, 27⟩, ⟨.Identifier "y", 1, 34⟩, ⟨.Colon, 1, 35⟩,
        ⟨.Number, 1, 37⟩, ⟨.RightBrace, 1, 44⟩, ⟨.RightBrace, 1, 46⟩,
        ⟨.EOF, 1, 47⟩] =
      .ok ⟨[⟨"m", [.TypeDef ⟨"P", [⟨"x", .Number⟩, ⟨"y", .Number⟩]⟩]⟩]⟩ :=
  ⟨rfl, rfl⟩

end Lexer

/-- An error of the UnexpectedToken variant. -/
def isUT (e : ParseError) : Prop := ∃ a b c d, e = .UnexpectedToken a b c d

/-- A token list ending in its one and only EOF token. -/
def EOFLast (ts : List Token) : Prop :=
  ∃ ts0 tE, ts = ts0 ++ [tE] ∧ tE.token_type = .EOF ∧ ∀ u ∈ ts0, u.token_type ≠ .EOF

namespace Parser

/-- The parser invariant of C9: the tokens are EOF-terminated and the
cursor is at most the index of the final EOF token. -/
def Inv (p : Parser) : Prop := EOFLast p.tokens ∧ p.current < p.tokens.length

theorem notAtEnd_bound (p : Parser) (hinv : Inv p) (h : p.isAtEnd = false) :
    p.current + 1 < p.tokens.length := by
  obtain ⟨⟨ts0, tE, hts, hE, hall⟩, hcur⟩ := hinv
  have hlen : p.tokens.length = ts0.length + 1 := by rw [hts]; simp
  by_cases hc : p.current = ts0.length
  · exfalso
    have hpeek : peek p = tE := by
      rw [peek, hts, hc]
      simp [List.getD_append_right]
    rw [isAtEnd, hpeek, hE] at h
    exact Bool.noConfusion h
  · omega

theorem advance_tokens (p : Parser) : (advance p).2.tokens = p.tokens := by
  simp only [advance]
  split <;> rfl

theorem advance_mono (p : Parser) : p.current ≤ (advance p).2.current := by
  simp only [advance]
  split
  · exact le_refl _
  · exact Nat.le_succ _

theorem advance_inv (p : Parser) (hinv : Inv p) :
    Inv (advance p).2 ∧ p.current ≤ (advance p).2.current ∧
      (advance p).2.tokens = p.tokens := by
  refine ⟨⟨(advance_tokens p).symm ▸ hinv.1, ?_⟩, advance_mono p, advance_tokens p⟩
  rw [advance_tokens p]
  by_cases he : p.isAtEnd
  · simp only [advance, he, if_true]
    exact hinv.2
  · have hb := notAtEnd_bound p hinv (by simpa using he)
    simp only [advance, he, if_false]
    simpa using hb

theorem matchToken_inv (p : Parser) (tt : TokenType) (hinv : Inv p) :
    Inv (matchToken p tt).2 ∧ p.current ≤ (matchToken p tt).2.current ∧
      (matchToken p tt).2.tokens = p.tokens := by
  rw [matchToken]
  split
  · exact advance_inv p hinv
  · exact ⟨hinv, le_refl _, rfl⟩

theorem consume_ok_inv (p : Parser) (tt : TokenType) (msg : String) (t : Token) (p' : Parser)
    (h : consume p tt msg = .ok (t, p')) (hinv : Inv p) :
    Inv p' ∧ p.current ≤ p'.current ∧ p'.tokens = p.tokens := by
  rw [consume] at h
  split at h
  · injection h with h
    have h2 : (advance p).2 = p' := by rw [h]
    rw [← h2]
    exact advance_inv p hinv
  · exact absurd h (by simp)

theorem consume_err (p : Parser) (tt : TokenType) (msg : String) (e : ParseError)
    (h : consume p tt msg = .error e) : isUT e := by
  rw [consume] at h
  split at h
  · exact absurd h (by simp)
  · injection h with h
    exact ⟨_, _, _, _, h.symm⟩

theorem parseType_ok_inv (p : Parser) (v : Ast.Ty) (p' : Parser)
    (h : parseType p = .ok (v, p')) (hinv : Inv p) :
    Inv p' ∧ p.current ≤ p'.current ∧ p'.tokens = p.tokens := by
  rw [parseType] at h
  rcases hadv : advance p with ⟨t, p1⟩
  rw [hadv] at h
  dsimp only at h
  have hstep := advance_inv p hinv
  rw [hadv] at hstep
  split at h <;>
    first
      | (injection h with h; injection h with hv hp; subst hp; exact hstep)
      | exact absurd h (by simp)

theorem parseType_err (p : Parser) (e : ParseError)
    (h : parseType p = .error e) : isUT e := by
  rw [parseType] at h
  rcases hadv : advance p with ⟨t, p1⟩
  rw [hadv] at h
  dsimp only at h
  split at h <;>
    first
      | (injection h with h; exact ⟨_, _, _, _, h.symm⟩)
      | exact absurd h (by simp)

theorem parsePrimary_ok_inv (p : Parser) (v : Ast.Expression) (p' : Parser)
    (h : parsePrimary p = .ok (v, p')) (hinv : Inv p) :
    Inv p' ∧ p.current ≤ p'.current ∧ p'.tokens = p.tokens := by
  rw [parsePrimary] at h
  rcases hadv : advance p with ⟨t, p1⟩
  rw [hadv] at h
  dsimp only at h
  have hstep := advance_inv p hinv
  rw [hadv] at hstep
  split at h <;>
    first
      | (injection h with h; injection h with hv hp; subst hp; exact hstep)
      | exact absurd h (by simp)

theorem parsePrimary_err (p : Parser) (e : ParseError)
    (h : parsePrimary p = .error e) : isUT e := by
  rw [parsePrimary] at h
  rcases hadv : advance p with ⟨t, p1⟩
  rw [hadv] at h
  dsimp only at h
  split at h <;>
    first
      | (injection h with h; exact ⟨_, _, _, _, h.symm⟩)
      | exact absurd h (by simp)

theorem parseTypeField_ok_inv (p : Parser) (v : Ast.TypeField) (p' : Parser)
    (h : parseTypeField p = .ok (v, p')) (hinv : Inv p) :
    Inv p' ∧ p.current ≤ p'.current ∧ p'.tokens = p.tokens := by
  rw [parseTypeField] at h
  rcases hadv : advance p with ⟨t, p1⟩
  rw [hadv] at h
  dsimp only at h
  have hstep := advance_inv p hinv
  rw [hadv] at hstep
  obtain ⟨hstep1, hstep2, hstep3⟩ := hstep
  split at h
  · rename_i name hname
    split at h
    · exact absurd h (by simp)
    · rename_i t2 p2 hcons
      split at h
      · exact absurd h (by simp)
      · rename_i ft p3 hty
        injection h with h
        injection h with hv hp
        subst hp
        obtain ⟨hc1, hc2, hc3⟩ := consume_ok_inv p1 .Colon _ t2 p2 hcons hstep1
        obtain ⟨ht1, ht2, ht3⟩ := parseType_ok_inv p2 ft p3 hty hc1
        exact ⟨ht1, le_trans hstep2 (le_trans hc2 ht2), by rw [ht3, hc3, hstep3]⟩
  · exact absurd h (by simp)

theorem parseTypeField_err (p : Parser) (e : ParseError)
    (h : parseTypeField p = .error e) : isUT e := by
  rw [parseTypeField] at h
  rcases hadv : advance p with ⟨t, p1⟩
  rw [hadv] at h
  dsimp only at h
  split at h
  · rename_i name hname
    split at h
    · rename_i e2 hcons
      injection h with h
      exact h ▸ consume_err p1 .Colon _ e2 hcons
    · rename_i t2 p2 hcons
      split at h
      · rename_i e2 hty
        injection h with h
        exact h ▸ parseType_err p2 e2 hty
      · exact absurd h (by simp)
  · injection h with h
    exact ⟨_, _, _, _, h.symm⟩

end Parser

namespace Parser

theorem commaSkip_inv (p : Parser) (hinv : Inv p) :
    Inv (if p.check .Comma then (advance p).2 else p) ∧
    p.current ≤ (if p.check .Comma then (advance p).2 else p).current ∧
    (if p.check .Comma then (advance p).2 else p).tokens = p.tokens := by
  split
  · exact advance_inv p hinv
  · exact ⟨hinv, le_refl _, rfl⟩

theorem exprGroup_ok_inv : ∀ fuel : Nat,
    (∀ p v p1, parseExpressionF fuel p = some (.ok (v, p1)) → Inv p →
      Inv p1 ∧ p.current ≤ p1.current ∧ p1.tokens = p.tokens) ∧
    (∀ p fs v p1, objectFieldsLoopF fuel p fs = some (.ok (v, p1)) → Inv p →
      Inv p1 ∧ p.current ≤ p1.current ∧ p1.tokens = p.tokens) ∧
    (∀ p v p1, parseObjectExpressionF fuel p = some (.ok (v, p1)) → Inv p →
      Inv p1 ∧ p.current ≤ p1.current ∧ p1.tokens = p.tokens) := by
  intro fuel
  induction fuel with
  | zero =>
    refine ⟨fun p v p1 h => absurd h ?_, fun p fs v p1 h => absurd h ?_,
      fun p v p1 h => absurd h ?_⟩
    · rw [parseExpressionF]; exact fun hx => Option.noConfusion hx
    · rw [objectFieldsLoopF]; exact fun hx => Option.noConfusion hx
    · rw [parseObjectExpressionF]; exact fun hx => Option.noConfusion hx
  | succ a ih =>
    obtain ⟨ihE, ihL, ihO⟩ := ih
    refine ⟨fun p v p1 h hinv => ?_, fun p fs v p1 h hinv => ?_,
      fun p v p1 h hinv => ?_⟩
    · rw [parseExpressionF] at h
      split at h <;>
        first
          | (injection h with h; exact parsePrimary_ok_inv p v p1 h hinv)
          | exact ihO p v p1 h hinv
          | exact absurd h (by simp)
    · rw [objectFieldsLoopF] at h
      split at h
      · rcases hadv : advance p with ⟨t, q1⟩
        rw [hadv] at h
        dsimp only at h
        have hstep := advance_inv p hinv
        rw [hadv] at hstep
        obtain ⟨hstep1, hstep2, hstep3⟩ := hstep
        split at h
        · rename_i name hname
          split at h
          · exact absurd h (by simp)
          · rename_i t2 q2 hcons
            obtain ⟨hc1, hc2, hc3⟩ := consume_ok_inv q1 .Colon _ t2 q2 hcons hstep1
            split at h
            · exact absurd h (by simp)
            · exact absurd h (by simp)
            · rename_i value q3 hexp
              obtain ⟨he1, he2, he3⟩ := ihE q2 value q3 hexp hc1
              obtain ⟨hk1, hk2, hk3⟩ := commaSkip_inv q3 he1
              obtain ⟨hl1, hl2, hl3⟩ := ihL _ _ v p1 h hk1
              refine ⟨hl1, ?_, by rw [hl3, hk3, he3, hc3, hstep3]⟩
              exact le_trans hstep2 (le_trans hc2 (le_trans he2 (le_trans hk2 hl2)))
        · exact absurd h (by simp)
      · injection h with h
        injection h with h
        injection h with hv hp
        subst hp
        exact ⟨hinv, le_refl _, rfl⟩
    · rw [parseObjectExpressionF] at h
      split at h
      · exact absurd h (by simp)
      · rename_i t1 q1 hcons1
        obtain ⟨hc1, hc2, hc3⟩ := consume_ok_inv p .LeftBrace _ t1 q1 hcons1 hinv
        split at h
        · exact absurd h (by simp)
        · exact absurd h (by simp)
        · rename_i fields q2 hloop
          obtain ⟨hl1, hl2, hl3⟩ := ihL q1 [] fields q2 hloop hc1
          split at h
          · exact absurd h (by simp)
          · rename_i t3 q3 hcons2
            injection h with h
            injection h with h
            injection h with hv hp
            subst hp
            obtain ⟨hd1, hd2, hd3⟩ := consume_ok_inv q2 .RightBrace _ t3 q3 hcons2 hl1
            exact ⟨hd1, le_trans hc2 (le_trans hl2 hd2), by rw [hd3, hl3, hc3]⟩

theorem exprGroup_err : ∀ fuel : Nat,
    (∀ p e, parseExpressionF fuel p = some (.error e) → isUT e) ∧
    (∀ p fs e, objectFieldsLoopF fuel p fs = some (.error e) → isUT e) ∧
    (∀ p e, parseObjectExpressionF fuel p = some (.error e) → isUT e) := by
  intro fuel
  induction fuel with
  | zero =>
    refine ⟨fun p e h => absurd h ?_, fun p fs e h => absurd h ?_,
      fun p e h => absurd h ?_⟩
    · rw [parseExpressionF]; exact fun hx => Option.noConfusion hx
    · rw [objectFieldsLoopF]; exact fun hx => Option.noConfusion hx
    · rw [parseObjectExpressionF]; exact fun hx => Option.noConfusion hx
  | succ a ih =>
    obtain ⟨ihE, ihL, ihO⟩ := ih
    refine ⟨fun p e h => ?_, fun p fs e h => ?_, fun p e h => ?_⟩
    · rw [parseExpressionF] at h
      split at h <;>
        first
          | (injection h with h; exact parsePrimary_err p e h)
          | exact ihO p e h
          | (injection h with h; injection h with h; exact ⟨_, _, _, _, h.symm⟩)
    · rw [objectFieldsLoopF] at h
      split at h
      · rcases hadv : advance p with ⟨t, q1⟩
        rw [hadv] at h
        dsimp only at h
        split at h
        · rename_i name hname
          split at h
          · rename_i e2 hcons
            injection h with h
            injection h with h
            exact h ▸ consume_err q1 .Colon _ e2 hcons
          · rename_i t2 q2 hcons
            split at h
            · exact absurd h (by simp)
            · rename_i e2 hexp
              injection h with h
              injection h with h
              exact h ▸ ihE q2 e2 hexp
            · rename_i value q3 hexp
              exact ihL _ _ e h
        · injection h with h
          injection h with h
          exact ⟨_, _, _, _, h.symm⟩
      · exact absurd h (by simp)
    · rw [parseObjectExpressionF] at h
      split at h
      · rename_i e2 hcons
        injection h with h
        injection h with h
        exact h ▸ consume_err p .LeftBrace _ e2 hcons
      · rename_i t1 q1 hcons1
        split at h
        · exact absurd h (by simp)
        · rename_i e2 hloop
          injection h with h
          injection h with h
          exact h ▸ ihL q1 [] e2 hloop
        · rename_i fields q2 hloop
          split at h
          · rename_i e2 hcons2
            injection h with h
            injection h with h
            exact h ▸ consume_err q2 .RightBrace _ e2 hcons2
          · exact absurd h (by simp)

end Parser

namespace Parser

theorem parseLetStatement_ok_inv (p : Parser) (v : Ast.Statement) (p1 : Parser)
    (h : parseLetStatement p = some (.ok (v, p1))) (hinv : Inv p) :
    Inv p1 ∧ p.current ≤ p1.current ∧ p1.tokens = p.tokens := by
  rw [parseLetStatement] at h
  rcases hadv : advance p with ⟨t, q1⟩
  rw [hadv] at h
  dsimp only at h
  have hstep := advance_inv p hinv
  rw [hadv] at hstep
  obtain ⟨hs1, hs2, hs3⟩ := hstep
  split at h
  · rename_i name hname
    split at h
    · exact absurd h (by simp)
    · rename_i t2 q2 hcons
      obtain ⟨hc1, hc2, hc3⟩ := consume_ok_inv q1 .Equals _ t2 q2 hcons hs1
      split at h
      · exact absurd h (by simp)
      · exact absurd h (by simp)
      · rename_i value q3 hexp
        injection h with h
        injection h with h
        injection h with hv hp
        subst hp
        obtain ⟨he1, he2, he3⟩ := (exprGroup_ok_inv (fuelFor q2)).1 q2 value q3 hexp hc1
        exact ⟨he1, le_trans hs2 (le_trans hc2 he2), by rw [he3, hc3, hs3]⟩
  · exact absurd h (by simp)

theorem parseLetStatement_err (p : Parser) (e : ParseError)
    (h : parseLetStatement p = some (.error e)) : isUT e := by
  rw [parseLetStatement] at h
  rcases hadv : advance p with ⟨t, q1⟩
  rw [hadv] at h
  dsimp only at h
  split at h
  · rename_i name hname
    split at h
    · rename_i e2 hcons
      injection h with h
      injection h with h
      exact h ▸ consume_err q1 .Equals _ e2 hcons
    · rename_i t2 q2 hcons
      split at h
      · exact absurd h (by simp)
      · rename_i e2 hexp
        injection h with h
        injection h with h
        exact h ▸ (exprGroup_err (fuelFor q2)).1 q2 e2 hexp
      · exact absurd h (by simp)
  · injection h with h
    injection h with h
    exact ⟨_, _, _, _, h.symm⟩

theorem parseConstStatement_ok_inv (p : Parser) (v : Ast.Statement) (p1 : Parser)
    (h : parseConstStatement p = some (.ok (v, p1))) (hinv : Inv p) :
    Inv p1 ∧ p.current ≤ p1.current ∧ p1.tokens = p.tokens := by
  rw [parseConstStatement] at h
  rcases hadv : advance p with ⟨t, q1⟩
  rw [hadv] at h
  dsimp only at h
  have hstep := advance_inv p hinv
  rw [hadv] at hstep
  obtain ⟨hs1, hs2, hs3⟩ := hstep
  split at h
  · rename_i name hname
    split at h
    · exact absurd h (by simp)
    · rename_i t2 q2 hcons
      obtain ⟨hc1, hc2, hc3⟩ := consume_ok_inv q1 .Equals _ t2 q2 hcons hs1
      split at h
      · exact absurd h (by simp)
      · exact absurd h (by simp)
      · rename_i value q3 hexp
        injection h with h
        injection h with h
        injection h with hv hp
        subst hp
        obtain ⟨he1, he2, he3⟩ := (exprGroup_ok_inv (fuelFor q2)).1 q2 value q3 hexp hc1
        exact ⟨he1, le_trans hs2 (le_trans hc2 he2), by rw [he3, hc3, hs3]⟩
  · exact absurd h (by simp)

theorem parseConstStatement_err (p : Parser) (e : ParseError)
    (h : parseConstStatement p = some (.error e)) : isUT e := by
  rw [parseConstStatement] at h
  rcases hadv : advance p with ⟨t, q1⟩
  rw [hadv] at h
  dsimp only at h
  split at h
  · rename_i name hname
    split at h
    · rename_i e2 hcons
      injection h with h
      injection h with h
      exact h ▸ consume_err q1 .Equals _ e2 hcons
    · rename_i t2 q2 hcons
      split at h
      · exact absurd h (by simp)
      · rename_i e2 hexp
        injection h with h
        injection h with h
        exact h ▸ (exprGroup_err (fuelFor q2)).1 q2 e2 hexp
      · exact absurd h (by simp)
  · injection h with h
    injection h with h
    exact ⟨_, _, _, _, h.symm⟩

theorem typeFieldsLoopF_ok_inv : ∀ (fuel : Nat) (p : Parser) (fs : List Ast.TypeField)
    (v : List Ast.TypeField) (p1 : Parser),
    typeFieldsLoopF fuel p fs = some (.ok (v, p1)) → Inv p →
    Inv p1 ∧ p.current ≤ p1.current ∧ p1.tokens = p.tokens := by
  intro fuel
  induction fuel with
  | zero =>
    intro p fs v p1 h
    rw [typeFieldsLoopF] at h
    exact absurd h (fun hx => Option.noConfusion hx)
  | succ a ih =>
    intro p fs v p1 h hinv
    rw [typeFieldsLoopF] at h
    split at h
    · split at h
      · exact absurd h (by simp)
      · rename_i f q1 hfield
        obtain ⟨hf1, hf2, hf3⟩ := parseTypeField_ok_inv p f q1 hfield hinv
        obtain ⟨hk1, hk2, hk3⟩ := commaSkip_inv q1 hf1
        obtain ⟨hl1, hl2, hl3⟩ := ih _ _ v p1 h hk1
        exact ⟨hl1, le_trans hf2 (le_trans hk2 hl2), by rw [hl3, hk3, hf3]⟩
    · injection h with h
      injection h with h
      injection h with hv hp
      subst hp
      exact ⟨hinv, le_refl _, rfl⟩

theorem typeFieldsLoopF_err : ∀ (fuel : Nat) (p : Parser) (fs : List Ast.TypeField)
    (e : ParseError), typeFieldsLoopF fuel p fs = some (.error e) → isUT e := by
  intro fuel
  induction fuel with
  | zero =>
    intro p fs e h
    rw [typeFieldsLoopF] at h
    exact absurd h (fun hx => Option.noConfusion hx)
  | succ a ih =>
    intro p fs e h
    rw [typeFieldsLoopF] at h
    split at h
    · split at h
      · rename_i e2 hfield
        injection h with h
        injection h with h
        exact h ▸ parseTypeField_err p e2 hfield
      · rename_i f q1 hfield
        exact ih _ _ e h
    · exact absurd h (by simp)

theorem parseTypeDefinition_ok_inv (p : Parser) (v : Ast.Statement) (p1 : Parser)
    (h : parseTypeDefinition p = some (.ok (v, p1))) (hinv : Inv p) :
    Inv p1 ∧ p.current ≤ p1.current ∧ p1.tokens = p.tokens := by
  rw [parseTypeDefinition] at h
  rcases hadv : advance p with ⟨t, q1⟩
  rw [hadv] at h
  dsimp only at h
  have hstep := advance_inv p hinv
  rw [hadv] at hstep
  obtain ⟨hs1, hs2, hs3⟩ := hstep
  split at h
  · rename_i name hname
    split at h
    · exact absurd h (by simp)
    · rename_i t2 q2 hcons1
      obtain ⟨hc1, hc2, hc3⟩ := consume_ok_inv q1 .Arrow _ t2 q2 hcons1 hs1
      split at h
      · exact absurd h (by simp)
      · rename_i t3 q3 hcons2
        obtain ⟨hd1, hd2, hd3⟩ := consume_ok_inv q2 .LeftBrace _ t3 q3 hcons2 hc1
        split at h
        · exact absurd h (by simp)
        · exact absurd h (by simp)
        · rename_i fields q4 hloop
          obtain ⟨hl1, hl2, hl3⟩ := typeFieldsLoopF_ok_inv _ q3 [] fields q4 hloop hd1
          split at h
          · exact absurd h (by simp)
          · rename_i t5 q5 hcons3
            injection h with h
            injection h with h
            injection h with hv hp
            subst hp
            obtain ⟨hm1, hm2, hm3⟩ := consume_ok_inv q4 .RightBrace _ t5 q5 hcons3 hl1
            refine ⟨hm1, ?_, by rw [hm3, hl3, hd3, hc3, hs3]⟩
            exact le_trans hs2 (le_trans hc2 (le_trans hd2 (le_trans hl2 hm2)))
  · exact absurd h (by simp)

theorem parseTypeDefinition_err (p : Parser) (e : ParseError)
    (h : parseTypeDefinition p = some (.error e)) : isUT e := by
  rw [parseTypeDefinition] at h
  rcases hadv : advance p with ⟨t, q1⟩
  rw [hadv] at h
  dsimp only at h
  split at h
  · rename_i name hname
    split at h
    · rename_i e2 hcons
      injection h with h
      injection h with h
      exact h ▸ consume_err q1 .Arrow _ e2 hcons
    · rename_i t2 q2 hcons1
      split at h
      · rename_i e2 hcons
        injection h with h
        injection h with h
        exact h ▸ consume_err q2 .LeftBrace _ e2 hcons
      · rename_i t3 q3 hcons2
        split at h
        · exact absurd h (by simp)
        · rename_i e2 hloop
          injection h with h
          injection h with h
          exact h ▸ typeFieldsLoopF_err _ q3 [] e2 hloop
        · rename_i fields q4 hloop
          split at h
          · rename_i e2 hcons
            injection h with h
            injection h with h
            exact h ▸ consume_err q4 .RightBrace _ e2 hcons
          · exact absurd h (by simp)
  · injection h with h
    injection h with h
    exact ⟨_, _, _, _, h.symm⟩

end Parser

namespace Parser

theorem parseStatement_ok_inv (p : Parser) (v : Ast.Statement) (p1 : Parser)
    (h : parseStatement p = some (.ok (v, p1))) (hinv : Inv p) :
    Inv p1 ∧ p.current ≤ p1.current ∧ p1.tokens = p.tokens := by
  rw [parseStatement] at h
  split at h
  · rename_i q1 hmt
    have hq := matchToken_inv p .Let hinv
    rw [hmt] at hq
    obtain ⟨hl1, hl2, hl3⟩ := parseLetStatement_ok_inv q1 v p1 h hq.1
    exact ⟨hl1, le_trans hq.2.1 hl2, by rw [hl3]; exact hq.2.2⟩
  · split at h
    · rename_i q1 hmt
      have hq := matchToken_inv p .Const hinv
      rw [hmt] at hq
      obtain ⟨hl1, hl2, hl3⟩ := parseConstStatement_ok_inv q1 v p1 h hq.1
      exact ⟨hl1, le_trans hq.2.1 hl2, by rw [hl3]; exact hq.2.2⟩
    · split at h
      · rename_i q1 hmt
        have hq := matchToken_inv p .Type hinv
        rw [hmt] at hq
        obtain ⟨hl1, hl2, hl3⟩ := parseTypeDefinition_ok_inv q1 v p1 h hq.1
        exact ⟨hl1, le_trans hq.2.1 hl2, by rw [hl3]; exact hq.2.2⟩
      · exact absurd h (by simp)

theorem parseStatement_err (p : Parser) (e : ParseError)
    (h : parseStatement p = some (.error e)) : isUT e := by
  rw [parseStatement] at h
  split at h
  · rename_i q1 hmt
    exact parseLetStatement_err q1 e h
  · split at h
    · rename_i q1 hmt
      exact parseConstStatement_err q1 e h
    · split at h
      · rename_i q1 hmt
        exact parseTypeDefinition_err q1 e h
      · injection h with h
        injection h with h
        exact ⟨_, _, _, _, h.symm⟩

theorem statementsLoopF_ok_inv : ∀ (fuel : Nat) (p : Parser) (ss : List Ast.Statement)
    (v : List Ast.Statement) (p1 : Parser),
    statementsLoopF fuel p ss = some (.ok (v, p1)) → Inv p →
    Inv p1 ∧ p.current ≤ p1.current ∧ p1.tokens = p.tokens := by
  intro fuel
  induction fuel with
  | zero =>
    intro p ss v p1 h
    rw [statementsLoopF] at h
    exact absurd h (fun hx => Option.noConfusion hx)
  | succ a ih =>
    intro p ss v p1 h hinv
    rw [statementsLoopF] at h
    split at h
    · split at h
      · exact absurd h (by simp)
      · exact absurd h (by simp)
      · rename_i s q1 hstmt
        obtain ⟨hs1, hs2, hs3⟩ := parseStatement_ok_inv p s q1 hstmt hinv
        obtain ⟨hl1, hl2, hl3⟩ := ih _ _ v p1 h hs1
        exact ⟨hl1, le_trans hs2 hl2, by rw [hl3, hs3]⟩
    · injection h with h
      injection h with h
      injection h with hv hp
      subst hp
      exact ⟨hinv, le_refl _, rfl⟩

theorem statementsLoopF_err : ∀ (fuel : Nat) (p : Parser) (ss : List Ast.Statement)
    (e : ParseError), statementsLoopF fuel p ss = some (.error e) → isUT e := by
  intro fuel
  induction fuel with
  | zero =>
    intro p ss e h
    rw [statementsLoopF] at h
    exact absurd h (fun hx => Option.noConfusion hx)
  | succ a ih =>
    intro p ss e h
    rw [statementsLoopF] at h
    split at h
    · split at h
      · exact absurd h (by simp)
      · rename_i e2 hstmt
        injection h with h
        injection h with h
        exact h ▸ parseStatement_err p e2 hstmt
      · rename_i s q1 hstmt
        exact ih _ _ e h
    · exact absurd h (by simp)

theorem parseModule_ok_inv (p : Parser) (v : Ast.Module) (p1 : Parser)
    (h : parseModule p = some (.ok (v, p1))) (hinv : Inv p) :
    Inv p1 ∧ p.current ≤ p1.current ∧ p1.tokens = p.tokens := by
  rw [parseModule] at h
  rcases hadv : advance p with ⟨t, q1⟩
  rw [hadv] at h
  dsimp only at h
  have hstep := advance_inv p hinv
  rw [hadv] at hstep
  obtain ⟨hs1, hs2, hs3⟩ := hstep
  split at h
  · rename_i name hname
    split at h
    · exact absurd h (by simp)
    · rename_i t2 q2 hcons1
      obtain ⟨hc1, hc2, hc3⟩ := consume_ok_inv q1 .LeftBrace _ t2 q2 hcons1 hs1
      split at h
      · exact absurd h (by simp)
      · exact absurd h (by simp)
      · rename_i stmts q3 hloop
        obtain ⟨hl1, hl2, hl3⟩ := statementsLoopF_ok_inv _ q2 [] stmts q3 hloop hc1
        split at h
        · exact absurd h (by simp)
        · rename_i t4 q4 hcons2
          injection h with h
          injection h with h
          injection h with hv hp
          subst hp
          obtain ⟨hm1, hm2, hm3⟩ := consume_ok_inv q3 .RightBrace _ t4 q4 hcons2 hl1
          refine ⟨hm1, ?_, by rw [hm3, hl3, hc3, hs3]⟩
          exact le_trans hs2 (le_trans hc2 (le_trans hl2 hm2))
  · exact absurd h (by simp)

theorem parseModule_err (p : Parser) (e : ParseError)
    (h : parseModule p = some (.error e)) : isUT e := by
  rw [parseModule] at h
  rcases hadv : advance p with ⟨t, q1⟩
  rw [hadv] at h
  dsimp only at h
  split at h
  · rename_i name hname
    split at h
    · rename_i e2 hcons
      injection h with h
      injection h with h
      exact h ▸ consume_err q1 .LeftBrace _ e2 hcons
    · rename_i t2 q2 hcons1
      split at h
      · exact absurd h (by simp)
      · rename_i e2 hloop
        injection h with h
        injection h with h
        exact h ▸ statementsLoopF_err _ q2 [] e2 hloop
      · rename_i stmts q3 hloop
        split at h
        · rename_i e2 hcons
          injection h with h
          injection h with h
          exact h ▸ consume_err q3 .RightBrace _ e2 hcons
        · exact absurd h (by simp)
  · injection h with h
    injection h with h
    exact ⟨_, _, _, _, h.symm⟩

theorem programLoopF_ok_inv : ∀ (fuel : Nat) (p : Parser) (ms : List Ast.Module)
    (v : List Ast.Module) (p1 : Parser),
    programLoopF fuel p ms = some (.ok (v, p1)) → Inv p →
    Inv p1 ∧ p.current ≤ p1.current ∧ p1.tokens = p.tokens := by
  intro fuel
  induction fuel with
  | zero =>
    intro p ms v p1 h
    rw [programLoopF] at h
    exact absurd h (fun hx => Option.noConfusion hx)
  | succ a ih =>
    intro p ms v p1 h hinv
    rw [programLoopF] at h
    split at h
    · split at h
      · rename_i q1 hmt
        have hq := matchToken_inv p .Module hinv
        rw [hmt] at hq
        split at h
        · exact absurd h (by simp)
        · exact absurd h (by simp)
        · rename_i m q2 hmod
          obtain ⟨hm1, hm2, hm3⟩ := parseModule_ok_inv q1 m q2 hmod hq.1
          obtain ⟨hl1, hl2, hl3⟩ := ih _ _ v p1 h hm1
          refine ⟨hl1, le_trans hq.2.1 (le_trans hm2 hl2), ?_⟩
          rw [hl3, hm3]
          exact hq.2.2
      · exact absurd h (by simp)
    · injection h with h
      injection h with h
      injection h with hv hp
      subst hp
      exact ⟨hinv, le_refl _, rfl⟩

theorem programLoopF_err : ∀ (fuel : Nat) (p : Parser) (ms : List Ast.Module)
    (e : ParseError), programLoopF fuel p ms = some (.error e) → isUT e := by
  intro fuel
  induction fuel with
  | zero =>
    intro p ms e h
    rw [programLoopF] at h
    exact absurd h (fun hx => Option.noConfusion hx)
  | succ a ih =>
    intro p ms e h
    rw [programLoopF] at h
    split at h
    · split at h
      · rename_i q1 hmt
        split at h
        · exact absurd h (by simp)
        · rename_i e2 hmod
          injection h with h
          injection h with h
          exact h ▸ parseModule_err q1 e2 hmod
        · rename_i m q2 hmod
          exact ih _ _ e h
      · injection h with h
        injection h with h
        exact ⟨_, _, _, _, h.symm⟩
    · exact absurd h (by simp)

theorem parseSt_ok_inv (p : Parser) (v : Ast.Program) (p1 : Parser)
    (h : parseSt p = .ok (v, p1)) (hinv : Inv p) :
    Inv p1 ∧ p.current ≤ p1.current ∧ p1.tokens = p.tokens := by
  rw [parseSt] at h
  split at h
  · exact absurd h (by simp)
  · exact absurd h (by simp)
  · rename_i mods q hloop
    injection h with h
    injection h with hv hp
    subst hp
    exact programLoopF_ok_inv _ p [] mods q hloop hinv

theorem parseSt_err (p : Parser) (e : ParseError)
    (h : parseSt p = .error e) : isUT e := by
  rw [parseSt] at h
  split at h
  · injection h with h
    exact ⟨_, _, _, _, h.symm⟩
  · rename_i e2 hloop
    injection h with h
    exact h ▸ programLoopF_err _ p [] e2 hloop
  · exact absurd h (by simp)

end Parser

theorem parse_err (tokens : List Token) (e : ParseError)
    (h : parse tokens = .error e) : isUT e := by
  rw [parse] at h
  split at h
  · rename_i e2 hst
    injection h with h
    exact h ▸ Parser.parseSt_err (Parser.new tokens) e2 hst
  · exact absurd h (by simp)

/-- C8: every error value parse can return is of the UnexpectedToken
variant; the InvalidExpression and UnexpectedEOF variants of ParseError
are never produced by any parser code path. -/
theorem claim_C8_error_taxonomy (tokens : List Token) (e : ParseError)
    (h : parse tokens = .error e) :
    (∃ a b c d, e = .UnexpectedToken a b c d) ∧
    (∀ m li co, e ≠ .InvalidExpression m li co) ∧
    (∀ li co, e ≠ .UnexpectedEOF li co) := by
  obtain ⟨a, b, c, d, he⟩ := parse_err tokens e h
  subst he
  exact ⟨⟨a, b, c, d, rfl⟩, fun m li co hx => ParseError.noConfusion hx,
    fun li co hx => ParseError.noConfusion hx⟩

/-- The C8 facts evaluated on the error of a two-token input. -/
theorem claim_C8_witness :
    (∃ a b c d, (ParseError.UnexpectedToken "module" .Let 1 1) = .UnexpectedToken a b c d) ∧
    (∀ m li co, (ParseError.UnexpectedToken "module" .Let 1 1) ≠ .InvalidExpression m li co) ∧
    (∀ li co, (ParseError.UnexpectedToken "module" .Let 1 1) ≠ .UnexpectedEOF li co) :=
  claim_C8_error_taxonomy [⟨.Let, 1, 1⟩, ⟨.EOF, 1, 4⟩]
    (.UnexpectedToken "module" .Let 1 1) rfl

/-- C9: for an EOF-terminated token list the initial parser state
satisfies the cursor invariant; the invariant gives in-bounds indices
for the accesses of peek and previous; advance keeps the cursor
monotone, in bounds and the tokens unchanged; and every successful run
of parse preserves all of it, so the cursor never decreases and never
passes the index of the final EOF token. -/
theorem claim_C9_cursor_invariant (tokens : List Token) (hEOF : EOFLast tokens) :
    Parser.Inv (Parser.new tokens) ∧
    (∀ p : Parser, Parser.Inv p →
      (p.current < p.tokens.length ∧ p.current - 1 < p.tokens.length) ∧
      p.current ≤ (Parser.advance p).2.current ∧
      Parser.Inv (Parser.advance p).2 ∧ (Parser.advance p).2.tokens = p.tokens) ∧
    (∀ prog p', Parser.parseSt (Parser.new tokens) = .ok (prog, p') →
      Parser.Inv p' ∧ (Parser.new tokens).current ≤ p'.current ∧ p'.tokens = tokens) := by
  have hinv0 : Parser.Inv (Parser.new tokens) := by
    refine ⟨hEOF, ?_⟩
    obtain ⟨ts0, tE, hts, -, -⟩ := hEOF
    rw [hts]
    show 0 < (ts0 ++ [tE]).length
    simp
  refine ⟨hinv0,
    fun p hp => ⟨⟨hp.2, by have := hp.2; omega⟩, Parser.advance_mono p,
      (Parser.advance_inv p hp).1, Parser.advance_tokens p⟩,
    fun prog p' h => Parser.parseSt_ok_inv (Parser.new tokens) prog p' h hinv0⟩

/-- The C9 invariant evaluated at the one-token EOF input. -/
theorem claim_C9_witness :
    Parser.Inv (Parser.new [(⟨.EOF, 1, 1⟩ : Token)]) :=
  (claim_C9_cursor_invariant [⟨.EOF, 1, 1⟩] ⟨[], ⟨.EOF, 1, 1⟩, rfl, rfl, by simp⟩).1

/-! ### C5: whitespace invariance of the token-type sequence -/

/-- The characters Lexer::skip_whitespace consumes as plain whitespace. -/
def wsChar (c : Char) : Prop := c = ' ' ∨ c = '\r' ∨ c = '\t' ∨ c = '\n'

/-- A run of whitespace characters. -/
def wsRun (u : List Char) : Prop := ∀ c ∈ u, wsChar c

/-- A list headed by a whitespace character. -/
def WsHead : List Char → Prop
  | [] => False
  | c :: _ => wsChar c

/-- The scanning trace of the pure tokenizer from s reaches the suffix
t: t is the unconsumed input at the start of some next_token call. -/
inductive VisitsT : List Char → List Char → Prop where
  | refl (s : List Char) : VisitsT s s
  | step (s : List Char) (τ : TokenType) (r t : List Char) :
      nextTokT s = .ok (τ, r) → τ ≠ .EOF → VisitsT r t → VisitsT s t

/-- The token-type sequence of a tokenize result, with errors reduced to
their kind. -/
def tokTypesOf : Except LexerError (List Token) → Except LexErrKind (List TokenType)
  | .ok ts => .ok (ts.map Token.token_type)
  | .error e => .error (kindOf e)

/-- The pure, position-free form of the tokenize loop: the sequence of
token types produced from the unconsumed input. -/
def tokTypesT : Nat → List Char → Except LexErrKind (List TokenType)
  | 0, _ => .error (.KUnexpectedCharacter nullChar)
  | fuel + 1, s =>
    match nextTokT s with
    | .error k => .error k
    | .ok (τ, r) =>
      if τ = .EOF then .ok [τ]
      else
        match tokTypesT fuel r with
        | .error k => .error k
        | .ok τs => .ok (τ :: τs)

/-- The pure token-type sequence with canonical fuel. -/
def tokTypesL (s : List Char) : Except LexErrKind (List TokenType) :=
  tokTypesT (s.length + 1) s

theorem append_cancel_r {as cs bs : List Char} (h : as ++ bs = cs ++ bs) : as = cs := by
  have hl : as.length = cs.length := by
    have := congrArg List.length h
    simp at this
    omega
  exact (List.append_inj h hl).1

theorem takeWhile_append_all (p : Char → Bool) :
    ∀ (d r : List Char), (∀ x ∈ d, p x = true) → (d ++ r).takeWhile p = d ++ r.takeWhile p := by
  intro d
  induction d with
  | nil => intro r _; rfl
  | cons c t ih =>
    intro r h
    have hc : p c = true := h c (by simp)
    simp only [List.cons_append, List.takeWhile_cons, hc, if_true]
    rw [ih r (fun x hx => h x (List.mem_cons_of_mem c hx))]

theorem dropWhile_append_all (p : Char → Bool) :
    ∀ (d r : List Char), (∀ x ∈ d, p x = true) → (d ++ r).dropWhile p = r.dropWhile p := by
  intro d
  induction d with
  | nil => intro r _; rfl
  | cons c t ih =>
    intro r h
    have hc : p c = true := h c (by simp)
    simp only [List.cons_append, List.dropWhile_cons, hc, if_true]
    exact ih r (fun x hx => h x (List.mem_cons_of_mem c hx))

theorem dropWhile_append_eq (p : Char → Bool) :
    ∀ (d r : List Char), (d ++ r).dropWhile p = r →
      (∀ x ∈ d, p x = true) ∧ (∀ c rt, r = c :: rt → p c = false) := by
  intro d
  induction d with
  | nil =>
    intro r h
    refine ⟨by simp, fun c rt hr => ?_⟩
    subst hr
    by_cases hp : p c = true
    · exfalso
      rw [List.nil_append, List.dropWhile_cons, if_pos hp] at h
      have hle := (List.dropWhile_suffix (l := rt) p).length_le
      have hlen := congrArg List.length h
      simp at hlen
      omega
    · simpa using hp
  | cons a t ih =>
    intro r h
    rw [List.cons_append, List.dropWhile_cons] at h
    by_cases hp : p a = true
    · rw [if_pos hp] at h
      obtain ⟨h1, h2⟩ := ih r h
      refine ⟨fun x hx => ?_, h2⟩
      rcases List.mem_cons.mp hx with hx | hx
      · rw [hx]; exact hp
      · exact h1 x hx
    · rw [if_neg hp] at h
      exfalso
      have hlen := congrArg List.length h
      simp at hlen
      omega

theorem suffix_trans_len {s l1 l2 : List Char} (h1 : l1.IsSuffix s) (h2 : l2.IsSuffix s)
    (hl : l2.length ≤ l1.length) : ∃ d, l1 = d ++ l2 := by
  obtain ⟨x1, hx1⟩ := h1
  obtain ⟨x2, hx2⟩ := h2
  refine ⟨l1.take (l1.length - l2.length), ?_⟩
  have hdrop : l1.drop (l1.length - l2.length) = l2 := by
    have he : x1 ++ l1 = x2 ++ l2 := by rw [hx1, hx2]
    have hlen : x1.length + l1.length = x2.length + l2.length := by
      have := congrArg List.length he
      simpa using this
    have h2' : x2.length = x1.length + (l1.length - l2.length) := by omega
    calc l1.drop (l1.length - l2.length)
        = (x1 ++ l1).drop (x1.length + (l1.length - l2.length)) := (List.drop_append _).symm
      _ = (x2 ++ l2).drop (x2.length + 0) := by rw [he, h2', Nat.add_zero]
      _ = l2 := by rw [List.drop_append]; rfl
  conv_lhs => rw [← List.take_append_drop (l1.length - l2.length) l1]
  rw [hdrop]

/-- Plain whitespace before any input is skipped entirely. -/
theorem skipWsL_ws_prefix : ∀ u x, wsRun u → skipWsL (u ++ x) = skipWsL x := by
  intro u
  induction u with
  | nil => intro x _; rfl
  | cons c t ih =>
    intro x h
    have hc : c = ' ' ∨ c = '\r' ∨ c = '\t' ∨ c = '\n' := h c (by simp)
    rw [List.cons_append, skipWsL, if_pos hc]
    exact ih x (fun a ha => h a (List.mem_cons_of_mem c ha))

/-- Fuel irrelevance for the pure token-type loop. -/
theorem tokTypesT_irrel : ∀ f1 f2 : Nat, ∀ s : List Char,
    s.length < f1 → s.length < f2 → tokTypesT f1 s = tokTypesT f2 s := by
  intro f1
  induction f1 using Nat.strong_induction_on with
  | _ f1 ih =>
    intro f2 s h1 h2
    match f1, f2 with
    | a + 1, b + 1 =>
      rw [tokTypesT, tokTypesT]
      cases hnt : nextTokT s with
      | error k => rfl
      | ok p =>
        obtain ⟨τ, r⟩ := p
        dsimp only
        by_cases he : τ = .EOF
        · rw [if_pos he, if_pos he]
        · rw [if_neg he, if_neg he]
          have hlt := Lexer.nextTokT_progress s τ r hnt he
          rw [ih a (Nat.lt_succ_self a) b r (by omega) (by omega)]

/-- The pure token-type loop satisfies the tokenize recurrence. -/
theorem tokTypesL_unfold (s : List Char) :
    tokTypesL s =
      (match nextTokT s with
       | .error k => .error k
       | .ok (τ, r) =>
         if τ = .EOF then .ok [τ]
         else match tokTypesL r with
              | .error k => .error k
              | .ok τs => .ok (τ :: τs)) := by
  simp only [tokTypesL]
  rw [tokTypesT]
  cases hnt : nextTokT s with
  | error k => rfl
  | ok p =>
    obtain ⟨τ, r⟩ := p
    dsimp only
    by_cases he : τ = .EOF
    · rw [if_pos he, if_pos he]
    · rw [if_neg he, if_neg he]
      have hlt := Lexer.nextTokT_progress s τ r hnt he
      rw [tokTypesT_irrel s.length (r.length + 1) r (by omega) (by omega)]

/-- Each run of the stateful tokenize loop computes, after erasing
positions, the pure token-type loop on the unconsumed input. -/
theorem tokenizeF_types : ∀ (fuel : Nat) (l : Lexer),
    tokTypesOf (Lexer.tokenizeF fuel l) = tokTypesT fuel (Lexer.dropCur l) := by
  intro fuel
  induction fuel with
  | zero => intro l; rfl
  | succ a ih =>
    intro l
    rw [Lexer.tokenizeF, tokTypesT]
    have hs := Lexer.nextToken_toT l
    revert hs
    cases hnt : Lexer.nextToken l with
    | error e =>
      cases hT : nextTokT (Lexer.dropCur l) with
      | error k =>
        intro hs
        have hk : kindOf e = k := hs
        dsimp only [tokTypesOf]
        rw [hk]
      | ok p =>
        intro hs
        exact absurd hs (by simp [SimNT])
    | ok p =>
      obtain ⟨t, l'⟩ := p
      cases hT : nextTokT (Lexer.dropCur l) with
      | error k =>
        intro hs
        exact absurd hs (by simp [SimNT])
      | ok q =>
        obtain ⟨τ, r⟩ := q
        intro hs
        obtain ⟨hty, hdc⟩ := hs
        dsimp only
        rw [hty]
        by_cases he : τ = .EOF
        · rw [if_pos he, if_pos he]
          simp [tokTypesOf, hty]
        · rw [if_neg he, if_neg he]
          have hrec := ih l'
          rw [hdc] at hrec
          cases hta : Lexer.tokenizeF a l' with
          | error e2 =>
            rw [hta] at hrec
            rw [← hrec]
            rfl
          | ok ts =>
            rw [hta] at hrec
            rw [← hrec]
            dsimp only [tokTypesOf]
            rw [List.map_cons, hty]

/-- The token-type sequence of tokenize is the pure token-type loop of
the unconsumed input. -/
theorem tokenize_types (l : Lexer) :
    tokTypesOf (Lexer.tokenize l) = tokTypesL (Lexer.dropCur l) := by
  rw [Lexer.tokenize, tokenizeF_types]
  exact tokTypesT_irrel _ _ _ (by rw [Lexer.dropCur_len]; omega)
    (by omega)

theorem wsChar_scan_facts (c : Char) (h : wsChar c) :
    Lexer.isIdentChar c = false ∧ c.isDigit = false ∧ c ≠ '>' ∧ (c != '"') = true ∧
      c ≠ '.' ∧ c ≠ '/' := by
  rcases h with rfl | rfl | rfl | rfl <;>
    exact ⟨by decide, by decide, by decide, by decide, by decide, by decide⟩

/-- A slash that survives whitespace skipping is not the start of any
token. -/
theorem scanT_slash (rest : List Char) :
    scanT '/' rest = .error (.KUnexpectedCharacter '/') := rfl

theorem numTokT_suffix (c : Char) (rest : List Char) :
    (numTokT c rest).2.IsSuffix rest := by
  rw [numTokT]
  split
  · rename_i r2 heq
    split
    · dsimp only
      exact ((List.dropWhile_suffix _).trans (List.suffix_cons '.' r2)).trans
        (heq ▸ List.dropWhile_suffix _)
    · dsimp only
      exact heq ▸ List.dropWhile_suffix _
  · exact List.dropWhile_suffix _

/-- The remaining input of a successful scan is a suffix of its input. -/
theorem scanT_suffix (c : Char) (rest : List Char) (τ : TokenType) (r : List Char)
    (h : scanT c rest = .ok (τ, r)) : r.IsSuffix rest := by
  by_cases h1 : c = '{'
  · subst h1
    rw [show scanT '{' rest = .ok (.LeftBrace, rest) from rfl] at h
    injection h with h'
    injection h' with ha hb
    subst hb
    exact List.suffix_refl rest
  by_cases h2 : c = '}'
  · subst h2
    rw [show scanT '}' rest = .ok (.RightBrace, rest) from rfl] at h
    injection h with h'
    injection h' with ha hb
    subst hb
    exact List.suffix_refl rest
  by_cases h3 : c = '('
  · subst h3
    rw [show scanT '(' rest = .ok (.LeftParen, rest) from rfl] at h
    injection h with h'
    injection h' with ha hb
    subst hb
    exact List.suffix_refl rest
  by_cases h4 : c = ')'
  · subst h4
    rw [show scanT ')' rest = .ok (.RightParen, rest) from rfl] at h
    injection h with h'
    injection h' with ha hb
    subst hb
    exact List.suffix_refl rest
  by_cases h5 : c = ':'
  · subst h5
    rw [show scanT ':' rest = .ok (.Colon, rest) from rfl] at h
    injection h with h'
    injection h' with ha hb
    subst hb
    exact List.suffix_refl rest
  by_cases h6 : c = '='
  · subst h6
    cases hr : rest with
    | nil =>
      rw [hr, show scanT '=' [] = .ok (.Equals, []) from rfl] at h
      injection h with h'
      injection h' with ha hb
      subst hb
      exact List.suffix_refl _
    | cons y r' =>
      by_cases hy : y = '>'
      · subst hy
        rw [hr, show scanT '=' ('>' :: r') = .ok (.Arrow, r') from rfl] at h
        injection h with h'
        injection h' with ha hb
        subst hb
        exact List.suffix_cons _ _
      · rw [hr, Lexer.scanT_eq_not_gt y r' hy] at h
        injection h with h'
        injection h' with ha hb
        subst hb
        exact List.suffix_refl _
  by_cases h7 : c = '.'
  · subst h7
    rw [show scanT '.' rest = .ok (.Dot, rest) from rfl] at h
    injection h with h'
    injection h' with ha hb
    subst hb
    exact List.suffix_refl rest
  by_cases h8 : c = ','
  · subst h8
    rw [show scanT ',' rest = .ok (.Comma, rest) from rfl] at h
    injection h with h'
    injection h' with ha hb
    subst hb
    exact List.suffix_refl rest
  by_cases h9 : c = '"'
  · subst h9
    rw [Lexer.scanT_quote] at h
    revert h
    cases hdw : rest.dropWhile (fun x => x != '"') with
    | nil =>
      intro h
      exact absurd h (by simp)
    | cons q r' =>
      intro h
      injection h with h'
      injection h' with ha hb
      subst hb
      exact ((List.suffix_cons q r').trans (hdw ▸ List.dropWhile_suffix _))
  by_cases h10 : c.isDigit
  · rw [Lexer.scanT_digit c rest h1 h2 h3 h4 h5 h6 h7 h8 h9 h10] at h
    injection h with h'
    have := numTokT_suffix c rest
    rw [h'] at this
    exact this
  by_cases h11 : (c.isAlpha || c = '_') = true
  · rw [Lexer.scanT_ident c rest h1 h2 h3 h4 h5 h6 h7 h8 h9 h10 h11] at h
    injection h with h'
    injection h' with ha hb
    subst hb
    exact List.dropWhile_suffix _
  · rw [Lexer.scanT_other c rest h1 h2 h3 h4 h5 h6 h7 h8 h9 h10 h11] at h
    exact absurd h (by simp)

/-- The remaining input of a successful pure token step is a suffix. -/
theorem nextTokT_suffix (s : List Char) (τ : TokenType) (r : List Char)
    (h : nextTokT s = .ok (τ, r)) : r.IsSuffix s := by
  rw [nextTokT] at h
  revert h
  cases hsk : skipWsL s with
  | nil =>
    intro h
    injection h with h'
    injection h' with ha hb
    subst hb
    exact List.nil_suffix
  | cons c rest =>
    intro h
    exact ((scanT_suffix c rest τ r h).trans (List.suffix_cons c rest)).trans
      (hsk ▸ skipWsL_suffix s)

/-- The unconsumed input at any visited point of the scanning trace is a
suffix of the original input. -/
theorem VisitsT_suffix (s t : List Char) (h : VisitsT s t) : t.IsSuffix s := by
  induction h with
  | refl s => exact List.suffix_refl s
  | step s τ r t hnt hne hvis ih => exact ih.trans (nextTokT_suffix s τ r hnt)

/-- Whitespace skipping that stops strictly before a trailing context
computes the same prefix of skipped input in any other context, provided
the stopping character is not a slash. -/
theorem skipWsL_swap : ∀ (n : Nat) (a0 m m' d : List Char), a0.length ≤ n →
    skipWsL (a0 ++ m) = d ++ m → d ≠ [] → d.headD nullChar ≠ '/' →
    skipWsL (a0 ++ m') = d ++ m' := by
  intro n
  induction n with
  | zero =>
    intro a0 m m' d hlen h hne _
    have ha0 : a0 = [] := List.length_eq_zero.mp (by omega)
    subst ha0
    exfalso
    have hle := skipWsL_len_le m
    have hl2 := congrArg List.length h
    simp at hl2
    cases d with
    | nil => exact hne rfl
    | cons x xs => simp [List.length_cons] at hl2; omega
  | succ nn ih =>
    intro a0 m m' d hlen h hne hsl
    cases a0 with
    | nil =>
      exfalso
      have hle := skipWsL_len_le m
      have hl2 := congrArg List.length h
      simp at hl2
      cases d with
      | nil => exact hne rfl
      | cons x xs => simp [List.length_cons] at hl2; omega
    | cons c t =>
      rw [List.cons_append, skipWsL] at h
      rw [List.cons_append, skipWsL]
      by_cases hws : c = ' ' ∨ c = '\r' ∨ c = '\t' ∨ c = '\n'
      · rw [if_pos hws] at h
        rw [if_pos hws]
        have hlen2 : t.length ≤ nn := by simp at hlen; omega
        exact ih t m m' d hlen2 h hne hsl
      · rw [if_neg hws] at h
        rw [if_neg hws]
        by_cases hcm : c = '/' ∧ (t ++ m).head? = some '/'
        · rw [if_pos hcm] at h
          obtain ⟨hc, hhead⟩ := hcm
          subst hc
          have hdw : ('/' :: (t ++ m)).dropWhile (fun x => x != '\n') =
              (t ++ m).dropWhile (fun x => x != '\n') := by
            simp [List.dropWhile_cons]
          rw [hdw] at h
          by_cases hnl : '\n' ∈ t
          · have htd : t.dropWhile (fun x => x != '\n') ≠ [] := by
              rw [Ne, List.dropWhile_eq_nil_iff]
              intro hall
              have := hall '\n' hnl
              simp at this
            have hsplit : (t ++ m).dropWhile (fun x => x != '\n') =
                t.dropWhile (fun x => x != '\n') ++ m := by
              rw [List.dropWhile_append]
              rw [if_neg (by simpa [List.isEmpty_iff] using htd)]
            rw [hsplit] at h
            have hlen2 : (t.dropWhile (fun x => x != '\n')).length ≤ nn := by
              have := dropWhile_len_le (fun x => x != '\n') t
              simp at hlen
              omega
            have hres := ih _ m m' d hlen2 h hne hsl
            have ht_ne : t ≠ [] := by
              intro hx
              rw [hx] at hnl
              exact absurd hnl (by simp)
            have hhead2 : (t ++ m').head? = some '/' := by
              cases t with
              | nil => exact absurd rfl ht_ne
              | cons a t2 =>
                rw [List.cons_append, List.head?_cons]
                rw [List.cons_append, List.head?_cons] at hhead
                exact hhead
            rw [if_pos ⟨rfl, hhead2⟩]
            have hdw2 : ('/' :: (t ++ m')).dropWhile (fun x => x != '\n') =
                t.dropWhile (fun x => x != '\n') ++ m' := by
              simp only [List.dropWhile_cons]
              rw [if_pos (by decide)]
              rw [List.dropWhile_append]
              rw [if_neg (by simpa [List.isEmpty_iff] using htd)]
            rw [hdw2]
            exact hres
          · exfalso
            have htd : t.dropWhile (fun x => x != '\n') = [] := by
              rw [List.dropWhile_eq_nil_iff]
              intro x hx
              simp
              intro hxeq
              exact hnl (hxeq ▸ hx)
            have hsplit : (t ++ m).dropWhile (fun x => x != '\n') =
                m.dropWhile (fun x => x != '\n') := by
              rw [List.dropWhile_append]
              rw [if_pos (by simp [List.isEmpty_iff, htd])]
            rw [hsplit] at h
            have hle1 := skipWsL_len_le (m.dropWhile (fun x => x != '\n'))
            have hle2 := dropWhile_len_le (fun x => x != '\n') m
            have hl2 := congrArg List.length h
            simp at hl2
            cases d with
            | nil => exact hne rfl
            | cons x xs => simp [List.length_cons] at hl2; omega
        · rw [if_neg hcm] at h
          have hd : d = c :: t := by
            have h2 : (c :: t) ++ m = d ++ m := by simpa using h
            exact (append_cancel_r h2).symm
          subst hd
          have hc_ne : c ≠ '/' := by
            intro hx
            exact hsl (by simp [hx])
          rw [if_neg (fun hx => hc_ne hx.1)]
          simp

/-- Transfer of a head property across a whitespace-headed context swap. -/
theorem head_swap (a2 w w' : List Char) (P : Char → Prop)
    (hfail : ∀ x rt, a2 ++ w = x :: rt → P x)
    (hws : ∀ x, wsChar x → P x) (hw' : WsHead w') :
    ∀ x rt, a2 ++ w' = x :: rt → P x := by
  intro x rt hx
  cases a2 with
  | nil =>
    simp only [List.nil_append] at hx
    rw [hx] at hw'
    exact hws x hw'
  | cons b a2r =>
    rw [List.cons_append] at hx
    injection hx with h1 h2
    subst h1
    exact hfail b (a2r ++ w) rfl

theorem numTokT_eval_plain (c : Char) (d2 : List Char) (x : Char) (rt : List Char)
    (hall : ∀ y ∈ d2, y.isDigit = true) (hx : x.isDigit = false) (hdot : x ≠ '.') :
    numTokT c (d2 ++ x :: rt) = (.NumberLiteral (String.mk (c :: d2)), x :: rt) := by
  have htw : (d2 ++ x :: rt).takeWhile Char.isDigit = d2 := by
    rw [takeWhile_append_all _ _ _ hall, List.takeWhile_cons, if_neg (by simp [hx])]
    simp
  have hdw : (d2 ++ x :: rt).dropWhile Char.isDigit = x :: rt := by
    rw [dropWhile_append_all _ _ _ hall, List.dropWhile_cons, if_neg (by simp [hx])]
  rw [numTokT]
  split
  · rename_i rt2 heq
    rw [hdw] at heq
    injection heq with h1 h2
    exact absurd h1 hdot
  · rename_i hnotdot
    rw [htw, hdw]

theorem numTokT_eval_nil (c : Char) (d2 : List Char)
    (hall : ∀ y ∈ d2, y.isDigit = true) :
    numTokT c (d2 ++ []) = (.NumberLiteral (String.mk (c :: d2)), []) := by
  have htw : (d2 ++ ([] : List Char)).takeWhile Char.isDigit = d2 := by
    rw [takeWhile_append_all _ _ _ hall]
    simp
  have hdw : (d2 ++ ([] : List Char)).dropWhile Char.isDigit = [] := by
    rw [dropWhile_append_all _ _ _ hall]
    rfl
  rw [numTokT]
  split
  · rename_i rt2 heq
    rw [hdw] at heq
    exact absurd heq (by simp)
  · rw [htw, hdw]

theorem numTokT_eval_dot_nodigit (c : Char) (d2 : List Char) (rt : List Char)
    (hall : ∀ y ∈ d2, y.isDigit = true)
    (hdig : (rt.headD nullChar).isDigit = false) :
    numTokT c (d2 ++ '.' :: rt) = (.NumberLiteral (String.mk (c :: d2)), '.' :: rt) := by
  have htw : (d2 ++ '.' :: rt).takeWhile Char.isDigit = d2 := by
    rw [takeWhile_append_all _ _ _ hall, List.takeWhile_cons, if_neg (by decide)]
    simp
  have hdw : (d2 ++ '.' :: rt).dropWhile Char.isDigit = '.' :: rt := by
    rw [dropWhile_append_all _ _ _ hall, List.dropWhile_cons, if_neg (by decide)]
  rw [numTokT]
  split
  · rename_i rt2 heq
    rw [hdw] at heq
    injection heq with h1 h2
    subst h2
    rw [if_neg (by simpa using hdig), htw, hdw]
  · rename_i hnotdot
    exact (hnotdot rt hdw).elim

theorem numTokT_eval_frac (c : Char) (d1 f rr : List Char) (f0 : Char) (fs : List Char)
    (hd1 : ∀ y ∈ d1, y.isDigit = true) (hf : ∀ y ∈ f, y.isDigit = true)
    (hfcons : f = f0 :: fs)
    (hfail : ∀ x rt, rr = x :: rt → x.isDigit = false) :
    numTokT c (d1 ++ '.' :: (f ++ rr)) =
      (.NumberLiteral (String.mk (c :: d1 ++ '.' :: f)), rr) := by
  have htw : (d1 ++ '.' :: (f ++ rr)).takeWhile Char.isDigit = d1 := by
    rw [takeWhile_append_all _ _ _ hd1, List.takeWhile_cons, if_neg (by decide)]
    simp
  have hdw : (d1 ++ '.' :: (f ++ rr)).dropWhile Char.isDigit = '.' :: (f ++ rr) := by
    rw [dropWhile_append_all _ _ _ hd1, List.dropWhile_cons, if_neg (by decide)]
  have htwf : (f ++ rr).takeWhile Char.isDigit = f := by
    rw [takeWhile_append_all _ _ _ hf]
    cases hr : rr with
    | nil => simp
    | cons x rt =>
      rw [List.takeWhile_cons, if_neg (by simp [hfail x rt hr])]
      simp
  have hdwf : (f ++ rr).dropWhile Char.isDigit = rr := by
    rw [dropWhile_append_all _ _ _ hf]
    cases hr : rr with
    | nil => rfl
    | cons x rt => rw [List.dropWhile_cons, if_neg (by simp [hfail x rt hr])]
  rw [numTokT]
  split
  · rename_i rt2 heq
    rw [hdw] at heq
    injection heq with h1 h2
    subst h2
    have hhd : ((f ++ rr).headD nullChar).isDigit = true := by
      rw [hfcons]
      simp only [List.cons_append, List.headD_cons]
      exact hf f0 (by rw [hfcons]; simp)
    rw [if_pos hhd, htw, htwf, hdwf]
  · rename_i hnotdot
    exact (hnotdot (f ++ rr) hdw).elim

theorem takeWhile_eval (p : Char → Bool) (d rr : List Char)
    (hall : ∀ y ∈ d, p y = true) (hfail : ∀ x rt, rr = x :: rt → p x = false) :
    (d ++ rr).takeWhile p = d := by
  rw [takeWhile_append_all _ _ _ hall]
  cases hr : rr with
  | nil => simp
  | cons x rt =>
    rw [List.takeWhile_cons, if_neg (by simp [hfail x rt hr])]
    simp

theorem dropWhile_eval (p : Char → Bool) (d rr : List Char)
    (hall : ∀ y ∈ d, p y = true) (hfail : ∀ x rt, rr = x :: rt → p x = false) :
    (d ++ rr).dropWhile p = rr := by
  rw [dropWhile_append_all _ _ _ hall]
  cases hr : rr with
  | nil => rfl
  | cons x rt => rw [List.dropWhile_cons, if_neg (by simp [hfail x rt hr])]

/-- A token scan that ends exactly at a trailing context produces the
same token and consumes the same characters when the context is replaced
by any whitespace-headed one. -/
theorem scanT_swap (c : Char) (d2 a2 w w' : List Char) (τ : TokenType)
    (hw' : WsHead w')
    (h : scanT c (d2 ++ (a2 ++ w)) = .ok (τ, a2 ++ w)) :
    scanT c (d2 ++ (a2 ++ w')) = .ok (τ, a2 ++ w') := by
  obtain ⟨cw, w0, rfl, hcw⟩ : ∃ cw w0, w' = cw :: w0 ∧ wsChar cw := by
    cases w' with
    | nil => exact hw'.elim
    | cons x xs => exact ⟨x, xs, rfl, hw'⟩
  obtain ⟨hws_id, hws_dig, hws_gt, hws_q, hws_dot, hws_sl⟩ := wsChar_scan_facts cw hcw
  by_cases h1 : c = '{'
  · subst h1
    rw [show scanT '{' (d2 ++ (a2 ++ w)) = .ok (.LeftBrace, d2 ++ (a2 ++ w)) from rfl] at h
    injection h with h'
    injection h' with ha hb
    subst ha
    have hd2 : d2 = [] := append_cancel_r (show d2 ++ (a2 ++ w) = [] ++ (a2 ++ w) by simpa using hb)
    subst hd2
    rfl
  by_cases h2 : c = '}'
  · subst h2
    rw [show scanT '}' (d2 ++ (a2 ++ w)) = .ok (.RightBrace, d2 ++ (a2 ++ w)) from rfl] at h
    injection h with h'
    injection h' with ha hb
    subst ha
    have hd2 : d2 = [] := append_cancel_r (show d2 ++ (a2 ++ w) = [] ++ (a2 ++ w) by simpa using hb)
    subst hd2
    rfl
  by_cases h3 : c = '('
  · subst h3
    rw [show scanT '(' (d2 ++ (a2 ++ w)) = .ok (.LeftParen, d2 ++ (a2 ++ w)) from rfl] at h
    injection h with h'
    injection h' with ha hb
    subst ha
    have hd2 : d2 = [] := append_cancel_r (show d2 ++ (a2 ++ w) = [] ++ (a2 ++ w) by simpa using hb)
    subst hd2
    rfl
  by_cases h4 : c = ')'
  · subst h4
    rw [show scanT ')' (d2 ++ (a2 ++ w)) = .ok (.RightParen, d2 ++ (a2 ++ w)) from rfl] at h
    injection h with h'
    injection h' with ha hb
    subst ha
    have hd2 : d2 = [] := append_cancel_r (show d2 ++ (a2 ++ w) = [] ++ (a2 ++ w) by simpa using hb)
    subst hd2
    rfl
  by_cases h5 : c = ':'
  · subst h5
    rw [show scanT ':' (d2 ++ (a2 ++ w)) = .ok (.Colon, d2 ++ (a2 ++ w)) from rfl] at h
    injection h with h'
    injection h' with ha hb
    subst ha
    have hd2 : d2 = [] := append_cancel_r (show d2 ++ (a2 ++ w) = [] ++ (a2 ++ w) by simpa using hb)
    subst hd2
    rfl
  by_cases h6 : c = '='
  · subst h6
    cases d2 with
    | nil =>
      simp only [List.nil_append] at h ⊢
      cases a2 with
      | nil =>
        simp only [List.nil_append] at h ⊢
        cases hw : w with
        | nil =>
          rw [hw, show scanT '=' [] = .ok (.Equals, []) from rfl] at h
          injection h with h'
          injection h' with ha hb
          subst ha
          rw [Lexer.scanT_eq_not_gt cw w0 hws_gt]
        | cons y ww =>
          by_cases hy : y = '>'
          · subst hy
            rw [hw, show scanT '=' ('>' :: ww) = .ok (.Arrow, ww) from rfl] at h
            injection h with h'
            injection h' with ha hb
            exfalso
            have := congrArg List.length hb
            simp at this
          · rw [hw, Lexer.scanT_eq_not_gt y ww hy] at h
            injection h with h'
            injection h' with ha hb
            subst ha
            rw [Lexer.scanT_eq_not_gt cw w0 hws_gt]
      | cons b a2r =>
        simp only [List.cons_append] at h ⊢
        by_cases hb' : b = '>'
        · subst hb'
          rw [show scanT '=' ('>' :: (a2r ++ w)) = .ok (.Arrow, a2r ++ w) from rfl] at h
          injection h with h'
          injection h' with ha hb
          exfalso
          have := congrArg List.length hb
          simp at this
        · rw [Lexer.scanT_eq_not_gt b (a2r ++ w) hb'] at h
          injection h with h'
          injection h' with ha hb
          subst ha
          rw [Lexer.scanT_eq_not_gt b (a2r ++ (cw :: w0)) hb']
    | cons e d2r =>
      simp only [List.cons_append] at h ⊢
      by_cases he' : e = '>'
      · subst he'
        rw [show scanT '=' ('>' :: (d2r ++ (a2 ++ w))) = .ok (.Arrow, d2r ++ (a2 ++ w)) from rfl] at h
        injection h with h'
        injection h' with ha hb
        subst ha
        have hd2r : d2r = [] := append_cancel_r (show d2r ++ (a2 ++ w) = [] ++ (a2 ++ w) by simpa using hb)
        subst hd2r
        simp only [List.nil_append]
        rfl
      · rw [Lexer.scanT_eq_not_gt e (d2r ++ (a2 ++ w)) he'] at h
        injection h with h'
        injection h' with ha hb
        exfalso
        have := congrArg List.length hb
        simp at this
        omega
  by_cases h7 : c = '.'
  · subst h7
    rw [show scanT '.' (d2 ++ (a2 ++ w)) = .ok (.Dot, d2 ++ (a2 ++ w)) from rfl] at h
    injection h with h'
    injection h' with ha hb
    subst ha
    have hd2 : d2 = [] := append_cancel_r (show d2 ++ (a2 ++ w) = [] ++ (a2 ++ w) by simpa using hb)
    subst hd2
    rfl
  by_cases h8 : c = ','
  · subst h8
    rw [show scanT ',' (d2 ++ (a2 ++ w)) = .ok (.Comma, d2 ++ (a2 ++ w)) from rfl] at h
    injection h with h'
    injection h' with ha hb
    subst ha
    have hd2 : d2 = [] := append_cancel_r (show d2 ++ (a2 ++ w) = [] ++ (a2 ++ w) by simpa using hb)
    subst hd2
    rfl
  by_cases h9 : c = '"'
  · subst h9
    rw [Lexer.scanT_quote] at h
    revert h
    cases hdw : (d2 ++ (a2 ++ w)).dropWhile (fun x => x != '"') with
    | nil => intro h; exact absurd h (by simp)
    | cons q r' =>
      intro h
      injection h with h'
      injection h' with ha hb
      subst hb
      subst ha
      have hsplit : (d2 ++ (a2 ++ w)).takeWhile (fun x => x != '"') ++ (q :: (a2 ++ w)) =
          d2 ++ (a2 ++ w) := by
        conv_rhs => rw [← List.takeWhile_append_dropWhile (fun x => x != '"') (d2 ++ (a2 ++ w))]
        rw [hdw]
      set tw := (d2 ++ (a2 ++ w)).takeWhile (fun x => x != '"') with htwdef
      have hd2 : d2 = tw ++ [q] := by
        have hx : (tw ++ [q]) ++ (a2 ++ w) = d2 ++ (a2 ++ w) := by
          simpa using hsplit
        exact (append_cancel_r hx).symm
      have htwfree : ∀ x ∈ tw, (x != '"') = true := by
        intro x hx
        rw [htwdef] at hx
        have hres := List.mem_takeWhile_imp hx
        exact hres
      have hq : (q != '"') = false := by
        have harg : d2 ++ (a2 ++ w) = tw ++ (q :: (a2 ++ w)) := hsplit.symm
        have hdw2 : (tw ++ (q :: (a2 ++ w))).dropWhile (fun x => x != '"') = q :: (a2 ++ w) := by
          rw [← harg, hdw]
        exact (dropWhile_append_eq _ _ _ hdw2).2 q (a2 ++ w) rfl
      have hq' : q = '"' := by simpa using hq
      subst hq'
      rw [Lexer.scanT_quote, hd2]
      have harg2 : (tw ++ ['"']) ++ (a2 ++ (cw :: w0)) = tw ++ ('"' :: (a2 ++ (cw :: w0))) := by
        simp
      rw [harg2]
      have hdw3 : (tw ++ ('"' :: (a2 ++ (cw :: w0)))).dropWhile (fun x => x != '"') =
          '"' :: (a2 ++ (cw :: w0)) := by
        rw [dropWhile_append_all _ _ _ htwfree, List.dropWhile_cons, if_neg (by decide)]
      rw [hdw3]
      have htw3 : (tw ++ ('"' :: (a2 ++ (cw :: w0)))).takeWhile (fun x => x != '"') = tw := by
        rw [takeWhile_append_all _ _ _ htwfree, List.takeWhile_cons, if_neg (by decide)]
        simp
      rw [htw3]
  by_cases h10 : c.isDigit
  · rw [Lexer.scanT_digit c _ h1 h2 h3 h4 h5 h6 h7 h8 h9 h10] at h
    rw [Lexer.scanT_digit c _ h1 h2 h3 h4 h5 h6 h7 h8 h9 h10]
    injection h with hnum
    rw [numTokT] at hnum
    split at hnum
    · rename_i r2 heq
      split at hnum
      · rename_i hdig
        injection hnum with hτ hrem
        subst hτ
        set d1 := (d2 ++ (a2 ++ w)).takeWhile Char.isDigit with hd1def
        set f := r2.takeWhile Char.isDigit with hfdef
        have hr2 : f ++ (a2 ++ w) = r2 := by
          rw [hfdef, ← hrem]
          exact List.takeWhile_append_dropWhile _ _
        have hrest : d1 ++ '.' :: r2 = d2 ++ (a2 ++ w) := by
          rw [hd1def, ← heq]
          exact List.takeWhile_append_dropWhile _ _
        have hd2eq : d2 = d1 ++ '.' :: f := by
          have hx : (d1 ++ '.' :: f) ++ (a2 ++ w) = d2 ++ (a2 ++ w) := by
            rw [← hrest, ← hr2]
            simp
          exact (append_cancel_r hx).symm
        have hd1all : ∀ y ∈ d1, y.isDigit = true := fun y hy => List.mem_takeWhile_imp hy
        have hfall : ∀ y ∈ f, y.isDigit = true := fun y hy => List.mem_takeWhile_imp hy
        have hfail : ∀ x rt, a2 ++ w = x :: rt → x.isDigit = false := by
          have h0 := dropWhile_append_eq Char.isDigit f (a2 ++ w) (by rw [hr2]; exact hrem)
          exact h0.2
        have hfail' : ∀ x rt, a2 ++ (cw :: w0) = x :: rt → x.isDigit = false :=
          head_swap a2 w (cw :: w0) _ hfail
            (fun x hx => (wsChar_scan_facts x hx).2.1) hcw
        obtain ⟨f0, fs, hfcons⟩ : ∃ f0 fs, f = f0 :: fs := by
          cases hf : f with
          | nil =>
            exfalso
            rw [hf] at hr2
            simp only [List.nil_append] at hr2
            cases haw : a2 ++ w with
            | nil =>
              rw [← hr2, haw] at hdig
              simp at hdig
              exact absurd hdig (by decide)
            | cons x rt =>
              have hxd := hfail x rt haw
              rw [← hr2, haw] at hdig
              simp at hdig
              rw [hxd] at hdig
              exact Bool.noConfusion hdig
          | cons f0 fs => exact ⟨f0, fs, rfl⟩
        rw [hd2eq]
        have harg : (d1 ++ '.' :: f) ++ (a2 ++ (cw :: w0)) =
            d1 ++ '.' :: (f ++ (a2 ++ (cw :: w0))) := by simp
        rw [harg, numTokT_eval_frac c d1 f (a2 ++ (cw :: w0)) f0 fs hd1all hfall hfcons hfail']
      · rename_i hdig
        injection hnum with hτ hrem
        subst hτ
        have h0 := dropWhile_append_eq Char.isDigit d2 (a2 ++ w) hrem
        have hall2 := h0.1
        have hfail := h0.2
        have hfail' : ∀ x rt, a2 ++ (cw :: w0) = x :: rt → x.isDigit = false :=
          head_swap a2 w (cw :: w0) _ hfail
            (fun x hx => (wsChar_scan_facts x hx).2.1) hcw
        have htweq : (d2 ++ (a2 ++ w)).takeWhile Char.isDigit = d2 :=
          takeWhile_eval _ _ _ hall2 hfail
        rw [htweq]
        have heq2 : '.' :: r2 = a2 ++ w := by rw [← heq, hrem]
        cases a2 with
        | nil =>
          simp only [List.nil_append] at heq2 ⊢
          rw [numTokT_eval_plain c d2 cw w0 hall2 hws_dig hws_dot]
        | cons b a2r =>
          simp only [List.cons_append] at heq2 ⊢
          injection heq2 with hbd hr2w
          subst hbd
          have hdig' : ((a2r ++ (cw :: w0)).headD nullChar).isDigit = false := by
            rw [hr2w] at hdig
            cases a2r with
            | nil => simpa using hws_dig
            | cons g ar =>
              simp only [List.cons_append, List.headD_cons] at hdig ⊢
              simpa using hdig
          have harg : d2 ++ '.' :: (a2r ++ (cw :: w0)) = d2 ++ '.' :: (a2r ++ (cw :: w0)) := rfl
          rw [numTokT_eval_dot_nodigit c d2 (a2r ++ (cw :: w0)) hall2 hdig']
    · rename_i hnotdot
      injection hnum with hτ hrem
      subst hτ
      have h0 := dropWhile_append_eq Char.isDigit d2 (a2 ++ w) hrem
      have hall2 := h0.1
      have hfail := h0.2
      have htweq : (d2 ++ (a2 ++ w)).takeWhile Char.isDigit = d2 :=
        takeWhile_eval _ _ _ hall2 hfail
      rw [htweq]
      cases a2 with
      | nil =>
        simp only [List.nil_append] at hrem ⊢
        rw [numTokT_eval_plain c d2 cw w0 hall2 hws_dig hws_dot]
      | cons b a2r =>
        simp only [List.cons_append] at hrem ⊢
        have hbdot : b ≠ '.' := by
          intro hx
          subst hx
          exact hnotdot (a2r ++ w) (by simp only [List.cons_append]; exact hrem)
        have hbd := hfail b (a2r ++ w) rfl
        rw [numTokT_eval_plain c d2 b (a2r ++ (cw :: w0)) hall2 hbd hbdot]
  by_cases h11 : (c.isAlpha || c = '_') = true
  · rw [Lexer.scanT_ident c _ h1 h2 h3 h4 h5 h6 h7 h8 h9 h10 h11] at h
    rw [Lexer.scanT_ident c _ h1 h2 h3 h4 h5 h6 h7 h8 h9 h10 h11]
    injection h with h'
    injection h' with hτ hrem
    subst hτ
    have h0 := dropWhile_append_eq Lexer.isIdentChar d2 (a2 ++ w) hrem
    have hall2 := h0.1
    have hfail := h0.2
    have hfail' : ∀ x rt, a2 ++ (cw :: w0) = x :: rt → Lexer.isIdentChar x = false :=
      head_swap a2 w (cw :: w0) _ hfail
        (fun x hx => (wsChar_scan_facts x hx).1) hcw
    rw [takeWhile_eval _ _ _ hall2 hfail, takeWhile_eval _ _ _ hall2 hfail',
      dropWhile_eval _ _ _ hall2 hfail']
  · rw [Lexer.scanT_other c _ h1 h2 h3 h4 h5 h6 h7 h8 h9 h10 h11] at h
    exact absurd h (by simp)

/-- A pure token step that ends exactly at a trailing context transfers
to any whitespace-headed replacement context. -/
theorem nextTokT_swap (a0 a2 w w' : List Char) (τ : TokenType) (hw' : WsHead w')
    (hτ : τ ≠ .EOF)
    (h : nextTokT ((a0 ++ a2) ++ w) = .ok (τ, a2 ++ w)) :
    nextTokT ((a0 ++ a2) ++ w') = .ok (τ, a2 ++ w') := by
  rw [nextTokT] at h
  rw [nextTokT]
  revert h
  cases hsk : skipWsL ((a0 ++ a2) ++ w) with
  | nil =>
    intro h
    injection h with h'
    injection h' with ha hb
    exact absurd ha.symm hτ
  | cons c rest =>
    intro h
    have h : scanT c rest = .ok (τ, a2 ++ w) := h
    have hsuf1 : (c :: rest).IsSuffix ((a0 ++ a2) ++ w) := hsk ▸ skipWsL_suffix _
    have hsuf2 : (a2 ++ w).IsSuffix ((a0 ++ a2) ++ w) := ⟨a0, by simp⟩
    have hlen : (a2 ++ w).length ≤ (c :: rest).length := by
      have hle := (Lexer.scanT_ok_facts c rest τ _ h).2
      simp only [List.length_cons, List.length_append] at hle ⊢
      omega
    obtain ⟨d, hd⟩ := suffix_trans_len hsuf1 hsuf2 hlen
    cases hdc : d with
    | nil =>
      exfalso
      rw [hdc] at hd
      have hlc := congrArg List.length hd
      have hle := (Lexer.scanT_ok_facts c rest τ _ h).2
      simp only [List.length_cons, List.length_append, List.nil_append] at hlc hle
      omega
    | cons c2 d2 =>
      rw [hdc] at hd
      injection hd with hc2 hrest
      subst hc2
      subst hrest
      have hcs : c ≠ '/' := by
        intro hx
        subst hx
        rw [scanT_slash] at h
        exact Except.noConfusion h
      have hsw : skipWsL ((a0 ++ a2) ++ w') = ((c :: d2) ++ a2) ++ w' := by
        refine skipWsL_swap (a0 ++ a2).length (a0 ++ a2) w w' ((c :: d2) ++ a2)
          le_rfl ?_ (by simp) (by simpa using hcs)
        rw [hsk]
        simp
      rw [hsw]
      have hnorm : ((c :: d2) ++ a2) ++ w' = c :: (d2 ++ (a2 ++ w')) := by simp
      rw [hnorm]
      show scanT c (d2 ++ (a2 ++ w')) = .ok (τ, a2 ++ w')
      exact scanT_swap c d2 a2 w w' τ hw' h

/-- Swapping one whitespace run at a visited point of the scanning trace
for any other nonempty whitespace run preserves the entire token-type
sequence. -/
theorem tokTypesL_swap (s t : List Char) (hvis : VisitsT s t) :
    ∀ (a u1 u2 z : List Char), s = a ++ (u1 ++ z) → t = u1 ++ z →
    wsRun u1 → wsRun u2 → u2 ≠ [] →
    tokTypesL (a ++ (u1 ++ z)) = tokTypesL (a ++ (u2 ++ z)) := by
  induction hvis with
  | refl s0 =>
    intro a u1 u2 z hs ht hu1 hu2 hne
    have hx : a ++ (u1 ++ z) = u1 ++ z := by rw [← hs, ht]
    have ha : a = [] := by
      have hl := congrArg List.length hx
      simp at hl
      exact hl
    subst ha
    simp only [List.nil_append]
    rw [tokTypesL_unfold (u1 ++ z), tokTypesL_unfold (u2 ++ z)]
    have h1 : nextTokT (u1 ++ z) = nextTokT z := by
      rw [nextTokT, nextTokT, skipWsL_ws_prefix u1 z hu1]
    have h2 : nextTokT (u2 ++ z) = nextTokT z := by
      rw [nextTokT, nextTokT, skipWsL_ws_prefix u2 z hu2]
    rw [h1, h2]
  | step s0 τ r t0 hnt hτ hvis0 ih =>
    intro a u1 u2 z hs ht hu1 hu2 hne
    subst hs
    subst ht
    have hsufr : r.IsSuffix (a ++ (u1 ++ z)) := nextTokT_suffix _ τ r hnt
    have hsuft : (u1 ++ z).IsSuffix r := VisitsT_suffix r _ hvis0
    obtain ⟨a2, ha2⟩ := hsuft
    obtain ⟨a0, ha0⟩ := hsufr
    have haa : a = a0 ++ a2 := by
      have hx : (a0 ++ a2) ++ (u1 ++ z) = a ++ (u1 ++ z) := by
        rw [List.append_assoc, ha2, ha0]
      exact (append_cancel_r hx).symm
    subst haa
    have hnt1 : nextTokT ((a0 ++ a2) ++ (u1 ++ z)) = .ok (τ, a2 ++ (u1 ++ z)) := by
      rw [← ha2] at hnt
      exact hnt
    have hwh : WsHead (u2 ++ z) := by
      cases u2 with
      | nil => exact absurd rfl hne
      | cons x xs => exact hu2 x (by simp)
    have hnt2 : nextTokT ((a0 ++ a2) ++ (u2 ++ z)) = .ok (τ, a2 ++ (u2 ++ z)) :=
      nextTokT_swap a0 a2 (u1 ++ z) (u2 ++ z) τ hwh hτ hnt1
    rw [tokTypesL_unfold ((a0 ++ a2) ++ (u1 ++ z)),
      tokTypesL_unfold ((a0 ++ a2) ++ (u2 ++ z)), hnt1, hnt2]
    dsimp only
    rw [if_neg hτ, if_neg hτ]
    have hrec := ih a2 u1 u2 z ha2.symm rfl hu1 hu2 hne
    rw [hrec]

/-- C5 (amended): replacing one whitespace run by any nonempty run of
spaces, tabs or newlines, at a position the tokenizer visits as a token
boundary, preserves the token-type sequence of tokenize (and the error
kind on failure); positions may differ. -/
theorem claim_C5_ws_invariance (a u1 u2 z : List Char)
    (hu1 : wsRun u1) (hu2 : wsRun u2) (hne : u2 ≠ [])
    (hvis : VisitsT (a ++ (u1 ++ z)) (u1 ++ z)) :
    tokTypesOf (Lexer.tokenize (Lexer.new (a ++ (u1 ++ z)))) =
      tokTypesOf (Lexer.tokenize (Lexer.new (a ++ (u2 ++ z)))) := by
  rw [tokenize_types, tokenize_types]
  show tokTypesL (a ++ (u1 ++ z)) = tokTypesL (a ++ (u2 ++ z))
  exact tokTypesL_swap _ _ hvis a u1 u2 z rfl rfl hu1 hu2 hne

/-- The C5 invariance evaluated on swapping a space for a tab. -/
theorem claim_C5_witness :
    tokTypesOf (Lexer.tokenize (Lexer.new ['a', ' ', '{'])) =
      tokTypesOf (Lexer.tokenize (Lexer.new ['a', '\t', '{'])) := by
  have hsk : skipWsL ['a', ' ', '{'] = 'a' :: [' ', '{'] := by
    rw [skipWsL, if_neg (by decide), if_neg (by decide)]
  have hstep : nextTokT (['a'] ++ ([' '] ++ ['{'])) = .ok (.Identifier "a", [' ', '{']) := by
    rw [show (['a'] ++ ([' '] ++ ['{'])) = ['a', ' ', '{'] from rfl, nextTokT, hsk]
    rfl
  exact claim_C5_ws_invariance ['a'] [' '] ['\t'] ['{']
    (fun c hc => by simp at hc; rw [hc]; exact Or.inl rfl)
    (fun c hc => by simp at hc; rw [hc]; exact Or.inr (Or.inr (Or.inl rfl)))
    (by simp)
    (VisitsT.step _ (.Identifier "a") [' ', '{'] _ hstep
      (fun hx => TokenType.noConfusion hx) (VisitsT.refl _))

/-- C5 counterexample to the spec sentence: removing the whitespace run
between two identifiers is a removal outside string literals and not
inside any single token, yet it merges the identifiers and changes the
token-type sequence. -/
theorem claim_C5_counterexample :
    Lexer.tokenize (Lexer.new ['a', ' ', 'b']) =
      .ok [⟨.Identifier "a", 1, 1⟩, ⟨.Identifier "b", 1, 3⟩, ⟨.EOF, 1, 4⟩] ∧
    Lexer.tokenize (Lexer.new ['a', 'b']) =
      .ok [⟨.Identifier "ab", 1, 1⟩, ⟨.EOF, 1, 3⟩] ∧
    [TokenType.Identifier "a", .Identifier "b", .EOF] ≠ [TokenType.Identifier "ab", .EOF] :=
  ⟨rfl, rfl, by decide⟩

/-! ### Totality of the parser for the fuel the wrappers pass -/

namespace Parser

theorem notAtEnd_lt (p : Parser) (h : p.isAtEnd = false) :
    p.current < p.tokens.length := by
  by_cases hc : p.current < p.tokens.length
  · exact hc
  · exfalso
    have hpeek : peek p = defaultToken := by
      rw [peek]
      exact List.getD_eq_default _ _ (by omega)
    rw [isAtEnd, hpeek] at h
    exact Bool.noConfusion h

theorem check_true_not_atEnd (p : Parser) (tt : TokenType) (h : check p tt = true) :
    p.isAtEnd = false := by
  rw [check] at h
  by_cases he : p.isAtEnd = true
  · rw [if_pos he] at h
    exact Bool.noConfusion h
  · exact Bool.not_eq_true _ ▸ he

theorem advance_step (p : Parser) (h : p.isAtEnd = false) :
    (advance p).2 = { p with current := p.current + 1 } := by
  simp [advance, h]

theorem consume_ok_step (p : Parser) (tt : TokenType) (msg : String) (t : Token) (p' : Parser)
    (h : consume p tt msg = .ok (t, p')) :
    p' = { p with current := p.current + 1 } ∧ p.isAtEnd = false := by
  rw [consume] at h
  split at h
  · rename_i hchk
    have hend := check_true_not_atEnd p tt hchk
    injection h with h
    have h2 : (advance p).2 = p' := congrArg Prod.snd h
    rw [← h2, advance_step p hend]
    exact ⟨rfl, hend⟩
  · exact absurd h (by simp)

theorem matchToken_true_step (p : Parser) (tt : TokenType) (p1 : Parser)
    (h : matchToken p tt = (true, p1)) :
    p1 = { p with current := p.current + 1 } ∧ p.isAtEnd = false := by
  rw [matchToken] at h
  split at h
  · rename_i hchk
    have hend := check_true_not_atEnd p tt hchk
    injection h with h1 h2
    rw [← h2, advance_step p hend]
    exact ⟨rfl, hend⟩
  · injection h with h1 h2
    exact Bool.noConfusion h1.symm

theorem parsePrimary_consume (p : Parser) (v : Ast.Expression) (p' : Parser)
    (h : parsePrimary p = .ok (v, p')) (hend : p.isAtEnd = false) :
    p' = { p with current := p.current + 1 } := by
  rw [parsePrimary] at h
  rcases hadv : advance p with ⟨t, p1⟩
  rw [hadv] at h
  dsimp only at h
  have hstep : p1 = { p with current := p.current + 1 } := by
    have := advance_step p hend
    rw [hadv] at this
    exact this
  split at h <;>
    first
      | (injection h with h; injection h with hv hp; rw [← hp]; exact hstep)
      | exact absurd h (by simp)

theorem parseObjectExpressionF_strict (fuel : Nat) (p : Parser) (v : Ast.Expression)
    (p' : Parser) (hinv : Inv p)
    (h : parseObjectExpressionF fuel p = some (.ok (v, p'))) :
    p.current < p'.current := by
  cases fuel with
  | zero => exact absurd h (by rw [parseObjectExpressionF]; simp)
  | succ a =>
    rw [parseObjectExpressionF] at h
    split at h
    · exact absurd h (by simp)
    · rename_i t1 q1 hcons1
      obtain ⟨hq1, hend⟩ := consume_ok_step p .LeftBrace _ t1 q1 hcons1
      have hinv1 : Inv q1 ∧ p.current ≤ q1.current ∧ q1.tokens = p.tokens := by
        have hx := consume_ok_inv p .LeftBrace _ t1 q1 hcons1 hinv
        exact hx
      split at h
      · exact absurd h (by simp)
      · exact absurd h (by simp)
      · rename_i fields q2 hloop
        obtain ⟨hl1, hl2, hl3⟩ := (exprGroup_ok_inv a).2.1 q1 [] fields q2 hloop hinv1.1
        split at h
        · exact absurd h (by simp)
        · rename_i t3 q3 hcons2
          injection h with h
          injection h with h
          injection h with hv hp
          obtain ⟨hm1, hm2, hm3⟩ := consume_ok_inv q2 .RightBrace _ t3 q3 hcons2 hl1
          rw [← hp]
          rw [hq1] at hl2
          simp only at hl2
          omega

theorem parseExpressionF_strict (fuel : Nat) (p : Parser) (v : Ast.Expression)
    (p' : Parser) (hinv : Inv p)
    (h : parseExpressionF fuel p = some (.ok (v, p'))) :
    p.current < p'.current := by
  cases fuel with
  | zero => exact absurd h (by rw [parseExpressionF]; simp)
  | succ a =>
    rw [parseExpressionF] at h
    split at h <;>
      first
        | (rename_i heq
           injection h with h
           have hend : p.isAtEnd = false := by rw [isAtEnd, heq]; rfl
           rw [parsePrimary_consume p v p' h hend]
           simp)
        | exact parseObjectExpressionF_strict a p v p' hinv h
        | exact absurd h (by simp)

/-- With the invariant, fuel exceeding twice the remaining token count
never runs out in the expression parser. -/
theorem exprGroup_some : ∀ fuel : Nat,
    (∀ p : Parser, Inv p → 2 * (p.tokens.length - p.current) + 1 ≤ fuel →
      parseExpressionF fuel p ≠ none) ∧
    (∀ (p : Parser) (fs : List (String × Ast.Expression)), Inv p →
      2 * (p.tokens.length - p.current) + 1 ≤ fuel →
      objectFieldsLoopF fuel p fs ≠ none) ∧
    (∀ p : Parser, Inv p → 2 * (p.tokens.length - p.current) ≤ fuel →
      parseObjectExpressionF fuel p ≠ none) := by
  intro fuel
  induction fuel with
  | zero =>
    refine ⟨fun p hinv hf => absurd hf (by omega),
      fun p fs hinv hf => absurd hf (by omega),
      fun p hinv hf => ?_⟩
    exfalso
    have := hinv.2
    omega
  | succ a ih =>
    obtain ⟨ihE, ihL, ihO⟩ := ih
    refine ⟨fun p hinv hf => ?_, fun p fs hinv hf => ?_, fun p hinv hf => ?_⟩
    · intro hx
      rw [parseExpressionF] at hx
      split at hx <;>
        first
          | exact Option.noConfusion hx
          | (rename_i heq
             refine ihO p hinv ?_ hx
             have hlt : p.current < p.tokens.length := hinv.2
             omega)
    · intro hx
      rw [objectFieldsLoopF] at hx
      split at hx
      · rename_i hguard
        have hend : p.isAtEnd = false := by
          simp only [Bool.and_eq_true, Bool.not_eq_true'] at hguard
          exact hguard.2
        have hlt2 := notAtEnd_bound p hinv hend
        rcases hadv : advance p with ⟨t, q1⟩
        rw [hadv] at hx
        dsimp only at hx
        have hq1 : q1 = { p with current := p.current + 1 } := by
          have := advance_step p hend
          rw [hadv] at this
          exact this
        have hinv1 : Inv q1 := by
          have := advance_inv p hinv
          rw [hadv] at this
          exact this.1
        split at hx
        · rename_i name hname
          split at hx
          · exact Option.noConfusion hx
          · rename_i t2 q2 hcons
            obtain ⟨hq2, hend1⟩ := consume_ok_step q1 .Colon _ t2 q2 hcons
            have hlt3 := notAtEnd_lt q1 hend1
            have hinv2 : Inv q2 := (consume_ok_inv q1 .Colon _ t2 q2 hcons hinv1).1
            split at hx
            · rename_i hexp
              refine ihE q2 hinv2 ?_ hexp
              rw [hq2, hq1]
              rw [hq1] at hlt3
              simp only at hlt3 ⊢
              omega
            · exact Option.noConfusion hx
            · rename_i value q3 hexp
              obtain ⟨hinv3, hm3, ht3⟩ := (exprGroup_ok_inv a).1 q2 value q3 hexp hinv2
              have hstrict := parseExpressionF_strict a q2 value q3 hinv2 hexp
              obtain ⟨hinv4, hm4, ht4⟩ := commaSkip_inv q3 hinv3
              refine ihL _ _ hinv4 ?_ hx
              rw [ht4, ht3, hq2, hq1]
              rw [hq2, hq1] at hstrict
              rw [hq1] at hlt3
              simp only at hstrict hlt3 ⊢
              omega
        · exact Option.noConfusion hx
      · exact Option.noConfusion hx
    · intro hx
      rw [parseObjectExpressionF] at hx
      split at hx
      · exact Option.noConfusion hx
      · rename_i t1 q1 hcons1
        obtain ⟨hq1, hend⟩ := consume_ok_step p .LeftBrace _ t1 q1 hcons1
        have hlt := notAtEnd_lt p hend
        have hinv1 : Inv q1 := (consume_ok_inv p .LeftBrace _ t1 q1 hcons1 hinv).1
        split at hx
        · rename_i hloop
          refine ihL q1 [] hinv1 ?_ hloop
          rw [hq1]
          simp only
          omega
        · exact Option.noConfusion hx
        · rename_i fields q2 hloop
          split at hx
          · exact Option.noConfusion hx
          · exact Option.noConfusion hx

theorem parseExpression_some (p : Parser) (hinv : Inv p) : parseExpression p ≠ none := by
  refine (exprGroup_some (fuelFor p)).1 p hinv ?_
  rw [fuelFor]
  omega

theorem parseLetStatement_some (p : Parser) (hinv : Inv p) : parseLetStatement p ≠ none := by
  intro hx
  rw [parseLetStatement] at hx
  rcases hadv : advance p with ⟨t, q1⟩
  rw [hadv] at hx
  dsimp only at hx
  have hinv1 : Inv q1 := by
    have := advance_inv p hinv
    rw [hadv] at this
    exact this.1
  split at hx
  · rename_i name hname
    split at hx
    · exact Option.noConfusion hx
    · rename_i t2 q2 hcons
      have hinv2 : Inv q2 := (consume_ok_inv q1 .Equals _ t2 q2 hcons hinv1).1
      split at hx
      · rename_i hexp
        exact parseExpression_some q2 hinv2 hexp
      · exact Option.noConfusion hx
      · exact Option.noConfusion hx
  · exact Option.noConfusion hx

theorem parseConstStatement_some (p : Parser) (hinv : Inv p) : parseConstStatement p ≠ none := by
  intro hx
  rw [parseConstStatement] at hx
  rcases hadv : advance p with ⟨t, q1⟩
  rw [hadv] at hx
  dsimp only at hx
  have hinv1 : Inv q1 := by
    have := advance_inv p hinv
    rw [hadv] at this
    exact this.1
  split at hx
  · rename_i name hname
    split at hx
    · exact Option.noConfusion hx
    · rename_i t2 q2 hcons
      have hinv2 : Inv q2 := (consume_ok_inv q1 .Equals _ t2 q2 hcons hinv1).1
      split at hx
      · rename_i hexp
        exact parseExpression_some q2 hinv2 hexp
      · exact Option.noConfusion hx
      · exact Option.noConfusion hx
  · exact Option.noConfusion hx

theorem parseTypeField_strict (p : Parser) (v : Ast.TypeField) (p1 : Parser)
    (h : parseTypeField p = .ok (v, p1)) (hend : p.isAtEnd = false) (hinv : Inv p) :
    p.current < p1.current ∧ p1.tokens = p.tokens := by
  have hmono := parseTypeField_ok_inv p v p1 h hinv
  rw [parseTypeField] at h
  rcases hadv : advance p with ⟨t, q1⟩
  rw [hadv] at h
  dsimp only at h
  have hq1 : q1 = { p with current := p.current + 1 } := by
    have := advance_step p hend
    rw [hadv] at this
    exact this
  split at h
  · rename_i name hname
    split at h
    · exact absurd h (by simp)
    · rename_i t2 q2 hcons
      split at h
      · exact absurd h (by simp)
      · rename_i ft q3 hty
        injection h with h
        injection h with hv hp
        have hinv1 : Inv q1 := by
          have := advance_inv p hinv
          rw [hadv] at this
          exact this.1
        obtain ⟨hc1, hc2, hc3⟩ := consume_ok_inv q1 .Colon _ t2 q2 hcons hinv1
        obtain ⟨ht1, ht2, ht3⟩ := parseType_ok_inv q2 ft q3 hty hc1
        refine ⟨?_, hmono.2.2⟩
        rw [← hp]
        rw [hq1] at hc2
        simp only at hc2
        omega
  · exact absurd h (by simp)

theorem typeFieldsLoopF_some : ∀ (fuel : Nat) (p : Parser) (fs : List Ast.TypeField),
    Inv p → p.tokens.length - p.current + 1 ≤ fuel →
    typeFieldsLoopF fuel p fs ≠ none := by
  intro fuel
  induction fuel with
  | zero => intro p fs hinv hf; exact absurd hf (by omega)
  | succ a ih =>
    intro p fs hinv hf hx
    rw [typeFieldsLoopF] at hx
    split at hx
    · rename_i hguard
      have hend : p.isAtEnd = false := by
        simp only [Bool.and_eq_true, Bool.not_eq_true'] at hguard
        exact hguard.2
      have hlt := notAtEnd_lt p hend
      split at hx
      · exact Option.noConfusion hx
      · rename_i f q1 hfield
        obtain ⟨hs1, hs3⟩ := parseTypeField_strict p f q1 hfield hend hinv
        have hinv1 : Inv q1 := (parseTypeField_ok_inv p f q1 hfield hinv).1
        obtain ⟨hk1, hk2, hk3⟩ := commaSkip_inv q1 hinv1
        refine ih _ _ hk1 ?_ hx
        rw [hk3, hs3]
        omega
    · exact Option.noConfusion hx

theorem parseTypeDefinition_some (p : Parser) (hinv : Inv p) :
    parseTypeDefinition p ≠ none := by
  intro hx
  rw [parseTypeDefinition] at hx
  rcases hadv : advance p with ⟨t, q1⟩
  rw [hadv] at hx
  dsimp only at hx
  have hinv1 : Inv q1 := by
    have := advance_inv p hinv
    rw [hadv] at this
    exact this.1
  split at hx
  · rename_i name hname
    split at hx
    · exact Option.noConfusion hx
    · rename_i t2 q2 hcons1
      have hinv2 : Inv q2 := (consume_ok_inv q1 .Arrow _ t2 q2 hcons1 hinv1).1
      split at hx
      · exact Option.noConfusion hx
      · rename_i t3 q3 hcons2
        have hinv3 : Inv q3 := (consume_ok_inv q2 .LeftBrace _ t3 q3 hcons2 hinv2).1
        split at hx
        · rename_i hloop
          exact typeFieldsLoopF_some _ q3 [] hinv3 le_rfl hloop
        · exact Option.noConfusion hx
        · rename_i fields q4 hloop
          split at hx
          · exact Option.noConfusion hx
          · exact Option.noConfusion hx
  · exact Option.noConfusion hx

theorem parseStatement_some (p : Parser) (hinv : Inv p) : parseStatement p ≠ none := by
  intro hx
  rw [parseStatement] at hx
  split at hx
  · rename_i q1 hmt
    have hinv1 : Inv q1 := by
      have := matchToken_inv p .Let hinv
      rw [hmt] at this
      exact this.1
    exact parseLetStatement_some q1 hinv1 hx
  · split at hx
    · rename_i q1 hmt
      have hinv1 : Inv q1 := by
        have := matchToken_inv p .Const hinv
        rw [hmt] at this
        exact this.1
      exact parseConstStatement_some q1 hinv1 hx
    · split at hx
      · rename_i q1 hmt
        have hinv1 : Inv q1 := by
          have := matchToken_inv p .Type hinv
          rw [hmt] at this
          exact this.1
        exact parseTypeDefinition_some q1 hinv1 hx
      · exact Option.noConfusion hx

theorem parseStatement_strict (p : Parser) (s : Ast.Statement) (p1 : Parser)
    (h : parseStatement p = some (.ok (s, p1))) (hinv : Inv p) :
    p.current < p1.current ∧ p1.tokens = p.tokens := by
  have hmono := parseStatement_ok_inv p s p1 h hinv
  rw [parseStatement] at h
  split at h
  · rename_i q1 hmt
    obtain ⟨hq1, hend⟩ := matchToken_true_step p .Let q1 hmt
    have hinv1 : Inv q1 := by
      have := matchToken_inv p .Let hinv
      rw [hmt] at this
      exact this.1
    obtain ⟨hl1, hl2, hl3⟩ := parseLetStatement_ok_inv q1 s p1 h hinv1
    refine ⟨?_, hmono.2.2⟩
    rw [hq1] at hl2
    simp only at hl2
    omega
  · split at h
    · rename_i q1 hmt
      obtain ⟨hq1, hend⟩ := matchToken_true_step p .Const q1 hmt
      have hinv1 : Inv q1 := by
        have := matchToken_inv p .Const hinv
        rw [hmt] at this
        exact this.1
      obtain ⟨hl1, hl2, hl3⟩ := parseConstStatement_ok_inv q1 s p1 h hinv1
      refine ⟨?_, hmono.2.2⟩
      rw [hq1] at hl2
      simp only at hl2
      omega
    · split at h
      · rename_i q1 hmt
        obtain ⟨hq1, hend⟩ := matchToken_true_step p .Type q1 hmt
        have hinv1 : Inv q1 := by
          have := matchToken_inv p .Type hinv
          rw [hmt] at this
          exact this.1
        obtain ⟨hl1, hl2, hl3⟩ := parseTypeDefinition_ok_inv q1 s p1 h hinv1
        refine ⟨?_, hmono.2.2⟩
        rw [hq1] at hl2
        simp only at hl2
        omega
      · exact absurd h (by simp)

theorem statementsLoopF_some : ∀ (fuel : Nat) (p : Parser) (ss : List Ast.Statement),
    Inv p → p.tokens.length - p.current + 1 ≤ fuel →
    statementsLoopF fuel p ss ≠ none := by
  intro fuel
  induction fuel with
  | zero => intro p ss hinv hf; exact absurd hf (by omega)
  | succ a ih =>
    intro p ss hinv hf hx
    rw [statementsLoopF] at hx
    split at hx
    · rename_i hguard
      have hlt := hinv.2
      split at hx
      · rename_i hstmt
        exact parseStatement_some p hinv hstmt
      · exact Option.noConfusion hx
      · rename_i s q1 hstmt
        obtain ⟨hs1, hs3⟩ := parseStatement_strict p s q1 hstmt hinv
        have hinv1 : Inv q1 := (parseStatement_ok_inv p s q1 hstmt hinv).1
        refine ih _ _ hinv1 ?_ hx
        rw [hs3]
        omega
    · exact Option.noConfusion hx

theorem parseModule_some (p : Parser) (hinv : Inv p) : parseModule p ≠ none := by
  intro hx
  rw [parseModule] at hx
  rcases hadv : advance p with ⟨t, q1⟩
  rw [hadv] at hx
  dsimp only at hx
  have hinv1 : Inv q1 := by
    have := advance_inv p hinv
    rw [hadv] at this
    exact this.1
  split at hx
  · rename_i name hname
    split at hx
    · exact Option.noConfusion hx
    · rename_i t2 q2 hcons1
      have hinv2 : Inv q2 := (consume_ok_inv q1 .LeftBrace _ t2 q2 hcons1 hinv1).1
      split at hx
      · rename_i hloop
        exact statementsLoopF_some _ q2 [] hinv2 le_rfl hloop
      · exact Option.noConfusion hx
      · rename_i stmts q3 hloop
        split at hx
        · exact Option.noConfusion hx
        · exact Option.noConfusion hx
  · exact Option.noConfusion hx

theorem programLoopF_some : ∀ (fuel : Nat) (p : Parser) (ms : List Ast.Module),
    Inv p → p.tokens.length - p.current + 1 ≤ fuel →
    programLoopF fuel p ms ≠ none := by
  intro fuel
  induction fuel with
  | zero => intro p ms hinv hf; exact absurd hf (by omega)
  | succ a ih =>
    intro p ms hinv hf hx
    rw [programLoopF] at hx
    split at hx
    · split at hx
      · rename_i q1 hmt
        obtain ⟨hq1, hend⟩ := matchToken_true_step p .Module q1 hmt
        have hlt := notAtEnd_lt p hend
        have hinv1 : Inv q1 := by
          have := matchToken_inv p .Module hinv
          rw [hmt] at this
          exact this.1
        split at hx
        · rename_i hmod
          exact parseModule_some q1 hinv1 hmod
        · exact Option.noConfusion hx
        · rename_i m q2 hmod
          obtain ⟨hm1, hm2, hm3⟩ := parseModule_ok_inv q1 m q2 hmod hinv1
          refine ih _ _ hm1 ?_ hx
          rw [hm3, hq1]
          simp only
          rw [hq1] at hm2
          simp only at hm2
          omega
      · exact Option.noConfusion hx
    · exact Option.noConfusion hx

/-- The top-level loop never runs out for the fuel parseSt passes: the
stand-in error of parseSt is dead code on every invariant-satisfying
state, in particular from Parser::new on any EOF-terminated token
list. -/
theorem parseSt_no_fallback (p : Parser) (hinv : Inv p) :
    programLoopF (p.tokens.length - p.current + 1) p [] ≠ none :=
  programLoopF_some _ p [] hinv le_rfl

end Parser
